import Mathlib

/-!
# Flood fill: a shallow embedding of `app/src/main/cpp/flood-fill.cpp`

The C++ translation unit is embedded function by function, then its
properties are proved.

## Conventions of the embedding

* `uint32_t` values are natural numbers, reduced modulo `2^32` where the
  source computes in `uint32_t`.
* `jint` / `int` values supplied by the caller (`fillColor`, `tolerance`,
  `layerCount`) are integers; arithmetic on them is reduced to the signed
  32-bit range (`wrapInt32`), and the `jlong` counter to the signed 64-bit
  range (`wrapInt64`).
* Pixel coordinates, linear indices `y * width + x` and the counters that count
  pixels or layers (`totalPixels`, `pixelsFilled`, `layers.size()`) are
  integers without reduction: they are bounded by the number of pixels of a
  locked bitmap, whose byte size fits in an `int`.  Every access to
  `pixelData`, to `visited` and to `layers` is checked: an index outside the
  container is the fault `Fault.outOfRange`, it is never silently clamped.
* `std::queue` is a list (front = head), `std::unordered_set<int>` is a list
  of its members, `std::vector<bool>` is a list of booleans and
  `std::unordered_map` is an association list with one entry per key.
* The `float` computation of the progress value is carried out exactly:
  `Float32` values are `(-1)^neg * mant * 2^expo` and every operation rounds to
  nearest, ties to even, at 24 significant bits.
* The `while (!queue.empty())` loops carry an explicit fuel; the entry points
  supply `pixels.length + 1`, and `floodFillCore_ok` and `prepareCore_ok` show
  that any fuel above `pixels.length` suffices on a bitmap whose pixel memory
  has `width * height` entries.
* The fields `pushed` and `skipped` of the loop states are observation
  fields: they record every coordinate handed to `queue.push` and how often
  the `continue` branch ran.  The code never reads them.
* `AndroidBitmap_unlockPixels` has no effect on the modelled state, and the
  local `layersFilled` of `nativeFillNextNLayers`, which is never read, is left
  out.

## Layout

Definitions come first: the embedding of the source, then the vocabulary of
the statements (`InBounds`, `Adjacent`, `Joined`, ...), the pure frontier
functions both traversals are compared with, and the concrete inputs.  The
theorems follow: index arithmetic, the frontier invariant, the two traversals,
the registry, the report of `nativeFillNextNLayers`, the colour model, the
prepared session, the pixels written by `nativeFillNextNLayers`, the
identifiers returned over a history of calls, and the depth of the layers.
-/

namespace FloodFill

/-! ## Machine integers -/

/-- Reduction of an integer to the two's-complement `int` / `jint` range. -/
def wrapInt32 (z : Int) : Int :=
  (z + 2147483648) % 4294967296 - 2147483648

/-- Reduction of an integer to the two's-complement `jlong` range. -/
def wrapInt64 (z : Int) : Int :=
  (z + 9223372036854775808) % 18446744073709551616 - 9223372036854775808

/-- Conversion of an integer to `uint32_t`. -/
def toUInt32 (z : Int) : Nat :=
  (z % 4294967296).toNat

/-- Conversion of an `int` to `size_t` (64-bit), as done by the usual
arithmetic conversions when an `int` meets a `size_t`.  With a 32-bit `size_t`
the comparison of line 299 has the same truth value for every `int`. -/
def toSizeT (z : Int) : Nat :=
  (z % 18446744073709551616).toNat

/-- The cast `(int) u` of a `uint32_t`. -/
def toInt32 (u : Nat) : Int :=
  wrapInt32 (u : Int)

/-! ## Colour model (lines 29-55) -/

/-- `argbToRgba`, lines 29-36. -/
def argbToRgba (argb : Int) : Nat :=
  let color := toUInt32 argb
  let a := (color >>> 24) &&& 0xFF
  let r := (color >>> 16) &&& 0xFF
  let g := (color >>> 8) &&& 0xFF
  let b := color &&& 0xFF
  ((a <<< 24) ||| (b <<< 16) ||| (g <<< 8) ||| r) % 4294967296

/-- `colorDistance`, lines 38-55.  The channel differences are computed in
`uint32_t`, cast to `int`, squared and summed in `int`, and the sum is
returned as `uint32_t`. -/
def colorDistance (color1 color2 : Nat) : Nat :=
  let r1 := color1 &&& 0xFF
  let g1 := (color1 >>> 8) &&& 0xFF
  let b1 := (color1 >>> 16) &&& 0xFF
  let a1 := (color1 >>> 24) &&& 0xFF
  let r2 := color2 &&& 0xFF
  let g2 := (color2 >>> 8) &&& 0xFF
  let b2 := (color2 >>> 16) &&& 0xFF
  let a2 := (color2 >>> 24) &&& 0xFF
  let dr := toInt32 (toUInt32 ((r1 : Int) - (r2 : Int)))
  let dg := toInt32 (toUInt32 ((g1 : Int) - (g2 : Int)))
  let db := toInt32 (toUInt32 ((b1 : Int) - (b2 : Int)))
  let da := toInt32 (toUInt32 ((a1 : Int) - (a2 : Int)))
  toUInt32 (wrapInt32 (wrapInt32 (wrapInt32 (wrapInt32 (dr * dr) + wrapInt32 (dg * dg))
    + wrapInt32 (db * db)) + wrapInt32 (da * da)))

/-- `nativeIsColorInvalid`, lines 58-70.  The threshold is a `jint`; the
comparison with the `uint32_t` distance converts it to `uint32_t`. -/
def nativeIsColorInvalid (color1 color2 tolerance : Int) : Bool :=
  let threshold := wrapInt32 (tolerance * 2)
  let threshold := wrapInt32 (threshold * threshold)
  decide (colorDistance (toUInt32 color1) (toUInt32 color2) > toUInt32 threshold)

/-- The `uint32_t threshold` of lines 105-106 and 187-188:
`threshold = tolerance * 2; threshold = threshold * threshold;`. -/
def fillThreshold (tolerance : Int) : Nat :=
  let threshold := toUInt32 (wrapInt32 (tolerance * 2))
  (threshold * threshold) % 4294967296

/-! ## Bitmaps and checked memory access -/

/-- What can go wrong in the embedding of a loop. -/
inductive Fault where
  | outOfRange
  | emptyQueue
  | fuel
deriving DecidableEq, Repr

deriving instance DecidableEq for Except

/-- The value of `ANDROID_BITMAP_FORMAT_RGBA_8888` in `android/bitmap.h`. -/
def ANDROID_BITMAP_FORMAT_RGBA_8888 : Int := 1

/-- The `jobject bitmap` as the native code sees it: the results of
`AndroidBitmap_getInfo` and `AndroidBitmap_lockPixels`, the fields of
`AndroidBitmapInfo` that are read, and the locked pixel memory. -/
structure Bitmap where
  getInfoResult : Int
  format : Int
  lockPixelsResult : Int
  width : Int
  height : Int
  pixels : List Nat
deriving DecidableEq, Repr

/-- The read `pixelData[index]`. -/
def readPixel (pixelData : List Nat) (index : Int) : Except Fault Nat :=
  if index < 0 then .error .outOfRange
  else
    match pixelData[index.toNat]? with
    | some c => .ok c
    | none => .error .outOfRange

/-- The write `pixelData[index] = color`. -/
def writePixel (pixelData : List Nat) (index : Int) (color : Nat) :
    Except Fault (List Nat) :=
  if index < 0 then .error .outOfRange
  else if index.toNat < pixelData.length then .ok (pixelData.set index.toNat color)
  else .error .outOfRange

/-- The read `visited[nIndex]` of the `std::vector<bool>`. -/
def readVisited (visited : List Bool) (index : Int) : Except Fault Bool :=
  if index < 0 then .error .outOfRange
  else
    match visited[index.toNat]? with
    | some b => .ok b
    | none => .error .outOfRange

/-- The write `visited[index] = true`. -/
def markVisited (visited : List Bool) (index : Int) : Except Fault (List Bool) :=
  if index < 0 then .error .outOfRange
  else if index.toNat < visited.length then .ok (visited.set index.toNat true)
  else .error .outOfRange

/-- The array `dx` of lines 119 and 206. -/
def dx : List Int := [-1, 0, 1, -1, 1, -1, 0, 1]

/-- The array `dy` of lines 120 and 207. -/
def dy : List Int := [-1, -1, -1, 0, 0, 1, 1, 1]

/-- The pairs `(dx[i], dy[i])` for `i = 0 .. 7`, in loop order. -/
def offsets : List (Int × Int) := List.zip dx dy

/-! ## Eager fill (lines 72-152) -/

/-- The local state of `nativeFloodFill`. -/
structure EagerState where
  pixelData : List Nat
  queue : List (Int × Int)
  visited : List Int
  pushed : List (Int × Int)
  skipped : Nat
deriving DecidableEq, Repr

/-- One iteration of the body of `for (int i = 0; i < 8; i++)`, lines 135-146. -/
def eagerNeighbour (width height : Int) (oldColor threshold : Nat) (x y : Int)
    (s : EagerState) (d : Int × Int) : Except Fault EagerState :=
  let nx := x + d.1
  let ny := y + d.2
  if nx ≥ 0 ∧ nx < width ∧ ny ≥ 0 ∧ ny < height then
    let nIndex := ny * width + nx
    if nIndex ∈ s.visited then .ok s
    else do
      let c ← readPixel s.pixelData nIndex
      if colorDistance c oldColor ≤ threshold then
        .ok { s with
              queue := s.queue ++ [(nx, ny)]
              visited := nIndex :: s.visited
              pushed := s.pushed ++ [(nx, ny)] }
      else .ok s
  else .ok s

/-- The loop `for (int i = 0; i < 8; i++)`, lines 134-147, over the remaining
offsets. -/
def eagerNeighbours (width height : Int) (oldColor threshold : Nat) (x y : Int) :
    List (Int × Int) → EagerState → Except Fault EagerState
  | [], s => .ok s
  | d :: ds, s => do
    let s1 ← eagerNeighbour width height oldColor threshold x y s d
    eagerNeighbours width height oldColor threshold x y ds s1

/-- The loop `while (!queue.empty())`, lines 122-148. -/
def eagerLoop (width height : Int) (oldColor targetColor threshold : Nat) :
    Nat → EagerState → Except Fault EagerState
  | 0, _ => .error .fuel
  | fuel + 1, s =>
    match s.queue with
    | [] => .ok s
    | (x, y) :: rest => do
      let index := y * width + x
      let c ← readPixel s.pixelData index
      if colorDistance c oldColor > threshold then
        eagerLoop width height oldColor targetColor threshold fuel
          { s with queue := rest, skipped := s.skipped + 1 }
      else do
        let pd ← writePixel s.pixelData index targetColor
        let s1 ← eagerNeighbours width height oldColor threshold x y offsets
          { s with queue := rest, pixelData := pd }
        eagerLoop width height oldColor targetColor threshold fuel s1

/-- Lines 98-151 of `nativeFloodFill` on locked pixel memory, with the loop
state at exit (`none` when the early return of line 108 is taken). -/
def floodFillCore (fuel : Nat) (width height : Int) (pixelData : List Nat)
    (startX startY fillColor tolerance : Int) :
    Except Fault (Option EagerState × List Nat) := do
  let targetColor := argbToRgba fillColor
  let oldColor ← readPixel pixelData (startY * width + startX)
  let threshold := fillThreshold tolerance
  if colorDistance oldColor targetColor ≤ threshold then
    .ok (none, pixelData)
  else do
    let s ← eagerLoop width height oldColor targetColor threshold fuel
      { pixelData := pixelData
        queue := [(startX, startY)]
        visited := [startY * width + startX]
        pushed := [(startX, startY)]
        skipped := 0 }
    .ok (some s, s.pixelData)

/-- `nativeFloodFill`, lines 72-152: the returned `jboolean` and the bitmap
after the call. -/
def nativeFloodFill (bitmap : Bitmap) (startX startY fillColor tolerance : Int) :
    Except Fault (Bool × Bitmap) :=
  if bitmap.getInfoResult < 0 then .ok (false, bitmap)
  else if bitmap.format ≠ ANDROID_BITMAP_FORMAT_RGBA_8888 then .ok (false, bitmap)
  else if bitmap.lockPixelsResult < 0 then .ok (false, bitmap)
  else do
    let r ← floodFillCore (bitmap.pixels.length + 1) bitmap.width bitmap.height
      bitmap.pixels startX startY fillColor tolerance
    .ok (true, { bitmap with pixels := r.2 })

/-! ## Sessions and the registry (lines 10-27) -/

/-- `struct LayerData`, lines 10-12. -/
structure LayerData where
  pixels : List (Int × Int)
deriving DecidableEq, Repr

/-- `struct FloodFillSequence`, lines 14-24. -/
structure FloodFillSequence where
  layers : List LayerData
  fillColor : Nat
  width : Int
  height : Int
  currentLayerIndex : Int
  totalPixels : Int
  filledPixels : Int
deriving DecidableEq, Repr

/-- The two globals of lines 26-27: the map `activeSequences` (one entry per
key) and the counter `sequenceIdCounter`. -/
structure Registry where
  activeSequences : List (Int × FloodFillSequence)
  sequenceIdCounter : Int
deriving DecidableEq, Repr

/-- The registry at program start: `activeSequences` empty,
`sequenceIdCounter{1}`. -/
def Registry.initial : Registry :=
  { activeSequences := [], sequenceIdCounter := 1 }

/-- The lookup `activeSequences.find(sequenceId)`. -/
def findSequence (m : List (Int × FloodFillSequence)) (sequenceId : Int) :
    Option FloodFillSequence :=
  List.lookup sequenceId m

/-- The removal `activeSequences.erase(it)` of the entry with key `sequenceId`. -/
def eraseSequence (m : List (Int × FloodFillSequence)) (sequenceId : Int) :
    List (Int × FloodFillSequence) :=
  m.filter (fun e => e.1 ≠ sequenceId)

/-- The assignment `activeSequences[sequenceId] = sequence`. -/
def insertSequence (m : List (Int × FloodFillSequence)) (sequenceId : Int)
    (sequence : FloodFillSequence) : List (Int × FloodFillSequence) :=
  (sequenceId, sequence) :: eraseSequence m sequenceId

/-- A store through the pointer `sequence` held in the map under
`sequenceId`. -/
def storeSequence (m : List (Int × FloodFillSequence)) (sequenceId : Int)
    (sequence : FloodFillSequence) : List (Int × FloodFillSequence) :=
  m.map (fun e => if e.1 = sequenceId then (e.1, sequence) else e)

/-! ## Layered fill (lines 154-254) -/

/-- The local state of `nativePrepareFillSequence`: the pixel memory, the
queue, the `visited` vector, the `layer` under construction and the fields
of `*sequence` that the loop updates. -/
structure PrepareState where
  pixelData : List Nat
  queue : List (Int × Int)
  visited : List Bool
  layer : LayerData
  layers : List LayerData
  totalPixels : Int
  pushed : List (Int × Int)
  skipped : Nat
deriving DecidableEq, Repr

/-- One iteration of the body of `for (int j = 0; j < 8; j++)`, lines 227-239. -/
def prepareNeighbour (width height : Int) (oldColor threshold : Nat) (x y : Int)
    (s : PrepareState) (d : Int × Int) : Except Fault PrepareState :=
  let nx := x + d.1
  let ny := y + d.2
  if nx ≥ 0 ∧ nx < width ∧ ny ≥ 0 ∧ ny < height then
    let nIndex := ny * width + nx
    do
      let v ← readVisited s.visited nIndex
      if v then .ok s
      else do
        let c ← readPixel s.pixelData nIndex
        if colorDistance c oldColor ≤ threshold then do
          let visited ← markVisited s.visited nIndex
          .ok { s with
                queue := s.queue ++ [(nx, ny)]
                visited := visited
                pushed := s.pushed ++ [(nx, ny)] }
        else .ok s
  else .ok s

/-- The loop `for (int j = 0; j < 8; j++)`, lines 226-240, over the remaining
offsets. -/
def prepareNeighbours (width height : Int) (oldColor threshold : Nat) (x y : Int) :
    List (Int × Int) → PrepareState → Except Fault PrepareState
  | [], s => .ok s
  | d :: ds, s => do
    let s1 ← prepareNeighbour width height oldColor threshold x y s d
    prepareNeighbours width height oldColor threshold x y ds s1

/-- The loop `for (int i = 0; i < currentLayerSize; i++)`, lines 213-241, with
the number of iterations still to run. -/
def prepareWave (width height : Int) (oldColor threshold : Nat) :
    Nat → PrepareState → Except Fault PrepareState
  | 0, s => .ok s
  | n + 1, s =>
    match s.queue with
    | [] => .error .emptyQueue
    | (x, y) :: rest => do
      let index := y * width + x
      let c ← readPixel s.pixelData index
      if colorDistance c oldColor > threshold then
        prepareWave width height oldColor threshold n
          { s with queue := rest, skipped := s.skipped + 1 }
      else do
        let s1 ← prepareNeighbours width height oldColor threshold x y offsets
          { s with
            queue := rest
            layer := { pixels := s.layer.pixels ++ [(x, y)] }
            totalPixels := s.totalPixels + 1 }
        prepareWave width height oldColor threshold n s1

/-- The loop `while (!queue.empty())`, lines 209-246. -/
def prepareLoop (width height : Int) (oldColor threshold : Nat) :
    Nat → PrepareState → Except Fault PrepareState
  | 0, _ => .error .fuel
  | fuel + 1, s =>
    if s.queue = [] then .ok s
    else do
      let currentLayerSize := s.queue.length
      let s1 ← prepareWave width height oldColor threshold currentLayerSize
        { s with layer := { pixels := [] } }
      prepareLoop width height oldColor threshold fuel
        { s1 with
          layers := if s1.layer.pixels ≠ [] then s1.layers ++ [s1.layer] else s1.layers }

/-- Lines 180-246 of `nativePrepareFillSequence` on locked pixel memory:
`none` when the early return of line 190 is taken, otherwise the loop state
at exit. -/
def prepareCore (fuel : Nat) (width height : Int) (pixelData : List Nat)
    (startX startY fillColor tolerance : Int) : Except Fault (Option PrepareState) := do
  let targetColor := argbToRgba fillColor
  let oldColor ← readPixel pixelData (startY * width + startX)
  let threshold := fillThreshold tolerance
  if colorDistance oldColor targetColor ≤ threshold then
    .ok none
  else do
    let visited ← markVisited (List.replicate (width * height).toNat false)
      (startY * width + startX)
    let s ← prepareLoop width height oldColor threshold fuel
      { pixelData := pixelData
        queue := [(startX, startY)]
        visited := visited
        layer := { pixels := [] }
        layers := []
        totalPixels := 0
        pushed := [(startX, startY)]
        skipped := 0 }
    .ok (some s)

/-- `nativePrepareFillSequence`, lines 154-254: the returned `jlong`, the
registry and the bitmap after the call. -/
def nativePrepareFillSequence (registry : Registry) (bitmap : Bitmap)
    (startX startY fillColor tolerance : Int) : Except Fault (Int × Registry × Bitmap) :=
  if bitmap.getInfoResult < 0 then .ok (-1, registry, bitmap)
  else if bitmap.format ≠ ANDROID_BITMAP_FORMAT_RGBA_8888 then .ok (-1, registry, bitmap)
  else if bitmap.lockPixelsResult < 0 then .ok (-1, registry, bitmap)
  else do
    let r ← prepareCore (bitmap.pixels.length + 1) bitmap.width bitmap.height
      bitmap.pixels startX startY fillColor tolerance
    match r with
    | none => .ok (-2, registry, bitmap)
    | some s =>
      let sequence : FloodFillSequence :=
        { layers := s.layers
          fillColor := argbToRgba fillColor
          width := bitmap.width
          height := bitmap.height
          currentLayerIndex := 0
          totalPixels := s.totalPixels
          filledPixels := 0 }
      let sequenceId := registry.sequenceIdCounter
      .ok (sequenceId,
        { activeSequences := insertSequence registry.activeSequences sequenceId sequence
          sequenceIdCounter := wrapInt64 (registry.sequenceIdCounter + 1) },
        { bitmap with pixels := s.pixelData })

/-! ## Single-precision arithmetic of the progress value (lines 300-307) -/

/-- A finite `float`: the value `(-1)^neg * mant * 2^expo`. -/
structure Float32 where
  neg : Bool
  mant : Nat
  expo : Int
deriving DecidableEq, Repr

/-- Scaling of `(num / den) * 2^expo` until the quotient `num / den` has
exactly 24 bits; at most the given number of halvings and doublings. -/
def scale24 : Nat → Nat → Nat → Int → Nat × Nat × Int
  | 0, num, den, expo => (num, den, expo)
  | k + 1, num, den, expo =>
    if num / den ≥ 16777216 then scale24 k num (2 * den) (expo + 1)
    else if num / den < 8388608 then scale24 k (2 * num) den (expo - 1)
    else (num, den, expo)

/-- Rounding of `(-1)^neg * (num / den) * 2^expo` to the nearest `float`, ties
to even (the IEEE 754 default rounding of `float` operations).  The operands
met here are far from the overflow and subnormal ranges. -/
def roundNearestEven (neg : Bool) (num den : Nat) (expo : Int) : Float32 :=
  if num = 0 ∨ den = 0 then { neg := neg, mant := 0, expo := 0 }
  else
    let t := scale24 256 num den expo
    let q := t.1 / t.2.1
    let r := t.1 % t.2.1
    let m := if 2 * r > t.2.1 ∨ (2 * r = t.2.1 ∧ q % 2 = 1) then q + 1 else q
    { neg := neg, mant := m, expo := t.2.2 }

/-- The conversion `(float) n` of an `int`. -/
def Float32.ofInt (n : Int) : Float32 :=
  roundNearestEven (decide (n < 0)) n.natAbs 1 0

/-- The quotient `a / b` of two `float`s, `b` not zero. -/
def Float32.div (a b : Float32) : Float32 :=
  roundNearestEven (a.neg != b.neg) a.mant b.mant (a.expo - b.expo)

/-- The product `a * b` of two `float`s. -/
def Float32.mul (a b : Float32) : Float32 :=
  roundNearestEven (a.neg != b.neg) (a.mant * b.mant) 1 (a.expo + b.expo)

/-- The conversion `(jint) a`: truncation toward zero. -/
def Float32.toJint (a : Float32) : Int :=
  let magnitude : Nat :=
    if a.expo ≥ 0 then a.mant * 2 ^ a.expo.toNat else a.mant / 2 ^ (-a.expo).toNat
  if a.neg then -(magnitude : Int) else (magnitude : Int)

/-- The first field of the report, lines 300-301 and 307:
`(jint) (progress * 10000)`. -/
def progressField (filledPixels totalPixels : Int) : Int :=
  let progress :=
    if totalPixels > 0 then
      Float32.div (Float32.ofInt filledPixels) (Float32.ofInt totalPixels)
    else Float32.ofInt 1
  Float32.toJint (Float32.mul progress (Float32.ofInt 10000))

/-! ## Stepping and releasing a session (lines 256-329) -/

/-- The read `sequence->layers[i]`. -/
def readLayer (layers : List LayerData) (i : Int) : Except Fault LayerData :=
  if i < 0 then .error .outOfRange
  else
    match layers[i.toNat]? with
    | some l => .ok l
    | none => .error .outOfRange

/-- The loop `for (const auto &[x, y]: layer.pixels)`, lines 287-291, on the
pair `(pixelData, pixelsFilled)`. -/
def fillLayer (width : Int) (fillColor : Nat) :
    List (Int × Int) → List Nat × Int → Except Fault (List Nat × Int)
  | [], st => .ok st
  | (x, y) :: rest, st => do
    let index := y * width + x
    let pd ← writePixel st.1 index fillColor
    fillLayer width fillColor rest (pd, st.2 + 1)

/-- The loop `for (int i = startIndex; i < endIndex; i++)`, lines 284-294,
with the number of iterations still to run and the current `i`. -/
def fillLayers (sequence : FloodFillSequence) :
    Nat → Int → List Nat × Int → Except Fault (List Nat × Int)
  | 0, _, st => .ok st
  | n + 1, i, st => do
    let layer ← readLayer sequence.layers i
    let st1 ← fillLayer sequence.width sequence.fillColor layer.pixels st
    fillLayers sequence n (i + 1) st1

/-- `nativeFillNextNLayers`, lines 256-315: the returned `jintArray`
(`none` for `nullptr`), the registry and the bitmap after the call. -/
def nativeFillNextNLayers (registry : Registry) (bitmap : Bitmap)
    (sequenceId layerCount : Int) :
    Except Fault (Option (List Int) × Registry × Bitmap) :=
  match findSequence registry.activeSequences sequenceId with
  | none => .ok (none, registry, bitmap)
  | some sequence =>
    if bitmap.lockPixelsResult < 0 then .ok (none, registry, bitmap)
    else do
      let startIndex := sequence.currentLayerIndex
      let endIndex := min (wrapInt32 (startIndex + layerCount)) (sequence.layers.length : Int)
      let st ← fillLayers sequence (endIndex - startIndex).toNat startIndex (bitmap.pixels, 0)
      let pixelsFilled := st.2
      let sequence1 : FloodFillSequence :=
        { sequence with
          currentLayerIndex := endIndex
          filledPixels := wrapInt32 (sequence.filledPixels + pixelsFilled) }
      let isComplete := decide (toSizeT sequence1.currentLayerIndex ≥ sequence1.layers.length)
      let data : List Int :=
        [ progressField sequence1.filledPixels sequence1.totalPixels,
          if isComplete then 1 else 0,
          pixelsFilled,
          (sequence1.layers.length : Int) ]
      .ok (some data,
        { registry with
          activeSequences := storeSequence registry.activeSequences sequenceId sequence1 },
        { bitmap with pixels := st.1 })

/-- `nativeReleaseSequence`, lines 317-329. -/
def nativeReleaseSequence (registry : Registry) (sequenceId : Int) : Registry :=
  match findSequence registry.activeSequences sequenceId with
  | some _ => { registry with
                activeSequences := eraseSequence registry.activeSequences sequenceId }
  | none => registry

/-! ## Vocabulary of the statements -/

/-- The coordinate `p = (x, y)` lies in `[0, width) x [0, height)`. -/
def InBounds (width height : Int) (p : Int × Int) : Prop :=
  0 ≤ p.1 ∧ p.1 < width ∧ 0 ≤ p.2 ∧ p.2 < height

instance (width height : Int) (p : Int × Int) : Decidable (InBounds width height p) :=
  inferInstanceAs (Decidable (0 ≤ p.1 ∧ p.1 < width ∧ 0 ≤ p.2 ∧ p.2 < height))

/-- The linear index `y * width + x` of the coordinate `p = (x, y)`. -/
def linearIndex (width : Int) (p : Int × Int) : Int :=
  p.2 * width + p.1

/-- The pixel stored for the coordinate `p` in row-major pixel memory. -/
def pixelAt (pixelData : List Nat) (width : Int) (p : Int × Int) : Nat :=
  pixelData.getD (linearIndex width p).toNat 0

/-- The colour of `p` in `pixelData` is within `threshold` of `oldColor`. -/
def Similar (pixelData : List Nat) (width : Int) (oldColor threshold : Nat)
    (p : Int × Int) : Prop :=
  colorDistance (pixelAt pixelData width p) oldColor ≤ threshold

instance (pixelData : List Nat) (width : Int) (oldColor threshold : Nat) (p : Int × Int) :
    Decidable (Similar pixelData width oldColor threshold p) :=
  inferInstanceAs (Decidable (colorDistance (pixelAt pixelData width p) oldColor ≤ threshold))

/-- 8-connectivity: `q` is one of the four orthogonal or four diagonal
neighbours of `p`. -/
def Adjacent (p q : Int × Int) : Prop :=
  p ≠ q ∧ |q.1 - p.1| ≤ 1 ∧ |q.2 - p.2| ≤ 1

/-- The pixel is joined to `seed` by an 8-connected path inside the bitmap all
of whose pixels after the seed have, in `pixelData`, a colour within
`threshold` of `oldColor`. -/
inductive Joined (width height : Int) (pixelData : List Nat) (oldColor threshold : Nat)
    (seed : Int × Int) : Int × Int → Prop where
  | seed : Joined width height pixelData oldColor threshold seed seed
  | step {p q : Int × Int} :
      Joined width height pixelData oldColor threshold seed p →
      Adjacent p q → InBounds width height q →
      Similar pixelData width oldColor threshold q →
      Joined width height pixelData oldColor threshold seed q

/-- The pixel is joined to `seed` by an 8-connected path of exactly `k` steps
inside the bitmap all of whose pixels after the seed have, in `pixelData`, a
colour within `threshold` of `oldColor`. -/
inductive JoinedIn (width height : Int) (pixelData : List Nat) (oldColor threshold : Nat)
    (seed : Int × Int) : Nat → Int × Int → Prop where
  | seed : JoinedIn width height pixelData oldColor threshold seed 0 seed
  | step {k : Nat} {p q : Int × Int} :
      JoinedIn width height pixelData oldColor threshold seed k p →
      Adjacent p q → InBounds width height q →
      Similar pixelData width oldColor threshold q →
      JoinedIn width height pixelData oldColor threshold seed (k + 1) q

/-- The shortest such path from `seed` to the pixel has `k` steps. -/
def Depth (width height : Int) (pixelData : List Nat) (oldColor threshold : Nat)
    (seed : Int × Int) (k : Nat) (p : Int × Int) : Prop :=
  JoinedIn width height pixelData oldColor threshold seed k p ∧
    ∀ j, JoinedIn width height pixelData oldColor threshold seed j p → k ≤ j

/-- The 8-bit channel number `i` (0 = lowest byte) of a colour. -/
def channel (color : Nat) (i : Nat) : Int :=
  ((color / 256 ^ i % 256 : Nat) : Int)

/-- The squared channel-wise distance of two colours as the specification
words it: the sum over the four channels of the squared difference, an
integer without any reduction. -/
def squaredDistance (color1 color2 : Nat) : Int :=
  (channel color1 0 - channel color2 0) ^ 2 + (channel color1 1 - channel color2 1) ^ 2
    + (channel color1 2 - channel color2 2) ^ 2 + (channel color1 3 - channel color2 3) ^ 2

/-- The coordinates stored in the `n` layers that start at layer `c`, in the
order in which `nativeFillNextNLayers` writes them. -/
def layerPixels (layers : List LayerData) (c n : Nat) : List (Int × Int) :=
  (((layers.drop c).take n).map LayerData.pixels).flatten

/-- The `*sequence` that `nativePrepareFillSequence` stores in the registry
when its loop exits in state `s` (lines 195-198, 224 and 244). -/
def preparedSequence (bitmap : Bitmap) (fillColor : Int) (s : PrepareState) :
    FloodFillSequence :=
  { layers := s.layers
    fillColor := argbToRgba fillColor
    width := bitmap.width
    height := bitmap.height
    currentLayerIndex := 0
    totalPixels := s.totalPixels
    filledPixels := 0 }

/-- The sum of the sizes of layers `c .. e - 1`. -/
def appliedSizes (layers : List LayerData) (c e : Int) : Int :=
  (((layers.drop c.toNat).take (e - c).toNat).map (fun l => (l.pixels.length : Int))).sum

/-! ## The frontier of the traversal, as a pure function

Both traversals maintain a queue and the list of everything pushed so far; the
functions below compute how one neighbour visit and one dequeue change these
two lists when the colour test is made on the original pixel memory. -/

/-- The effect of visiting the neighbour `p0 + d` on `(queue, pushed)`. -/
def frontierVisit (width height : Int) (pixelData : List Nat) (oldColor threshold : Nat)
    (p0 : Int × Int) (st : List (Int × Int) × List (Int × Int)) (d : Int × Int) :
    List (Int × Int) × List (Int × Int) :=
  let q : Int × Int := (p0.1 + d.1, p0.2 + d.2)
  if InBounds width height q ∧ q ∉ st.2 ∧ Similar pixelData width oldColor threshold q then
    (st.1 ++ [q], st.2 ++ [q])
  else st

/-- The effect of visiting the neighbours `p0 + d`, `d` in `ds`, in order. -/
def frontierNeighbours (width height : Int) (pixelData : List Nat) (oldColor threshold : Nat)
    (p0 : Int × Int) (ds : List (Int × Int)) (st : List (Int × Int) × List (Int × Int)) :
    List (Int × Int) × List (Int × Int) :=
  ds.foldl (frontierVisit width height pixelData oldColor threshold p0) st

/-- The effect of one dequeue, with its eight neighbour visits, on
`(queue, pushed)`. -/
def frontierPop (width height : Int) (pixelData : List Nat) (oldColor threshold : Nat)
    (st : List (Int × Int) × List (Int × Int)) : List (Int × Int) × List (Int × Int) :=
  match st.1 with
  | [] => st
  | p0 :: rest => frontierNeighbours width height pixelData oldColor threshold p0 offsets (rest, st.2)

/-- The effect of `n` successive dequeues on `(queue, pushed)`. -/
def frontierPops (width height : Int) (pixelData : List Nat) (oldColor threshold : Nat) :
    Nat → List (Int × Int) × List (Int × Int) → List (Int × Int) × List (Int × Int)
  | 0, st => st
  | n + 1, st =>
    frontierPops width height pixelData oldColor threshold n
      (frontierPop width height pixelData oldColor threshold st)

/-- What the traversal maintains about `pushed = popped ++ queue`. -/
structure FrontierInv (width height : Int) (pixelData : List Nat) (oldColor threshold : Nat)
    (seed : Int × Int) (popped queue pushed : List (Int × Int)) : Prop where
  split : pushed = popped ++ queue
  nodup : pushed.Nodup
  sound : ∀ p ∈ pushed, InBounds width height p ∧
    Similar pixelData width oldColor threshold p ∧
    Joined width height pixelData oldColor threshold seed p
  seed_mem : seed ∈ pushed

/-- Every admissible neighbour of a coordinate of `done` has been pushed. -/
def Closed (width height : Int) (pixelData : List Nat) (oldColor threshold : Nat)
    (done pushed : List (Int × Int)) : Prop :=
  ∀ p ∈ done, ∀ q, Adjacent p q → InBounds width height q →
    Similar pixelData width oldColor threshold q → q ∈ pushed

/-- What the layered traversal maintains at the head of its `while` loop about
the layers stored so far and the queue: layer `k` holds exactly the pixels of
depth `k`, the queue holds exactly the pixels of the next depth, and no stored
layer is empty. -/
structure LevelInv (width height : Int) (pixelData : List Nat) (oldColor threshold : Nat)
    (seed : Int × Int) (layers : List LayerData) (queue : List (Int × Int)) : Prop where
  layer : ∀ (k : Nat) (l : LayerData), layers[k]? = some l →
    ∀ p, p ∈ l.pixels ↔ Depth width height pixelData oldColor threshold seed k p
  next : ∀ p, p ∈ queue ↔ Depth width height pixelData oldColor threshold seed layers.length p
  nonempty : ∀ l ∈ layers, l.pixels ≠ []

/-! ## Relations between loop states and the original pixel memory -/

/-- How the state of the eager loop relates to the original pixel memory
`orig` once the coordinates `popped` have been dequeued. -/
structure EagerRel (width height : Int) (orig : List Nat) (targetColor : Nat)
    (popped : List (Int × Int)) (s : EagerState) : Prop where
  size : (orig.length : Int) = width * height
  len : s.pixelData.length = orig.length
  painted : ∀ p, InBounds width height p →
    pixelAt s.pixelData width p = if p ∈ popped then targetColor else pixelAt orig width p
  visited_iff : ∀ i, i ∈ s.visited ↔ ∃ p ∈ s.pushed, linearIndex width p = i
  inb : ∀ p ∈ s.pushed, InBounds width height p
  sub : ∀ p ∈ popped, p ∈ s.pushed
  skipped : s.skipped = 0

/-- How the state of the layered traversal relates to the original pixel
memory `orig` once the coordinates `popped` have been dequeued. -/
structure PrepareRel (width height : Int) (orig : List Nat)
    (popped : List (Int × Int)) (s : PrepareState) : Prop where
  size : (orig.length : Int) = width * height
  pixels : s.pixelData = orig
  vlen : s.visited.length = orig.length
  visited_iff : ∀ p, InBounds width height p →
    (s.visited.getD (linearIndex width p).toNat false = true ↔ p ∈ s.pushed)
  inb : ∀ p ∈ s.pushed, InBounds width height p
  sub : ∀ p ∈ popped, p ∈ s.pushed
  collected : (s.layers.map LayerData.pixels).flatten ++ s.layer.pixels = popped
  total : s.totalPixels = (popped.length : Int)
  skipped : s.skipped = 0

/-! ## Successive calls -/

/-- Successive calls of `nativeFillNextNLayers` on one session with the given
`layerCount` arguments, each call made on the registry and the bitmap that the
previous call left. -/
def fillNextCalls (registry : Registry) (bitmap : Bitmap) (sequenceId : Int) :
    List Int → Except Fault (Registry × Bitmap)
  | [] => .ok (registry, bitmap)
  | layerCount :: rest => do
    let r ← nativeFillNextNLayers registry bitmap sequenceId layerCount
    fillNextCalls r.2.1 r.2.2 sequenceId rest

/-! ## Reachable registries -/

/-- The registries that the four entry points can produce from the registry
at program start. -/
inductive Reachable : Registry → Prop where
  | initial : Reachable Registry.initial
  | prepare {registry registry1 : Registry} {bitmap bitmap1 : Bitmap}
      {startX startY fillColor tolerance sequenceId : Int} :
      Reachable registry →
      nativePrepareFillSequence registry bitmap startX startY fillColor tolerance
        = .ok (sequenceId, registry1, bitmap1) →
      Reachable registry1
  | advance {registry registry1 : Registry} {bitmap bitmap1 : Bitmap}
      {sequenceId layerCount : Int} {report : Option (List Int)} :
      Reachable registry →
      nativeFillNextNLayers registry bitmap sequenceId layerCount
        = .ok (report, registry1, bitmap1) →
      Reachable registry1
  | release {registry : Registry} {sequenceId : Int} :
      Reachable registry → Reachable (nativeReleaseSequence registry sequenceId)

/-- The cursor and the running total of a session are `int` values and the
cursor does not exceed the number of layers. -/
def SequenceInRange (s : FloodFillSequence) : Prop :=
  -2147483648 ≤ s.currentLayerIndex ∧ s.currentLayerIndex ≤ 2147483647 ∧
    s.currentLayerIndex ≤ (s.layers.length : Int) ∧
    -2147483648 ≤ s.filledPixels ∧ s.filledPixels ≤ 2147483647

/-! ## Histories of calls -/

/-- The registries that the four entry points can produce from the registry
at program start, each with the values that the calls of
`nativePrepareFillSequence` made on the way have returned, oldest first. -/
inductive History : List Int → Registry → Prop where
  | initial : History [] Registry.initial
  | prepare {values : List Int} {registry registry1 : Registry} {bitmap bitmap1 : Bitmap}
      {startX startY fillColor tolerance value : Int} :
      History values registry →
      nativePrepareFillSequence registry bitmap startX startY fillColor tolerance
        = .ok (value, registry1, bitmap1) →
      History (values ++ [value]) registry1
  | advance {values : List Int} {registry registry1 : Registry} {bitmap bitmap1 : Bitmap}
      {sequenceId layerCount : Int} {report : Option (List Int)} :
      History values registry →
      nativeFillNextNLayers registry bitmap sequenceId layerCount
        = .ok (report, registry1, bitmap1) →
      History values registry1
  | release {values : List Int} {registry : Registry} {sequenceId : Int} :
      History values registry → History values (nativeReleaseSequence registry sequenceId)

/-- The returned values that are session identifiers: those that are neither
of the sentinels `-1` and `-2`. -/
def identifiers (values : List Int) : List Int :=
  values.filter (fun v => v ≠ -1 ∧ v ≠ -2)

/-! ## Concrete inputs -/

/-- The colour `0xFFFF0000` (opaque red, ARGB) as a `jint`. -/
def opaqueRed : Int := -65536

/-- A usable 4 x 4 bitmap, all pixels `0x00000000`. -/
def uniformBitmap : Bitmap :=
  { getInfoResult := 0, format := 1, lockPixelsResult := 0, width := 4, height := 4,
    pixels := List.replicate 16 0 }

/-- A usable 3 x 3 bitmap, all pixels `0x00000000` except the centre, which is
`0xFFFFFFFF`. -/
def ringBitmap : Bitmap :=
  { getInfoResult := 0, format := 1, lockPixelsResult := 0, width := 3, height := 3,
    pixels := [0, 0, 0, 0, 4294967295, 0, 0, 0, 0] }

/-- A usable 1 x 1 bitmap holding `0x00000000`. -/
def onePixelBitmap : Bitmap :=
  { getInfoResult := 0, format := 1, lockPixelsResult := 0, width := 1, height := 1,
    pixels := [0] }

/-- The session that `nativePrepareFillSequence` builds for `ringBitmap`, seed
`(0, 1)`, fill colour `opaqueRed`, tolerance 0: layers of sizes 1, 4 and 3. -/
def ringSequence : FloodFillSequence :=
  { layers := [{ pixels := [(0, 1)] },
               { pixels := [(0, 0), (1, 0), (0, 2), (1, 2)] },
               { pixels := [(2, 0), (2, 1), (2, 2)] }]
    fillColor := 4278190335
    width := 3
    height := 3
    currentLayerIndex := 0
    totalPixels := 8
    filledPixels := 0 }

/-- The registry after that call, made on the registry at program start. -/
def ringRegistry : Registry :=
  { activeSequences := [(1, ringSequence)], sequenceIdCounter := 2 }

/-! ## Arithmetic of indices -/

theorem linearIndex_range {width height : Int} {p : Int × Int}
    (hp : InBounds width height p) :
    0 ≤ linearIndex width p ∧ linearIndex width p < width * height := by
  obtain ⟨h1, h2, h3, h4⟩ := hp
  unfold linearIndex
  constructor
  · have : 0 ≤ p.2 * width := mul_nonneg h3 (by omega)
    omega
  · have h5 : (p.2 + 1) * width ≤ height * width :=
      mul_le_mul_of_nonneg_right (by omega) (by omega)
    nlinarith

theorem linearIndex_inj {width height : Int} {p q : Int × Int}
    (hp : InBounds width height p) (hq : InBounds width height q)
    (h : linearIndex width p = linearIndex width q) : p = q := by
  obtain ⟨p1, p2⟩ := p
  obtain ⟨q1, q2⟩ := q
  simp only [InBounds, linearIndex] at hp hq h
  obtain ⟨a1, a2, a3, a4⟩ := hp
  obtain ⟨b1, b2, b3, b4⟩ := hq
  have hy : p2 = q2 := by
    rcases lt_trichotomy p2 q2 with hlt | heq | hgt
    · exfalso
      have : (p2 + 1) * width ≤ q2 * width :=
        mul_le_mul_of_nonneg_right (by omega) (by omega)
      nlinarith
    · exact heq
    · exfalso
      have : (q2 + 1) * width ≤ p2 * width :=
        mul_le_mul_of_nonneg_right (by omega) (by omega)
      nlinarith
  subst hy
  have hx : p1 = q1 := by omega
  subst hx
  rfl

theorem adjacent_of_mem_offsets {p : Int × Int} {d : Int × Int} (hd : d ∈ offsets) :
    Adjacent p (p.1 + d.1, p.2 + d.2) := by
  obtain ⟨p1, p2⟩ := p
  simp only [offsets, dx, dy, List.zip_cons_cons, List.zip_nil_right, List.mem_cons,
    List.mem_singleton, List.not_mem_nil, or_false] at hd
  rcases hd with h | h | h | h | h | h | h | h <;> subst h <;>
    refine ⟨?_, ?_, ?_⟩ <;> simp [Prod.ext_iff]

theorem mem_offsets_of_adjacent {p q : Int × Int} (h : Adjacent p q) :
    (q.1 - p.1, q.2 - p.2) ∈ offsets := by
  obtain ⟨hne, h1, h2⟩ := h
  rw [abs_le] at h1 h2
  have hne2 : ¬ (q.1 - p.1 = 0 ∧ q.2 - p.2 = 0) := by
    intro hc
    apply hne
    apply Prod.ext <;> omega
  have ha : q.1 - p.1 = -1 ∨ q.1 - p.1 = 0 ∨ q.1 - p.1 = 1 := by omega
  have hb : q.2 - p.2 = -1 ∨ q.2 - p.2 = 0 ∨ q.2 - p.2 = 1 := by omega
  rcases ha with ha | ha | ha <;> rcases hb with hb | hb | hb <;>
    simp [ha, hb, offsets, dx, dy] at hne2 ⊢

/-! ## The frontier invariant -/

section Frontier

variable {width height : Int} {pixelData : List Nat} {oldColor threshold : Nat}
  {seed : Int × Int}

theorem frontierVisit_inv {popped queue pushed : List (Int × Int)} {p0 d : Int × Int}
    (hinv : FrontierInv width height pixelData oldColor threshold seed popped queue pushed)
    (hp0 : Joined width height pixelData oldColor threshold seed p0)
    (hd : d ∈ offsets) :
    FrontierInv width height pixelData oldColor threshold seed popped
        (frontierVisit width height pixelData oldColor threshold p0 (queue, pushed) d).1
        (frontierVisit width height pixelData oldColor threshold p0 (queue, pushed) d).2 ∧
      (∃ extra,
        (frontierVisit width height pixelData oldColor threshold p0 (queue, pushed) d).1
            = queue ++ extra ∧
          (frontierVisit width height pixelData oldColor threshold p0 (queue, pushed) d).2
            = pushed ++ extra) ∧
      (InBounds width height (p0.1 + d.1, p0.2 + d.2) →
        Similar pixelData width oldColor threshold (p0.1 + d.1, p0.2 + d.2) →
        (p0.1 + d.1, p0.2 + d.2) ∈
          (frontierVisit width height pixelData oldColor threshold p0 (queue, pushed) d).2) := by
  unfold frontierVisit
  by_cases hc : InBounds width height (p0.1 + d.1, p0.2 + d.2) ∧ (p0.1 + d.1, p0.2 + d.2) ∉ pushed ∧
      Similar pixelData width oldColor threshold (p0.1 + d.1, p0.2 + d.2)
  · simp only [hc, not_false_eq_true, and_self, if_true]
    obtain ⟨hb, hnot, hsim⟩ := hc
    refine ⟨⟨?_, ?_, ?_, ?_⟩, ⟨[(p0.1 + d.1, p0.2 + d.2)], rfl, rfl⟩, ?_⟩
    · rw [hinv.split, List.append_assoc]
    · refine List.Nodup.append hinv.nodup (List.nodup_singleton _) ?_
      intro a ha ha2
      rw [List.mem_singleton] at ha2
      exact hnot (ha2 ▸ ha)
    · intro p hp
      rcases List.mem_append.1 hp with hp | hp
      · exact hinv.sound p hp
      · rw [List.mem_singleton] at hp
        subst hp
        exact ⟨hb, hsim, Joined.step hp0 (adjacent_of_mem_offsets hd) hb hsim⟩
    · exact List.mem_append_left _ hinv.seed_mem
    · intro _ _
      exact List.mem_append_right _ (List.mem_singleton_self _)
  · rw [if_neg hc]
    refine ⟨hinv, ⟨[], by simp, by simp⟩, ?_⟩
    intro hb hsim
    by_contra hnot
    exact hc ⟨hb, hnot, hsim⟩

theorem frontierNeighbours_inv {popped : List (Int × Int)} {p0 : Int × Int}
    (hp0 : Joined width height pixelData oldColor threshold seed p0) :
    ∀ (ds : List (Int × Int)), (∀ d ∈ ds, d ∈ offsets) →
    ∀ (queue pushed : List (Int × Int)),
    FrontierInv width height pixelData oldColor threshold seed popped queue pushed →
    FrontierInv width height pixelData oldColor threshold seed popped
        (frontierNeighbours width height pixelData oldColor threshold p0 ds (queue, pushed)).1
        (frontierNeighbours width height pixelData oldColor threshold p0 ds (queue, pushed)).2 ∧
      (∃ extra,
        (frontierNeighbours width height pixelData oldColor threshold p0 ds (queue, pushed)).1
            = queue ++ extra ∧
          (frontierNeighbours width height pixelData oldColor threshold p0 ds (queue, pushed)).2
            = pushed ++ extra) ∧
      (∀ d ∈ ds, InBounds width height (p0.1 + d.1, p0.2 + d.2) →
        Similar pixelData width oldColor threshold (p0.1 + d.1, p0.2 + d.2) →
        (p0.1 + d.1, p0.2 + d.2) ∈
          (frontierNeighbours width height pixelData oldColor threshold p0 ds (queue, pushed)).2) := by
  intro ds
  induction ds with
  | nil =>
    intro _ queue pushed hinv
    refine ⟨hinv, ⟨[], by simp [frontierNeighbours], by simp [frontierNeighbours]⟩, ?_⟩
    intro d hd
    simp at hd
  | cons d ds ih =>
    intro hds queue pushed hinv
    have hd : d ∈ offsets := hds d (List.mem_cons_self _ _)
    obtain ⟨h1, ⟨e1, hq1, hu1⟩, hc1⟩ := frontierVisit_inv hinv hp0 hd
    have hrest : ∀ d' ∈ ds, d' ∈ offsets := fun d' hd' => hds d' (List.mem_cons_of_mem _ hd')
    obtain ⟨h2, ⟨e2, hq2, hu2⟩, hc2⟩ := ih hrest _ _ h1
    have hstep : frontierNeighbours width height pixelData oldColor threshold p0 (d :: ds)
        (queue, pushed) =
        frontierNeighbours width height pixelData oldColor threshold p0 ds
          (frontierVisit width height pixelData oldColor threshold p0 (queue, pushed) d) := by
      simp [frontierNeighbours]
    rw [hstep]
    refine ⟨h2, ⟨e1 ++ e2, ?_, ?_⟩, ?_⟩
    · rw [hq2, hq1, List.append_assoc]
    · rw [hu2, hu1, List.append_assoc]
    · intro d' hd' hb hsim
      rcases List.mem_cons.1 hd' with heq | hmem
      · subst heq
        rw [hu2]
        exact List.mem_append_left _ (hc1 hb hsim)
      · exact hc2 d' hmem hb hsim

theorem frontierPop_inv {popped rest pushed : List (Int × Int)} {p0 : Int × Int}
    (hinv : FrontierInv width height pixelData oldColor threshold seed popped (p0 :: rest) pushed)
    (hcl : Closed width height pixelData oldColor threshold popped pushed) :
    FrontierInv width height pixelData oldColor threshold seed (popped ++ [p0])
        (frontierNeighbours width height pixelData oldColor threshold p0 offsets (rest, pushed)).1
        (frontierNeighbours width height pixelData oldColor threshold p0 offsets (rest, pushed)).2 ∧
      Closed width height pixelData oldColor threshold (popped ++ [p0])
        (frontierNeighbours width height pixelData oldColor threshold p0 offsets (rest, pushed)).2 ∧
      (∃ extra,
        (frontierNeighbours width height pixelData oldColor threshold p0 offsets (rest, pushed)).1
            = rest ++ extra ∧
          (frontierNeighbours width height pixelData oldColor threshold p0 offsets (rest, pushed)).2
            = pushed ++ extra) := by
  have hmem : p0 ∈ pushed := by
    rw [hinv.split]
    exact List.mem_append_right _ (List.mem_cons_self _ _)
  have hp0 := (hinv.sound p0 hmem).2.2
  have hbase : FrontierInv width height pixelData oldColor threshold seed (popped ++ [p0])
      rest pushed :=
    ⟨by rw [hinv.split]; simp, hinv.nodup, hinv.sound, hinv.seed_mem⟩
  obtain ⟨h1, ⟨extra, hq, hu⟩, hc⟩ :=
    frontierNeighbours_inv hp0 offsets (fun d hd => hd) rest pushed hbase
  refine ⟨h1, ?_, ⟨extra, hq, hu⟩⟩
  intro p hp q hadj hb hsim
  rcases List.mem_append.1 hp with hp | hp
  · rw [hu]
    exact List.mem_append_left _ (hcl p hp q hadj hb hsim)
  · rw [List.mem_singleton] at hp
    subst hp
    have hq' : (p.1 + (q.1 - p.1), p.2 + (q.2 - p.2)) = q := by
      apply Prod.ext <;> simp
    have := hc (q.1 - p.1, q.2 - p.2) (mem_offsets_of_adjacent hadj)
    simp only [hq'] at this
    exact this hb hsim

theorem mem_pushed_iff_joined {pushed : List (Int × Int)}
    (hinv : FrontierInv width height pixelData oldColor threshold seed pushed [] pushed)
    (hcl : Closed width height pixelData oldColor threshold pushed pushed) (p : Int × Int) :
    p ∈ pushed ↔ Joined width height pixelData oldColor threshold seed p := by
  constructor
  · intro hp
    exact (hinv.sound p hp).2.2
  · intro hj
    induction hj with
    | seed => exact hinv.seed_mem
    | step _ hadj hb hsim ih => exact hcl _ ih _ hadj hb hsim

end Frontier

/-! ## Checked accesses inside the bitmap -/

theorem colorDistance_self (c : Nat) : colorDistance c c = 0 := by
  simp [colorDistance, toUInt32, toInt32, wrapInt32]

theorem readPixel_inBounds {width height : Int} {pd : List Nat} {p : Int × Int}
    (hsize : (pd.length : Int) = width * height) (hp : InBounds width height p) :
    readPixel pd (linearIndex width p) = .ok (pixelAt pd width p) := by
  obtain ⟨h0, h1⟩ := linearIndex_range hp
  have hlt : (linearIndex width p).toNat < pd.length := by omega
  unfold readPixel pixelAt
  rw [if_neg (by omega), List.getElem?_eq_getElem hlt, List.getD_eq_getElem _ _ hlt]

theorem writePixel_inBounds {width height : Int} {pd : List Nat} {p : Int × Int} (c : Nat)
    (hsize : (pd.length : Int) = width * height) (hp : InBounds width height p) :
    writePixel pd (linearIndex width p) c = .ok (pd.set (linearIndex width p).toNat c) := by
  obtain ⟨h0, h1⟩ := linearIndex_range hp
  have hlt : (linearIndex width p).toNat < pd.length := by omega
  unfold writePixel
  rw [if_neg (by omega), if_pos hlt]

theorem pixelAt_set {width height : Int} {pd : List Nat} {p q : Int × Int} (c : Nat)
    (hsize : (pd.length : Int) = width * height)
    (hp : InBounds width height p) (hq : InBounds width height q) :
    pixelAt (pd.set (linearIndex width p).toNat c) width q
      = if q = p then c else pixelAt pd width q := by
  obtain ⟨h0, h1⟩ := linearIndex_range hp
  obtain ⟨h2, h3⟩ := linearIndex_range hq
  unfold pixelAt
  by_cases hqp : q = p
  · subst hqp
    rw [if_pos rfl, List.getD_eq_getElem _ _ (by simp; omega)]
    simp
  · rw [if_neg hqp]
    have hne : (linearIndex width p).toNat ≠ (linearIndex width q).toNat := by
      intro he
      apply hqp
      apply linearIndex_inj hq hp
      omega
    rw [List.getD_eq_getElem?_getD, List.getD_eq_getElem?_getD, List.getElem?_set_ne hne]

theorem length_le_of_inBounds {width height : Int} :
    ∀ (l : List (Int × Int)), l.Nodup → (∀ p ∈ l, InBounds width height p) →
    l.length ≤ (width * height).toNat := by
  intro l hnd hall
  have hmap : (l.map (fun p => (linearIndex width p).toNat)).Nodup := by
    apply List.Nodup.map_on _ hnd
    intro p hp q hq he
    have := linearIndex_range (hall p hp)
    have := linearIndex_range (hall q hq)
    apply linearIndex_inj (hall p hp) (hall q hq)
    simp only at he
    omega
  have hsub : l.map (fun p => (linearIndex width p).toNat) ⊆ List.range (width * height).toNat := by
    intro i hi
    rw [List.mem_map] at hi
    obtain ⟨p, hp, rfl⟩ := hi
    have := linearIndex_range (hall p hp)
    rw [List.mem_range]
    omega
  have hlen := (List.subperm_of_subset hmap hsub).length_le
  rw [List.length_map, List.length_range] at hlen
  exact hlen


theorem ok_bind {ε α β : Type} (a : α) (f : α → Except ε β) :
    (Except.ok a >>= f) = f a := rfl

/-! ## The eager loop follows the frontier -/

section Eager

variable {width height : Int} {orig : List Nat} {oldColor targetColor threshold : Nat}

theorem eagerNeighbour_ok (oldColor threshold : Nat) {popped : List (Int × Int)}
    {s : EagerState}
    (hrel : EagerRel width height orig targetColor popped s) (x y : Int) (d : Int × Int) :
    ∃ s1, eagerNeighbour width height oldColor threshold x y s d = .ok s1 ∧
      (s1.queue, s1.pushed) =
        frontierVisit width height orig oldColor threshold (x, y) (s.queue, s.pushed) d ∧
      s1.pixelData = s.pixelData ∧
      EagerRel width height orig targetColor popped s1 := by
  unfold eagerNeighbour frontierVisit
  simp only []
  by_cases hb : InBounds width height (x + d.1, y + d.2)
  · have hb1 : x + d.1 ≥ 0 ∧ x + d.1 < width ∧ y + d.2 ≥ 0 ∧ y + d.2 < height := hb
    rw [if_pos hb1]
    have hvis : (y + d.2) * width + (x + d.1) ∈ s.visited ↔ (x + d.1, y + d.2) ∈ s.pushed := by
      rw [hrel.visited_iff]
      constructor
      · rintro ⟨p, hp, he⟩
        have := linearIndex_inj (hrel.inb p hp) hb he
        exact this ▸ hp
      · intro hp
        exact ⟨_, hp, rfl⟩
    by_cases hv : (x + d.1, y + d.2) ∈ s.pushed
    · rw [if_pos (hvis.2 hv)]
      refine ⟨s, rfl, ?_, rfl, hrel⟩
      rw [if_neg]
      intro hc
      exact hc.2.1 hv
    · rw [if_neg (mt hvis.1 hv)]
      have hread : readPixel s.pixelData ((y + d.2) * width + (x + d.1))
          = .ok (pixelAt orig width (x + d.1, y + d.2)) := by
        have hsz : (s.pixelData.length : Int) = width * height := by
          rw [hrel.len]
          exact hrel.size
        have := readPixel_inBounds hsz hb
        rw [hrel.painted _ hb, if_neg (fun hc => hv (hrel.sub _ hc))] at this
        exact this
      rw [hread]
      by_cases hsim : Similar orig width oldColor threshold (x + d.1, y + d.2)
      · have hsim1 : colorDistance (pixelAt orig width (x + d.1, y + d.2)) oldColor ≤ threshold :=
          hsim
        rw [ok_bind, if_pos hsim1]
        refine ⟨_, rfl, ?_, rfl, ?_⟩
        · rw [if_pos ⟨hb, hv, hsim⟩]
        · refine ⟨hrel.size, hrel.len, hrel.painted, ?_, ?_, ?_, hrel.skipped⟩
          · intro i
            rw [List.mem_cons, hrel.visited_iff]
            constructor
            · rintro (he | ⟨p, hp, he⟩)
              · exact ⟨_, List.mem_append_right _ (List.mem_singleton_self _), he.symm⟩
              · exact ⟨p, List.mem_append_left _ hp, he⟩
            · rintro ⟨p, hp, he⟩
              rcases List.mem_append.1 hp with hp | hp
              · exact Or.inr ⟨p, hp, he⟩
              · left
                rw [List.mem_singleton] at hp
                rw [← he, hp]
                rfl
          · intro p hp
            rcases List.mem_append.1 hp with hp | hp
            · exact hrel.inb p hp
            · rw [List.mem_singleton] at hp
              exact hp ▸ hb
          · intro p hp
            exact List.mem_append_left _ (hrel.sub p hp)
      · have hsim1 : ¬ colorDistance (pixelAt orig width (x + d.1, y + d.2)) oldColor ≤ threshold :=
          hsim
        rw [ok_bind, if_neg hsim1]
        refine ⟨s, rfl, ?_, rfl, hrel⟩
        rw [if_neg]
        intro hc
        exact hsim hc.2.2
  · have hb1 : ¬ (x + d.1 ≥ 0 ∧ x + d.1 < width ∧ y + d.2 ≥ 0 ∧ y + d.2 < height) := hb
    rw [if_neg hb1]
    refine ⟨s, rfl, ?_, rfl, hrel⟩
    rw [if_neg]
    intro hc
    exact hb hc.1

theorem eagerNeighbours_ok (oldColor threshold : Nat) {popped : List (Int × Int)}
    (x y : Int) :
    ∀ (ds : List (Int × Int)) (s : EagerState),
    EagerRel width height orig targetColor popped s →
    ∃ s1, eagerNeighbours width height oldColor threshold x y ds s = .ok s1 ∧
      (s1.queue, s1.pushed) =
        frontierNeighbours width height orig oldColor threshold (x, y) ds (s.queue, s.pushed) ∧
      s1.pixelData = s.pixelData ∧
      EagerRel width height orig targetColor popped s1 := by
  intro ds
  induction ds with
  | nil =>
    intro s hrel
    exact ⟨s, rfl, rfl, rfl, hrel⟩
  | cons d ds ih =>
    intro s hrel
    obtain ⟨s1, h1, hf1, hp1, hr1⟩ :=
      eagerNeighbour_ok oldColor threshold hrel x y d
    obtain ⟨s2, h2, hf2, hp2, hr2⟩ := ih s1 hr1
    refine ⟨s2, ?_, ?_, hp2.trans hp1, hr2⟩
    · rw [eagerNeighbours, h1, ok_bind]
      exact h2
    · rw [hf2, hf1]
      simp [frontierNeighbours]

end Eager

section EagerLoop

variable {width height : Int} {orig : List Nat} {oldColor targetColor threshold : Nat}
  {seed : Int × Int}

theorem eagerLoop_ok :
    ∀ (fuel : Nat) (s : EagerState) (popped : List (Int × Int)),
    FrontierInv width height orig oldColor threshold seed popped s.queue s.pushed →
    Closed width height orig oldColor threshold popped s.pushed →
    EagerRel width height orig targetColor popped s →
    orig.length < popped.length + fuel →
    ∃ s1, eagerLoop width height oldColor targetColor threshold fuel s = .ok s1 ∧
      s1.queue = [] ∧
      FrontierInv width height orig oldColor threshold seed s1.pushed [] s1.pushed ∧
      Closed width height orig oldColor threshold s1.pushed s1.pushed ∧
      EagerRel width height orig targetColor s1.pushed s1 := by
  intro fuel
  induction fuel with
  | zero =>
    intro s popped hinv _ hrel hfuel
    exfalso
    have hnd : popped.Nodup := by
      have := hinv.nodup
      rw [hinv.split] at this
      exact this.of_append_left
    have hle := length_le_of_inBounds popped hnd (fun p hp => hrel.inb p (hrel.sub p hp))
    have := hrel.size
    omega
  | succ fuel ih =>
    intro s popped hinv hcl hrel hfuel
    rw [eagerLoop]
    rcases hq : s.queue with _ | ⟨⟨x, y⟩, rest⟩
    · have hpush : s.pushed = popped := by
        rw [hinv.split, hq, List.append_nil]
      refine ⟨s, rfl, hq, ?_, ?_, ?_⟩
      · rw [hpush]
        have := hinv
        rw [hq, hpush] at this
        exact this
      · rw [hpush]
        have := hcl
        rw [hpush] at this
        exact this
      · rw [hpush]
        exact hrel
    · simp only []
      rw [hq] at hinv
      have hmem : (x, y) ∈ s.pushed := by
        rw [hinv.split]
        exact List.mem_append_right _ (List.mem_cons_self _ _)
      obtain ⟨hb, hsim, -⟩ := hinv.sound _ hmem
      have hnot : (x, y) ∉ popped := by
        intro hc
        have := hinv.nodup
        rw [hinv.split] at this
        exact (List.disjoint_of_nodup_append this) hc (List.mem_cons_self _ _)
      have hsz : (s.pixelData.length : Int) = width * height := by
        rw [hrel.len]
        exact hrel.size
      have hread : readPixel s.pixelData (y * width + x) = .ok (pixelAt orig width (x, y)) := by
        have := readPixel_inBounds hsz hb
        rw [hrel.painted _ hb, if_neg hnot] at this
        exact this
      have hsim1 : ¬ colorDistance (pixelAt orig width (x, y)) oldColor > threshold :=
        not_lt.2 hsim
      have hwrite := writePixel_inBounds targetColor hsz hb
      have hwrite1 : writePixel s.pixelData (y * width + x) targetColor
          = .ok (s.pixelData.set (linearIndex width (x, y)).toNat targetColor) := hwrite
      rw [hread, ok_bind, if_neg hsim1, hwrite1, ok_bind]
      have hrel1 : EagerRel width height orig targetColor (popped ++ [(x, y)])
          { s with queue := rest,
                   pixelData := s.pixelData.set (linearIndex width (x, y)).toNat targetColor } := by
        refine ⟨hrel.size, ?_, ?_, hrel.visited_iff, hrel.inb, ?_, hrel.skipped⟩
        · simp only [List.length_set]
          exact hrel.len
        · intro p hp
          simp only []
          rw [pixelAt_set targetColor hsz hb hp, hrel.painted p hp]
          by_cases hpe : p = (x, y)
          · subst hpe
            simp
          · simp [hpe]
        · intro p hp
          rcases List.mem_append.1 hp with hp | hp
          · exact hrel.sub p hp
          · rw [List.mem_singleton] at hp
            exact hp ▸ hmem
      obtain ⟨s1, h1, hf1, -, hr1⟩ :=
        eagerNeighbours_ok oldColor threshold x y offsets _ hrel1
      obtain ⟨hinv2, hcl2, -⟩ := frontierPop_inv hinv hcl
      have hq1 : s1.queue = (frontierNeighbours width height orig oldColor threshold (x, y)
          offsets (rest, s.pushed)).1 := congrArg Prod.fst hf1
      have hu1 : s1.pushed = (frontierNeighbours width height orig oldColor threshold (x, y)
          offsets (rest, s.pushed)).2 := congrArg Prod.snd hf1
      rw [← hq1, ← hu1] at hinv2
      rw [← hu1] at hcl2
      rw [h1, ok_bind]
      apply ih s1 (popped ++ [(x, y)]) hinv2 hcl2 hr1
      simp only [List.length_append, List.length_singleton]
      omega

end EagerLoop


theorem floodFillCore_ok {width height : Int} {orig : List Nat}
    (startX startY fillColor tolerance : Int)
    (hsize : (orig.length : Int) = width * height)
    (hseed : InBounds width height (startX, startY))
    (hdiff : ¬ colorDistance (pixelAt orig width (startX, startY)) (argbToRgba fillColor)
      ≤ fillThreshold tolerance)
    (fuel : Nat) (hfuel : orig.length < fuel) :
    ∃ s, floodFillCore fuel width height orig startX startY fillColor tolerance
        = .ok (some s, s.pixelData) ∧
      s.queue = [] ∧
      FrontierInv width height orig (pixelAt orig width (startX, startY))
        (fillThreshold tolerance) (startX, startY) s.pushed [] s.pushed ∧
      Closed width height orig (pixelAt orig width (startX, startY))
        (fillThreshold tolerance) s.pushed s.pushed ∧
      EagerRel width height orig (argbToRgba fillColor) s.pushed s := by
  have hread : readPixel orig (startY * width + startX)
      = .ok (pixelAt orig width (startX, startY)) := readPixel_inBounds hsize hseed
  have hinv0 : FrontierInv width height orig (pixelAt orig width (startX, startY))
      (fillThreshold tolerance) (startX, startY) [] [(startX, startY)] [(startX, startY)] := by
    refine ⟨rfl, List.nodup_singleton _, ?_, List.mem_singleton_self _⟩
    intro p hp
    rw [List.mem_singleton] at hp
    subst hp
    refine ⟨hseed, ?_, Joined.seed⟩
    show colorDistance _ _ ≤ _
    rw [colorDistance_self]
    exact Nat.zero_le _
  have hcl0 : Closed width height orig (pixelAt orig width (startX, startY))
      (fillThreshold tolerance) [] [(startX, startY)] := by
    intro p hp
    simp at hp
  have hrel0 : EagerRel width height orig (argbToRgba fillColor) []
      { pixelData := orig, queue := [(startX, startY)],
        visited := [startY * width + startX], pushed := [(startX, startY)], skipped := 0 } := by
    refine ⟨hsize, rfl, ?_, ?_, ?_, ?_, rfl⟩
    · intro p _
      simp
    · intro i
      simp only [List.mem_singleton]
      constructor
      · intro hi
        exact ⟨_, rfl, hi.symm⟩
      · rintro ⟨p, hp, he⟩
        rw [← he, hp]
        rfl
    · intro p hp
      rw [List.mem_singleton] at hp
      exact hp ▸ hseed
    · intro p hp
      simp at hp
  obtain ⟨s, hs, hq, hinv, hcl, hrel⟩ :=
    eagerLoop_ok fuel _ [] hinv0 hcl0 hrel0
      (by simpa using hfuel)
  refine ⟨s, ?_, hq, hinv, hcl, hrel⟩
  unfold floodFillCore
  rw [hread, ok_bind]
  simp only []
  rw [if_neg hdiff, hs, ok_bind]

/-- C2.  On a usable bitmap whose pixel memory has `width * height` entries,
with the seed inside the bitmap and a fill colour whose internal form is not
within the threshold of the seed colour, `nativeFloodFill` returns `JNI_TRUE`
and leaves a buffer of the same size in which every pixel joined to the seed
by an 8-connected path of pixels within the threshold of the seed colour holds
`argbToRgba(fillColor)`, and every other pixel holds its original value. -/
theorem nativeFloodFill_fills_component (bitmap : Bitmap)
    (startX startY fillColor tolerance : Int)
    (hinfo : 0 ≤ bitmap.getInfoResult)
    (hformat : bitmap.format = ANDROID_BITMAP_FORMAT_RGBA_8888)
    (hlock : 0 ≤ bitmap.lockPixelsResult)
    (hsize : (bitmap.pixels.length : Int) = bitmap.width * bitmap.height)
    (hseed : InBounds bitmap.width bitmap.height (startX, startY))
    (hdiff : ¬ colorDistance (pixelAt bitmap.pixels bitmap.width (startX, startY))
      (argbToRgba fillColor) ≤ fillThreshold tolerance) :
    ∃ pixels1 : List Nat,
      nativeFloodFill bitmap startX startY fillColor tolerance
        = .ok (true, { bitmap with pixels := pixels1 }) ∧
      pixels1.length = bitmap.pixels.length ∧
      ∀ p, InBounds bitmap.width bitmap.height p →
        (Joined bitmap.width bitmap.height bitmap.pixels
            (pixelAt bitmap.pixels bitmap.width (startX, startY))
            (fillThreshold tolerance) (startX, startY) p →
          pixelAt pixels1 bitmap.width p = argbToRgba fillColor) ∧
        (¬ Joined bitmap.width bitmap.height bitmap.pixels
            (pixelAt bitmap.pixels bitmap.width (startX, startY))
            (fillThreshold tolerance) (startX, startY) p →
          pixelAt pixels1 bitmap.width p = pixelAt bitmap.pixels bitmap.width p) := by
  obtain ⟨s, hs, -, hinv, hcl, hrel⟩ :=
    floodFillCore_ok startX startY fillColor tolerance hsize hseed hdiff
      (bitmap.pixels.length + 1) (Nat.lt_succ_self _)
  refine ⟨s.pixelData, ?_, hrel.len, ?_⟩
  · unfold nativeFloodFill
    rw [if_neg (not_lt.2 hinfo), if_neg (not_not.2 hformat), if_neg (not_lt.2 hlock), hs, ok_bind]
  · intro p hp
    have hiff := mem_pushed_iff_joined hinv hcl p
    have hpaint := hrel.painted p hp
    constructor
    · intro hj
      rw [hpaint, if_pos (hiff.2 hj)]
    · intro hj
      rw [hpaint, if_neg (fun hc => hj (hiff.1 hc))]

/-! ## The layered traversal follows the frontier -/

section Prepare

variable {width height : Int} {orig : List Nat} {oldColor threshold : Nat}

theorem readVisited_inBounds {visited : List Bool} {p : Int × Int}
    (hlen : (visited.length : Int) = width * height) (hp : InBounds width height p) :
    readVisited visited (linearIndex width p)
      = .ok (visited.getD (linearIndex width p).toNat false) := by
  obtain ⟨h0, h1⟩ := linearIndex_range hp
  have hlt : (linearIndex width p).toNat < visited.length := by omega
  unfold readVisited
  rw [if_neg (by omega), List.getElem?_eq_getElem hlt, List.getD_eq_getElem _ _ hlt]

theorem markVisited_inBounds {visited : List Bool} {p : Int × Int}
    (hlen : (visited.length : Int) = width * height) (hp : InBounds width height p) :
    markVisited visited (linearIndex width p)
      = .ok (visited.set (linearIndex width p).toNat true) := by
  obtain ⟨h0, h1⟩ := linearIndex_range hp
  have hlt : (linearIndex width p).toNat < visited.length := by omega
  unfold markVisited
  rw [if_neg (by omega), if_pos hlt]

theorem visited_set {visited : List Bool} {p q : Int × Int}
    (hlen : (visited.length : Int) = width * height)
    (hp : InBounds width height p) (hq : InBounds width height q) :
    (visited.set (linearIndex width p).toNat true).getD (linearIndex width q).toNat false
      = if q = p then true else visited.getD (linearIndex width q).toNat false := by
  obtain ⟨h0, h1⟩ := linearIndex_range hp
  obtain ⟨h2, h3⟩ := linearIndex_range hq
  by_cases hqp : q = p
  · subst hqp
    rw [if_pos rfl, List.getD_eq_getElem _ _ (by simp; omega)]
    simp
  · rw [if_neg hqp]
    have hne : (linearIndex width p).toNat ≠ (linearIndex width q).toNat := by
      intro he
      apply hqp
      apply linearIndex_inj hq hp
      omega
    rw [List.getD_eq_getElem?_getD, List.getD_eq_getElem?_getD, List.getElem?_set_ne hne]

theorem prepareNeighbour_ok (oldColor threshold : Nat) {popped : List (Int × Int)}
    {s : PrepareState}
    (hrel : PrepareRel width height orig popped s) (x y : Int) (d : Int × Int) :
    ∃ s1, prepareNeighbour width height oldColor threshold x y s d = .ok s1 ∧
      (s1.queue, s1.pushed) =
        frontierVisit width height orig oldColor threshold (x, y) (s.queue, s.pushed) d ∧
      (s1.layer = s.layer ∧ s1.layers = s.layers) ∧
      PrepareRel width height orig popped s1 := by
  unfold prepareNeighbour frontierVisit
  simp only []
  have hvl : (s.visited.length : Int) = width * height := by
    rw [hrel.vlen]
    exact hrel.size
  by_cases hb : InBounds width height (x + d.1, y + d.2)
  · have hb1 : x + d.1 ≥ 0 ∧ x + d.1 < width ∧ y + d.2 ≥ 0 ∧ y + d.2 < height := hb
    have hidx : (y + d.2) * width + (x + d.1) = linearIndex width (x + d.1, y + d.2) := rfl
    rw [if_pos hb1, hidx, readVisited_inBounds hvl hb, ok_bind]
    by_cases hv : (x + d.1, y + d.2) ∈ s.pushed
    · have hv1 : s.visited.getD (linearIndex width (x + d.1, y + d.2)).toNat false = true :=
        (hrel.visited_iff _ hb).2 hv
      rw [hv1, if_pos rfl]
      refine ⟨s, rfl, ?_, ⟨rfl, rfl⟩, hrel⟩
      rw [if_neg]
      intro hc
      exact hc.2.1 hv
    · have hv1 : s.visited.getD (linearIndex width (x + d.1, y + d.2)).toNat false = false := by
        cases hvv : s.visited.getD (linearIndex width (x + d.1, y + d.2)).toNat false
        · rfl
        · exact absurd ((hrel.visited_iff _ hb).1 hvv) hv
      rw [hv1, if_neg (by simp)]
      rw [hrel.pixels, readPixel_inBounds hrel.size hb, ok_bind]
      by_cases hsim : Similar orig width oldColor threshold (x + d.1, y + d.2)
      · have hsim1 : colorDistance (pixelAt orig width (x + d.1, y + d.2)) oldColor ≤ threshold :=
          hsim
        rw [if_pos hsim1, markVisited_inBounds hvl hb, ok_bind]
        refine ⟨_, rfl, ?_, ⟨rfl, rfl⟩, ?_⟩
        · rw [if_pos ⟨hb, hv, hsim⟩]
        · refine ⟨hrel.size, rfl, ?_, ?_, ?_, ?_, hrel.collected, hrel.total,
            hrel.skipped⟩
          · simp only [List.length_set]
            exact hrel.vlen
          · intro p hp
            simp only []
            rw [visited_set hvl hb hp, List.mem_append, List.mem_singleton]
            by_cases hpe : p = (x + d.1, y + d.2)
            · simp [hpe]
            · rw [if_neg hpe, hrel.visited_iff p hp]
              simp [hpe]
          · intro p hp
            rcases List.mem_append.1 hp with hp | hp
            · exact hrel.inb p hp
            · rw [List.mem_singleton] at hp
              exact hp ▸ hb
          · intro p hp
            exact List.mem_append_left _ (hrel.sub p hp)
      · have hsim1 : ¬ colorDistance (pixelAt orig width (x + d.1, y + d.2)) oldColor ≤ threshold :=
          hsim
        rw [if_neg hsim1]
        refine ⟨s, rfl, ?_, ⟨rfl, rfl⟩, hrel⟩
        rw [if_neg]
        intro hc
        exact hsim hc.2.2
  · have hb1 : ¬ (x + d.1 ≥ 0 ∧ x + d.1 < width ∧ y + d.2 ≥ 0 ∧ y + d.2 < height) := hb
    rw [if_neg hb1]
    refine ⟨s, rfl, ?_, ⟨rfl, rfl⟩, hrel⟩
    rw [if_neg]
    intro hc
    exact hb hc.1

theorem prepareNeighbours_ok (oldColor threshold : Nat) {popped : List (Int × Int)}
    (x y : Int) :
    ∀ (ds : List (Int × Int)) (s : PrepareState),
    PrepareRel width height orig popped s →
    ∃ s1, prepareNeighbours width height oldColor threshold x y ds s = .ok s1 ∧
      (s1.queue, s1.pushed) =
        frontierNeighbours width height orig oldColor threshold (x, y) ds (s.queue, s.pushed) ∧
      (s1.layer = s.layer ∧ s1.layers = s.layers) ∧
      PrepareRel width height orig popped s1 := by
  intro ds
  induction ds with
  | nil =>
    intro s hrel
    exact ⟨s, rfl, rfl, ⟨rfl, rfl⟩, hrel⟩
  | cons d ds ih =>
    intro s hrel
    obtain ⟨s1, h1, hf1, ⟨hl1, hls1⟩, hr1⟩ :=
      prepareNeighbour_ok oldColor threshold hrel x y d
    obtain ⟨s2, h2, hf2, ⟨hl2, hls2⟩, hr2⟩ := ih s1 hr1
    refine ⟨s2, ?_, ?_, ⟨hl2.trans hl1, hls2.trans hls1⟩, hr2⟩
    · rw [prepareNeighbours, h1, ok_bind]
      exact h2
    · rw [hf2, hf1]
      simp [frontierNeighbours]

theorem prepareWave_ok {seed : Int × Int} :
    ∀ (n : Nat) (s : PrepareState) (popped : List (Int × Int)),
    n ≤ s.queue.length →
    FrontierInv width height orig oldColor threshold seed popped s.queue s.pushed →
    Closed width height orig oldColor threshold popped s.pushed →
    PrepareRel width height orig popped s →
    ∃ s1, prepareWave width height oldColor threshold n s = .ok s1 ∧
      (s1.queue, s1.pushed) =
        frontierPops width height orig oldColor threshold n (s.queue, s.pushed) ∧
      s1.layers = s.layers ∧
      s1.layer.pixels = s.layer.pixels ++ s.queue.take n ∧
      FrontierInv width height orig oldColor threshold seed (popped ++ s.queue.take n)
        s1.queue s1.pushed ∧
      Closed width height orig oldColor threshold (popped ++ s.queue.take n) s1.pushed ∧
      PrepareRel width height orig (popped ++ s.queue.take n) s1 := by
  intro n
  induction n with
  | zero =>
    intro s popped _ hinv hcl hrel
    refine ⟨s, rfl, rfl, rfl, ?_, ?_, ?_, ?_⟩
    · simp
    · simpa using hinv
    · simpa using hcl
    · simpa using hrel
  | succ n ih =>
    intro s popped hn hinv hcl hrel
    rw [prepareWave]
    rcases hq : s.queue with _ | ⟨⟨x, y⟩, rest⟩
    · rw [hq] at hn
      simp at hn
    · simp only []
      rw [hq] at hinv hn
      have hmem : (x, y) ∈ s.pushed := by
        rw [hinv.split]
        exact List.mem_append_right _ (List.mem_cons_self _ _)
      obtain ⟨hb, hsim, -⟩ := hinv.sound _ hmem
      have hsim1 : ¬ colorDistance (pixelAt orig width (x, y)) oldColor > threshold :=
        not_lt.2 hsim
      have hidx : y * width + x = linearIndex width (x, y) := rfl
      rw [hidx, hrel.pixels, readPixel_inBounds hrel.size hb, ok_bind, if_neg hsim1]
      have hrel1 : PrepareRel width height orig (popped ++ [(x, y)])
          { pixelData := orig, queue := rest, visited := s.visited,
            layer := { pixels := s.layer.pixels ++ [(x, y)] }, layers := s.layers,
            totalPixels := s.totalPixels + 1, pushed := s.pushed, skipped := s.skipped } := by
        refine ⟨hrel.size, rfl, hrel.vlen, hrel.visited_iff, hrel.inb, ?_, ?_, ?_, hrel.skipped⟩
        · intro p hp
          rcases List.mem_append.1 hp with hp | hp
          · exact hrel.sub p hp
          · rw [List.mem_singleton] at hp
            exact hp ▸ hmem
        · show (s.layers.map LayerData.pixels).flatten ++ (s.layer.pixels ++ [(x, y)])
            = popped ++ [(x, y)]
          rw [← List.append_assoc, hrel.collected]
        · show s.totalPixels + 1 = ((popped ++ [(x, y)]).length : Int)
          rw [hrel.total]
          simp
      obtain ⟨s1, h1, hf1, ⟨hl1, hls1⟩, hr1⟩ :=
        prepareNeighbours_ok oldColor threshold x y offsets _ hrel1
      obtain ⟨hinv2, hcl2, extra, hqe, -⟩ := frontierPop_inv hinv hcl
      have hq1 : s1.queue = (frontierNeighbours width height orig oldColor threshold (x, y)
          offsets (rest, s.pushed)).1 := congrArg Prod.fst hf1
      have hu1 : s1.pushed = (frontierNeighbours width height orig oldColor threshold (x, y)
          offsets (rest, s.pushed)).2 := congrArg Prod.snd hf1
      rw [← hq1, ← hu1] at hinv2
      rw [← hu1] at hcl2
      rw [← hq1] at hqe
      have hn1 : n ≤ s1.queue.length := by
        rw [hqe, List.length_append]
        simp only [List.length_cons] at hn
        omega
      have htake : s1.queue.take n = rest.take n := by
        rw [hqe]
        apply List.take_append_of_le_length
        simp only [List.length_cons] at hn
        omega
      obtain ⟨s2, h2, hf2, hls2, hl2, hinv3, hcl3, hr3⟩ :=
        ih s1 (popped ++ [(x, y)]) hn1 hinv2 hcl2 hr1
      have hpop : popped ++ [(x, y)] ++ s1.queue.take n
          = popped ++ ((x, y) :: rest).take (n + 1) := by
        rw [htake, List.take_succ_cons, List.append_assoc]
        rfl
      rw [hpop] at hinv3 hcl3 hr3
      rw [h1, ok_bind]
      refine ⟨s2, h2, ?_, hls2.trans hls1, ?_, hinv3, hcl3, hr3⟩
      · rw [hf2, hf1]
        rfl
      · rw [hl2, hl1, htake, List.take_succ_cons, List.append_assoc]
        rfl

theorem prepareLoop_ok {seed : Int × Int} :
    ∀ (fuel : Nat) (s : PrepareState) (popped : List (Int × Int)),
    FrontierInv width height orig oldColor threshold seed popped s.queue s.pushed →
    Closed width height orig oldColor threshold popped s.pushed →
    PrepareRel width height orig popped { s with layer := { pixels := [] } } →
    orig.length < popped.length + fuel →
    ∃ s1, prepareLoop width height oldColor threshold fuel s = .ok s1 ∧
      s1.queue = [] ∧
      FrontierInv width height orig oldColor threshold seed s1.pushed [] s1.pushed ∧
      Closed width height orig oldColor threshold s1.pushed s1.pushed ∧
      PrepareRel width height orig s1.pushed { s1 with layer := { pixels := [] } } := by
  intro fuel
  induction fuel with
  | zero =>
    intro s popped hinv _ hrel hfuel
    exfalso
    have hnd : popped.Nodup := by
      have := hinv.nodup
      rw [hinv.split] at this
      exact this.of_append_left
    have hle := length_le_of_inBounds popped hnd (fun p hp => hrel.inb p (hrel.sub p hp))
    have := hrel.size
    omega
  | succ fuel ih =>
    intro s popped hinv hcl hrel hfuel
    rw [prepareLoop]
    by_cases hq : s.queue = []
    · rw [if_pos hq]
      have hpush : s.pushed = popped := by
        rw [hinv.split, hq, List.append_nil]
      subst hpush
      rw [hq] at hinv
      exact ⟨s, rfl, hq, hinv, hcl, hrel⟩
    · rw [if_neg hq]
      obtain ⟨s1, h1, -, hls1, hl1, hinv1, hcl1, hr1⟩ :=
        prepareWave_ok (s.queue.length) { s with layer := { pixels := [] } } popped
          (le_refl _) hinv hcl hrel
      simp only [List.take_length, List.nil_append] at hl1 hinv1 hcl1 hr1
      simp only []
      rw [h1, ok_bind]
      refine ih { s1 with
          layers := if s1.layer.pixels ≠ [] then s1.layers ++ [s1.layer] else s1.layers }
        (popped ++ s.queue) hinv1 hcl1 ?_ ?_
      · refine ⟨hr1.size, hr1.pixels, hr1.vlen, hr1.visited_iff, hr1.inb, hr1.sub, ?_,
          hr1.total, hr1.skipped⟩
        have hc := hr1.collected
        show ((if s1.layer.pixels ≠ [] then s1.layers ++ [s1.layer] else s1.layers).map
          LayerData.pixels).flatten ++ [] = popped ++ s.queue
        by_cases he : s1.layer.pixels = []
        · rw [if_neg (not_not.2 he), List.append_nil]
          rw [he, List.append_nil] at hc
          exact hc
        · rw [if_pos he, List.append_nil, List.map_append, List.flatten_append]
          simpa using hc
      · have : 0 < s.queue.length := List.length_pos.2 hq
        rw [List.length_append]
        omega

end Prepare
theorem prepareCore_ok {width height : Int} {orig : List Nat}
    (startX startY fillColor tolerance : Int)
    (hsize : (orig.length : Int) = width * height)
    (hseed : InBounds width height (startX, startY))
    (hdiff : ¬ colorDistance (pixelAt orig width (startX, startY)) (argbToRgba fillColor)
      ≤ fillThreshold tolerance)
    (fuel : Nat) (hfuel : orig.length < fuel) :
    ∃ s, prepareCore fuel width height orig startX startY fillColor tolerance = .ok (some s) ∧
      s.queue = [] ∧
      FrontierInv width height orig (pixelAt orig width (startX, startY))
        (fillThreshold tolerance) (startX, startY) s.pushed [] s.pushed ∧
      Closed width height orig (pixelAt orig width (startX, startY))
        (fillThreshold tolerance) s.pushed s.pushed ∧
      PrepareRel width height orig s.pushed { s with layer := { pixels := [] } } := by
  have hidx : startY * width + startX = linearIndex width (startX, startY) := rfl
  have hvl : ((List.replicate (width * height).toNat false).length : Int) = width * height := by
    rw [List.length_replicate]
    omega
  have hinv0 : FrontierInv width height orig (pixelAt orig width (startX, startY))
      (fillThreshold tolerance) (startX, startY) [] [(startX, startY)] [(startX, startY)] := by
    refine ⟨rfl, List.nodup_singleton _, ?_, List.mem_singleton_self _⟩
    intro p hp
    rw [List.mem_singleton] at hp
    subst hp
    refine ⟨hseed, ?_, Joined.seed⟩
    show colorDistance _ _ ≤ _
    rw [colorDistance_self]
    exact Nat.zero_le _
  have hcl0 : Closed width height orig (pixelAt orig width (startX, startY))
      (fillThreshold tolerance) [] [(startX, startY)] := by
    intro p hp
    simp at hp
  have hrel0 : PrepareRel width height orig []
      { pixelData := orig, queue := [(startX, startY)],
        visited := (List.replicate (width * height).toNat false).set
          (linearIndex width (startX, startY)).toNat true,
        layer := { pixels := [] }, layers := [], totalPixels := 0,
        pushed := [(startX, startY)], skipped := 0 } := by
    refine ⟨hsize, rfl, ?_, ?_, ?_, ?_, rfl, rfl, rfl⟩
    · simp only [List.length_set, List.length_replicate]
      omega
    · intro p hp
      simp only []
      rw [visited_set hvl hseed hp, List.mem_singleton]
      by_cases hpe : p = (startX, startY)
      · simp [hpe]
      · rw [if_neg hpe, List.getD_eq_getElem?_getD, List.getElem?_replicate]
        have hne : ¬ (List.replicate (width * height).toNat false)[(linearIndex width p).toNat]?.getD
            false = true := by
          rw [List.getElem?_replicate]
          split <;> simp
        rw [List.getElem?_replicate] at hne
        simpa [hpe] using hne
    · intro p hp
      rw [List.mem_singleton] at hp
      exact hp ▸ hseed
    · intro p hp
      simp at hp
  obtain ⟨s, hs, hq, hinv, hcl, hrel⟩ :=
    prepareLoop_ok fuel
      { pixelData := orig, queue := [(startX, startY)],
        visited := (List.replicate (width * height).toNat false).set
          (linearIndex width (startX, startY)).toNat true,
        layer := { pixels := [] }, layers := [], totalPixels := 0,
        pushed := [(startX, startY)], skipped := 0 } [] hinv0 hcl0 hrel0 (by simpa using hfuel)
  refine ⟨s, ?_, hq, hinv, hcl, hrel⟩
  unfold prepareCore
  rw [hidx, readPixel_inBounds hsize hseed, ok_bind]
  simp only []
  rw [if_neg hdiff, markVisited_inBounds hvl hseed, ok_bind, hs, ok_bind]

/-! ## Writing layers into the bitmap -/

theorem fillLayer_ok (width : Int) (color : Nat) :
    ∀ (layer : List (Int × Int)) (pd : List Nat) (k : Int),
    (∀ p ∈ layer, 0 ≤ linearIndex width p ∧ linearIndex width p < pd.length) →
    ∃ pd1, fillLayer width color layer (pd, k) = .ok (pd1, k + layer.length) ∧
      pd1.length = pd.length ∧
      (∀ p ∈ layer, pd1.getD (linearIndex width p).toNat 0 = color) ∧
      (∀ j : Nat, (∀ p ∈ layer, (linearIndex width p).toNat ≠ j) →
        pd1.getD j 0 = pd.getD j 0) := by
  intro layer
  induction layer with
  | nil =>
    intro pd k _
    refine ⟨pd, ?_, rfl, ?_, ?_⟩
    · simp [fillLayer]
    · intro p hp
      simp at hp
    · intro j _
      rfl
  | cons q rest ih =>
    intro pd k hall
    obtain ⟨x, y⟩ := q
    obtain ⟨h0, h1⟩ := hall (x, y) (List.mem_cons_self _ _)
    have hlt : (linearIndex width (x, y)).toNat < pd.length := by omega
    have hidx : y * width + x = linearIndex width (x, y) := rfl
    have hw : writePixel pd (linearIndex width (x, y)) color
        = .ok (pd.set (linearIndex width (x, y)).toNat color) := by
      unfold writePixel
      rw [if_neg (by omega), if_pos hlt]
    obtain ⟨pd1, hf, hlen, hin, hout⟩ :=
      ih (pd.set (linearIndex width (x, y)).toNat color) (k + 1) (by
        intro p hp
        rw [List.length_set]
        exact hall p (List.mem_cons_of_mem _ hp))
    refine ⟨pd1, ?_, ?_, ?_, ?_⟩
    · rw [fillLayer]
      simp only []
      rw [hidx, hw, ok_bind, hf]
      simp only [List.length_cons]
      push_cast
      rw [add_assoc, add_comm (1 : Int)]
    · rw [hlen, List.length_set]
    · intro p hp
      rcases List.mem_cons.1 hp with hp | hp
      · subst hp
        by_cases hex : ∃ p1 ∈ rest, (linearIndex width p1).toNat = (linearIndex width (x, y)).toNat
        · obtain ⟨p1, hp1, he⟩ := hex
          rw [← he]
          exact hin p1 hp1
        · rw [hout _ (fun p1 hp1 he => hex ⟨p1, hp1, he⟩), List.getD_eq_getElem?_getD,
            List.getElem?_set_self hlt]
          rfl
      · exact hin p hp
    · intro j hj
      have hne : (linearIndex width (x, y)).toNat ≠ j := hj (x, y) (List.mem_cons_self _ _)
      rw [hout j (fun p hp => hj p (List.mem_cons_of_mem _ hp)), List.getD_eq_getElem?_getD,
        List.getD_eq_getElem?_getD, List.getElem?_set_ne hne]

theorem layerPixels_succ {layers : List LayerData} {c n : Nat} (hc : c < layers.length) :
    layerPixels layers c (n + 1) = (layers[c]).pixels ++ layerPixels layers (c + 1) n := by
  unfold layerPixels
  rw [List.drop_eq_getElem_cons hc, List.take_succ_cons, List.map_cons, List.flatten_cons]

theorem fillLayers_ok (sequence : FloodFillSequence) :
    ∀ (n c : Nat) (pd : List Nat) (k : Int),
    c + n ≤ sequence.layers.length →
    (∀ p ∈ layerPixels sequence.layers c n,
      0 ≤ linearIndex sequence.width p ∧ linearIndex sequence.width p < pd.length) →
    ∃ pd1, fillLayers sequence n (c : Int) (pd, k)
        = .ok (pd1, k + (layerPixels sequence.layers c n).length) ∧
      pd1.length = pd.length ∧
      (∀ p ∈ layerPixels sequence.layers c n,
        pd1.getD (linearIndex sequence.width p).toNat 0 = sequence.fillColor) ∧
      (∀ j : Nat, (∀ p ∈ layerPixels sequence.layers c n,
          (linearIndex sequence.width p).toNat ≠ j) →
        pd1.getD j 0 = pd.getD j 0) := by
  intro n
  induction n with
  | zero =>
    intro c pd k _ _
    refine ⟨pd, ?_, rfl, ?_, ?_⟩
    · simp [fillLayers, layerPixels]
    · intro p hp
      simp [layerPixels] at hp
    · intro j _
      rfl
  | succ n ih =>
    intro c pd k hc hall
    have hlt : c < sequence.layers.length := by omega
    rw [layerPixels_succ hlt] at hall ⊢
    have hread : readLayer sequence.layers (c : Int) = .ok (sequence.layers[c]) := by
      unfold readLayer
      rw [if_neg (by omega)]
      simp [hlt]
    obtain ⟨pd1, hf1, hlen1, hin1, hout1⟩ :=
      fillLayer_ok sequence.width sequence.fillColor (sequence.layers[c]).pixels pd k
        (fun p hp => hall p (List.mem_append_left _ hp))
    obtain ⟨pd2, hf2, hlen2, hin2, hout2⟩ :=
      ih (c + 1) pd1 (k + ((sequence.layers[c]).pixels.length : Int)) (by omega) (by
        intro p hp
        rw [hlen1]
        exact hall p (List.mem_append_right _ hp))
    refine ⟨pd2, ?_, hlen2.trans hlen1, ?_, ?_⟩
    · rw [fillLayers, hread, ok_bind, hf1, ok_bind]
      have hcast : ((c : Int) + 1) = ((c + 1 : Nat) : Int) := by push_cast; rfl
      rw [hcast, hf2, List.length_append]
      push_cast
      rw [add_assoc]
    · intro p hp
      rcases List.mem_append.1 hp with hp | hp
      · by_cases hex : ∃ p1 ∈ layerPixels sequence.layers (c + 1) n,
            (linearIndex sequence.width p1).toNat = (linearIndex sequence.width p).toNat
        · obtain ⟨p1, hp1, he⟩ := hex
          rw [← he]
          exact hin2 p1 hp1
        · rw [hout2 _ (fun p1 hp1 he => hex ⟨p1, hp1, he⟩)]
          exact hin1 p hp
      · exact hin2 p hp
    · intro j hj
      rw [hout2 j (fun p hp => hj p (List.mem_append_right _ hp)),
        hout1 j (fun p hp => hj p (List.mem_append_left _ hp))]

theorem layerPixels_all (layers : List LayerData) :
    layerPixels layers 0 layers.length = (layers.map LayerData.pixels).flatten := by
  simp [layerPixels]

theorem exists_inBounds_of_lt {width : Int} (height : Int) (hw : 0 < width) {j : Nat}
    (hj : (j : Int) < width * height) :
    ∃ p, InBounds width height p ∧ (linearIndex width p).toNat = j := by
  refine ⟨((j : Int) % width, (j : Int) / width), ⟨?_, ?_, ?_, ?_⟩, ?_⟩
  · exact Int.emod_nonneg _ (by omega)
  · exact Int.emod_lt_of_pos _ hw
  · exact Int.ediv_nonneg (by omega) (by omega)
  · apply Int.ediv_lt_of_lt_mul hw
    rw [mul_comm]
    exact hj
  · have : linearIndex width ((j : Int) % width, (j : Int) / width) = (j : Int) := by
      unfold linearIndex
      exact Int.ediv_add_emod' _ _
    rw [this]
    simp

theorem pixels_ext {width height : Int} {a b : List Nat} (hw : 0 < width)
    (ha : (a.length : Int) = width * height) (hb : b.length = a.length)
    (h : ∀ p, InBounds width height p → pixelAt a width p = pixelAt b width p) : a = b := by
  apply List.ext_getElem hb.symm
  intro j h1 h2
  obtain ⟨p, hp, hpj⟩ := exists_inBounds_of_lt height hw (j := j) (by omega)
  have := h p hp
  unfold pixelAt at this
  rw [hpj, List.getD_eq_getElem _ _ h1, List.getD_eq_getElem _ _ h2] at this
  exact this
/-! ## The entry points on a usable bitmap -/

theorem wrapInt32_of_range {z : Int} (h0 : -2147483648 ≤ z) (h1 : z ≤ 2147483647) :
    wrapInt32 z = z := by
  unfold wrapInt32
  omega

theorem nativeFloodFill_of_core {bitmap : Bitmap} {startX startY fillColor tolerance : Int}
    (hinfo : 0 ≤ bitmap.getInfoResult)
    (hformat : bitmap.format = ANDROID_BITMAP_FORMAT_RGBA_8888)
    (hlock : 0 ≤ bitmap.lockPixelsResult)
    {r : Option EagerState × List Nat}
    (hcore : floodFillCore (bitmap.pixels.length + 1) bitmap.width bitmap.height bitmap.pixels
      startX startY fillColor tolerance = .ok r) :
    nativeFloodFill bitmap startX startY fillColor tolerance
      = .ok (true, { bitmap with pixels := r.2 }) := by
  unfold nativeFloodFill
  rw [if_neg (not_lt.2 hinfo), if_neg (not_not.2 hformat), if_neg (not_lt.2 hlock), hcore, ok_bind]

theorem floodFillCore_same {width height : Int} {orig : List Nat}
    (startX startY fillColor tolerance : Int)
    (hsize : (orig.length : Int) = width * height)
    (hseed : InBounds width height (startX, startY))
    (hsame : colorDistance (pixelAt orig width (startX, startY)) (argbToRgba fillColor)
      ≤ fillThreshold tolerance) (fuel : Nat) :
    floodFillCore fuel width height orig startX startY fillColor tolerance = .ok (none, orig) := by
  have hidx : startY * width + startX = linearIndex width (startX, startY) := rfl
  unfold floodFillCore
  rw [hidx, readPixel_inBounds hsize hseed, ok_bind]
  simp only []
  rw [if_pos hsame]

theorem prepareCore_same {width height : Int} {orig : List Nat}
    (startX startY fillColor tolerance : Int)
    (hsize : (orig.length : Int) = width * height)
    (hseed : InBounds width height (startX, startY))
    (hsame : colorDistance (pixelAt orig width (startX, startY)) (argbToRgba fillColor)
      ≤ fillThreshold tolerance) (fuel : Nat) :
    prepareCore fuel width height orig startX startY fillColor tolerance = .ok none := by
  have hidx : startY * width + startX = linearIndex width (startX, startY) := rfl
  unfold prepareCore
  rw [hidx, readPixel_inBounds hsize hseed, ok_bind]
  simp only []
  rw [if_pos hsame]

theorem nativePrepareFillSequence_none {registry : Registry} {bitmap : Bitmap}
    {startX startY fillColor tolerance : Int}
    (hinfo : 0 ≤ bitmap.getInfoResult)
    (hformat : bitmap.format = ANDROID_BITMAP_FORMAT_RGBA_8888)
    (hlock : 0 ≤ bitmap.lockPixelsResult)
    (hcore : prepareCore (bitmap.pixels.length + 1) bitmap.width bitmap.height bitmap.pixels
      startX startY fillColor tolerance = .ok none) :
    nativePrepareFillSequence registry bitmap startX startY fillColor tolerance
      = .ok (-2, registry, bitmap) := by
  unfold nativePrepareFillSequence
  rw [if_neg (not_lt.2 hinfo), if_neg (not_not.2 hformat), if_neg (not_lt.2 hlock), hcore, ok_bind]

theorem nativePrepareFillSequence_some {registry : Registry} {bitmap : Bitmap}
    {startX startY fillColor tolerance : Int}
    (hinfo : 0 ≤ bitmap.getInfoResult)
    (hformat : bitmap.format = ANDROID_BITMAP_FORMAT_RGBA_8888)
    (hlock : 0 ≤ bitmap.lockPixelsResult)
    {s : PrepareState}
    (hcore : prepareCore (bitmap.pixels.length + 1) bitmap.width bitmap.height bitmap.pixels
      startX startY fillColor tolerance = .ok (some s)) :
    nativePrepareFillSequence registry bitmap startX startY fillColor tolerance =
      .ok (registry.sequenceIdCounter,
        { activeSequences := insertSequence registry.activeSequences registry.sequenceIdCounter
            (preparedSequence bitmap fillColor s)
          sequenceIdCounter := wrapInt64 (registry.sequenceIdCounter + 1) },
        { bitmap with pixels := s.pixelData }) := by
  unfold nativePrepareFillSequence
  rw [if_neg (not_lt.2 hinfo), if_neg (not_not.2 hformat), if_neg (not_lt.2 hlock), hcore, ok_bind]
  rfl

theorem findSequence_insertSequence (m : List (Int × FloodFillSequence)) (sequenceId : Int)
    (sequence : FloodFillSequence) :
    findSequence (insertSequence m sequenceId sequence) sequenceId = some sequence := by
  simp [findSequence, insertSequence, List.lookup]

theorem sentinel_of_within_threshold (registry : Registry) (bitmap : Bitmap)
    (startX startY fillColor tolerance : Int)
    (hinfo : 0 ≤ bitmap.getInfoResult)
    (hformat : bitmap.format = ANDROID_BITMAP_FORMAT_RGBA_8888)
    (hlock : 0 ≤ bitmap.lockPixelsResult)
    (hsize : (bitmap.pixels.length : Int) = bitmap.width * bitmap.height)
    (hseed : InBounds bitmap.width bitmap.height (startX, startY))
    (hsame : colorDistance (pixelAt bitmap.pixels bitmap.width (startX, startY))
      (argbToRgba fillColor) ≤ fillThreshold tolerance) :
    nativePrepareFillSequence registry bitmap startX startY fillColor tolerance
        = .ok (-2, registry, bitmap) ∧
      nativeFloodFill bitmap startX startY fillColor tolerance = .ok (true, bitmap) := by
  constructor
  · exact nativePrepareFillSequence_none hinfo hformat hlock
      (prepareCore_same startX startY fillColor tolerance hsize hseed hsame _)
  · rw [nativeFloodFill_of_core hinfo hformat hlock
      (floodFillCore_same startX startY fillColor tolerance hsize hseed hsame _)]

/-! ## The registry -/

theorem findSequence_cons (k : Int) (v : FloodFillSequence) (m : List (Int × FloodFillSequence))
    (sequenceId : Int) :
    findSequence ((k, v) :: m) sequenceId
      = if sequenceId = k then some v else findSequence m sequenceId := by
  unfold findSequence
  rw [List.lookup_cons]
  by_cases h : sequenceId = k
  · simp [h]
  · have hb : (sequenceId == k) = false := by simpa using h
    rw [hb, if_neg h]

theorem findSequence_eraseSequence_self (m : List (Int × FloodFillSequence)) (sequenceId : Int) :
    findSequence (eraseSequence m sequenceId) sequenceId = none := by
  induction m with
  | nil => rfl
  | cons e m ih =>
    obtain ⟨k, v⟩ := e
    unfold eraseSequence at ih ⊢
    by_cases h : k = sequenceId
    · simpa [List.filter_cons, h] using ih
    · have h2 : ¬ sequenceId = k := fun hc => h hc.symm
      simp only [List.filter_cons, ne_eq, h, not_false_eq_true, decide_True, if_true]
      rw [findSequence_cons, if_neg h2]
      exact ih

theorem findSequence_eraseSequence_ne (m : List (Int × FloodFillSequence))
    {sequenceId other : Int} (hne : other ≠ sequenceId) :
    findSequence (eraseSequence m sequenceId) other = findSequence m other := by
  induction m with
  | nil => rfl
  | cons e m ih =>
    obtain ⟨k, v⟩ := e
    unfold eraseSequence at ih ⊢
    by_cases h : k = sequenceId
    · have h2 : ¬ other = k := fun hc => hne (hc.trans h)
      rw [findSequence_cons, if_neg h2]
      simpa [List.filter_cons, h] using ih
    · simp only [List.filter_cons, ne_eq, h, not_false_eq_true, decide_True, if_true]
      rw [findSequence_cons, findSequence_cons, ih]

theorem eraseSequence_of_not_found (m : List (Int × FloodFillSequence)) (sequenceId : Int)
    (h : findSequence m sequenceId = none) : eraseSequence m sequenceId = m := by
  induction m with
  | nil => rfl
  | cons e m ih =>
    obtain ⟨k, v⟩ := e
    rw [findSequence_cons] at h
    by_cases hk : sequenceId = k
    · rw [if_pos hk] at h
      cases h
    · rw [if_neg hk] at h
      have hk2 : ¬ k = sequenceId := fun hc => hk hc.symm
      unfold eraseSequence at ih ⊢
      simp only [List.filter_cons, ne_eq, hk2, not_false_eq_true, decide_True, if_true]
      rw [ih h]

theorem mem_of_findSequence {m : List (Int × FloodFillSequence)} {sequenceId : Int}
    {sequence : FloodFillSequence} (h : findSequence m sequenceId = some sequence) :
    (sequenceId, sequence) ∈ m := by
  induction m with
  | nil => cases h
  | cons e m ih =>
    obtain ⟨k, v⟩ := e
    rw [findSequence_cons] at h
    by_cases hk : sequenceId = k
    · rw [if_pos hk] at h
      cases h
      rw [hk]
      exact List.mem_cons_self _ _
    · rw [if_neg hk] at h
      exact List.mem_cons_of_mem _ (ih h)

theorem findSequence_storeSequence (m : List (Int × FloodFillSequence))
    (sequenceId other : Int) (sequence : FloodFillSequence) :
    findSequence (storeSequence m sequenceId sequence) other
      = if other = sequenceId then (findSequence m sequenceId).map (fun _ => sequence)
        else findSequence m other := by
  induction m with
  | nil =>
    by_cases h : other = sequenceId <;> simp [h, storeSequence, findSequence]
  | cons e m ih =>
    obtain ⟨k, v⟩ := e
    unfold storeSequence at ih ⊢
    rw [List.map_cons]
    by_cases hk : k = sequenceId
    · simp only [hk, if_true]
      rw [findSequence_cons, findSequence_cons, findSequence_cons]
      by_cases ho : other = sequenceId
      · simp [ho]
      · rw [if_neg ho, if_neg ho, ih, if_neg ho, if_neg ho]
    · simp only [hk, if_false]
      rw [findSequence_cons, findSequence_cons, findSequence_cons, ih]
      by_cases ho : other = sequenceId
      · have hsk : ¬ sequenceId = k := fun hc => hk hc.symm
        simp [ho, hsk]
      · simp [ho]

theorem findSequence_nativeReleaseSequence_self (registry : Registry) (sequenceId : Int) :
    findSequence (nativeReleaseSequence registry sequenceId).activeSequences sequenceId = none := by
  unfold nativeReleaseSequence
  cases h : findSequence registry.activeSequences sequenceId with
  | none => simpa using h
  | some s => exact findSequence_eraseSequence_self _ _

theorem nativeFillNextNLayers_not_found (registry : Registry) (bitmap : Bitmap)
    (sequenceId layerCount : Int)
    (h : findSequence registry.activeSequences sequenceId = none) :
    nativeFillNextNLayers registry bitmap sequenceId layerCount = .ok (none, registry, bitmap) := by
  unfold nativeFillNextNLayers
  rw [h]

/-- C10.  `nativeReleaseSequence(id)` leaves a registry in which `id` is absent,
every other identifier maps to the session it mapped to before, and the
identifier counter is unchanged; when `id` was absent the registry is left
exactly as it was; and releasing `id` twice gives the registry that releasing
it once gives. -/
theorem nativeReleaseSequence_removes_only (registry : Registry) (sequenceId : Int) :
    findSequence (nativeReleaseSequence registry sequenceId).activeSequences sequenceId = none ∧
    (∀ other, other ≠ sequenceId →
      findSequence (nativeReleaseSequence registry sequenceId).activeSequences other
        = findSequence registry.activeSequences other) ∧
    (nativeReleaseSequence registry sequenceId).activeSequences
      = registry.activeSequences.filter (fun e => e.1 ≠ sequenceId) ∧
    (nativeReleaseSequence registry sequenceId).sequenceIdCounter = registry.sequenceIdCounter ∧
    (findSequence registry.activeSequences sequenceId = none →
      nativeReleaseSequence registry sequenceId = registry) ∧
    nativeReleaseSequence (nativeReleaseSequence registry sequenceId) sequenceId
      = nativeReleaseSequence registry sequenceId := by
  have hself := findSequence_nativeReleaseSequence_self registry sequenceId
  refine ⟨hself, ?_, ?_, ?_, ?_, ?_⟩
  · intro other hne
    unfold nativeReleaseSequence
    cases h : findSequence registry.activeSequences sequenceId with
    | none => rfl
    | some s => exact findSequence_eraseSequence_ne _ hne
  · unfold nativeReleaseSequence
    cases h : findSequence registry.activeSequences sequenceId with
    | none => exact (eraseSequence_of_not_found _ _ h).symm
    | some s => rfl
  · unfold nativeReleaseSequence
    cases h : findSequence registry.activeSequences sequenceId <;> rfl
  · intro h
    unfold nativeReleaseSequence
    rw [h]
  · have h2 : nativeReleaseSequence (nativeReleaseSequence registry sequenceId) sequenceId
        = nativeReleaseSequence registry sequenceId := by
      generalize nativeReleaseSequence registry sequenceId = r at hself ⊢
      unfold nativeReleaseSequence
      rw [hself]
    exact h2

/-- C9.  After `nativeReleaseSequence(id)`, `nativeFillNextNLayers(id, ...)`
returns `nullptr` and leaves the registry and the bitmap exactly as they were;
and so does `nativeFillNextNLayers` on any identifier that the registry does
not hold. -/
theorem nativeFillNextNLayers_after_release (registry : Registry) (bitmap : Bitmap)
    (sequenceId layerCount : Int) :
    nativeFillNextNLayers (nativeReleaseSequence registry sequenceId) bitmap sequenceId layerCount
      = .ok (none, nativeReleaseSequence registry sequenceId, bitmap) ∧
    ∀ (registry1 : Registry) (other count : Int),
      findSequence registry1.activeSequences other = none →
      nativeFillNextNLayers registry1 bitmap other count = .ok (none, registry1, bitmap) :=
  ⟨nativeFillNextNLayers_not_found _ bitmap sequenceId layerCount
      (findSequence_nativeReleaseSequence_self registry sequenceId),
    fun registry1 other count h => nativeFillNextNLayers_not_found registry1 bitmap other count h⟩
/-! ## Reachable registries keep cursors in range -/

theorem error_bind {ε α β : Type} (e : ε) (f : α → Except ε β) :
    (Except.error e >>= f) = Except.error e := rfl

theorem sequenceInRange_fresh (layers : List LayerData) (fillColor : Nat)
    (width height totalPixels : Int) :
    SequenceInRange
      { layers := layers, fillColor := fillColor, width := width, height := height,
        currentLayerIndex := 0, totalPixels := totalPixels, filledPixels := 0 } := by
  unfold SequenceInRange
  simp

theorem wrapInt32_range (z : Int) : -2147483648 ≤ wrapInt32 z ∧ wrapInt32 z ≤ 2147483647 := by
  unfold wrapInt32
  omega

theorem mem_eraseSequence {m : List (Int × FloodFillSequence)} {sequenceId : Int}
    {e : Int × FloodFillSequence} (h : e ∈ eraseSequence m sequenceId) : e ∈ m := by
  unfold eraseSequence at h
  exact (List.mem_filter.1 h).1

theorem nativePrepareFillSequence_inRange {registry registry1 : Registry}
    {bitmap bitmap1 : Bitmap} {startX startY fillColor tolerance sequenceId : Int}
    (hstep : nativePrepareFillSequence registry bitmap startX startY fillColor tolerance
      = .ok (sequenceId, registry1, bitmap1))
    (hreg : ∀ e ∈ registry.activeSequences, SequenceInRange e.2) :
    ∀ e ∈ registry1.activeSequences, SequenceInRange e.2 := by
  unfold nativePrepareFillSequence at hstep
  by_cases h1 : bitmap.getInfoResult < 0
  · rw [if_pos h1] at hstep
    cases hstep
    exact hreg
  rw [if_neg h1] at hstep
  by_cases h2 : bitmap.format ≠ ANDROID_BITMAP_FORMAT_RGBA_8888
  · rw [if_pos h2] at hstep
    cases hstep
    exact hreg
  rw [if_neg h2] at hstep
  by_cases h3 : bitmap.lockPixelsResult < 0
  · rw [if_pos h3] at hstep
    cases hstep
    exact hreg
  rw [if_neg h3] at hstep
  cases hcore : prepareCore (bitmap.pixels.length + 1) bitmap.width bitmap.height bitmap.pixels
      startX startY fillColor tolerance with
  | error err =>
    rw [hcore, error_bind] at hstep
    cases hstep
  | ok r =>
    rw [hcore, ok_bind] at hstep
    cases r with
    | none =>
      cases hstep
      exact hreg
    | some s =>
      simp only [Except.ok.injEq, Prod.mk.injEq] at hstep
      obtain ⟨-, hr, -⟩ := hstep
      subst hr
      intro e he
      simp only [insertSequence, List.mem_cons] at he
      rcases he with he | he
      · subst he
        exact sequenceInRange_fresh _ _ _ _ _
      · exact hreg e (mem_eraseSequence he)

theorem nativeFillNextNLayers_inRange {registry registry1 : Registry}
    {bitmap bitmap1 : Bitmap} {sequenceId layerCount : Int} {report : Option (List Int)}
    (hstep : nativeFillNextNLayers registry bitmap sequenceId layerCount
      = .ok (report, registry1, bitmap1))
    (hreg : ∀ e ∈ registry.activeSequences, SequenceInRange e.2) :
    ∀ e ∈ registry1.activeSequences, SequenceInRange e.2 := by
  unfold nativeFillNextNLayers at hstep
  cases hfind : findSequence registry.activeSequences sequenceId with
  | none =>
    rw [hfind] at hstep
    cases hstep
    exact hreg
  | some sequence =>
    rw [hfind] at hstep
    simp only [] at hstep
    by_cases h3 : bitmap.lockPixelsResult < 0
    · rw [if_pos h3] at hstep
      cases hstep
      exact hreg
    rw [if_neg h3] at hstep
    cases hfill : fillLayers sequence
        (min (wrapInt32 (sequence.currentLayerIndex + layerCount)) (sequence.layers.length : Int)
          - sequence.currentLayerIndex).toNat
        sequence.currentLayerIndex (bitmap.pixels, 0) with
    | error err =>
      rw [hfill, error_bind] at hstep
      cases hstep
    | ok st =>
      rw [hfill, ok_bind] at hstep
      simp only [Except.ok.injEq, Prod.mk.injEq] at hstep
      obtain ⟨-, hr, -⟩ := hstep
      subst hr
      intro e he
      simp only [storeSequence, List.mem_map] at he
      obtain ⟨e0, he0, hee⟩ := he
      by_cases hk : e0.1 = sequenceId
      · rw [if_pos hk] at hee
        subst hee
        have hw := wrapInt32_range (sequence.currentLayerIndex + layerCount)
        have hf := wrapInt32_range (sequence.filledPixels + st.2)
        unfold SequenceInRange
        simp only []
        refine ⟨?_, ?_, ?_, hf.1, hf.2⟩
        · exact le_min hw.1 (by omega)
        · exact le_trans (min_le_left _ _) hw.2
        · exact min_le_right _ _
      · rw [if_neg hk] at hee
        subst hee
        exact hreg e0 he0

theorem reachable_inRange {registry : Registry} (h : Reachable registry) :
    ∀ e ∈ registry.activeSequences, SequenceInRange e.2 := by
  induction h with
  | initial =>
    intro e he
    simp [Registry.initial] at he
  | prepare _ hstep ih => exact nativePrepareFillSequence_inRange hstep ih
  | advance _ hstep ih => exact nativeFillNextNLayers_inRange hstep ih
  | @release registry0 sequenceId _ ih =>
    intro e he
    apply ih e
    unfold nativeReleaseSequence at he
    cases hfind : findSequence registry0.activeSequences sequenceId with
    | none =>
      rw [hfind] at he
      exact he
    | some s =>
      rw [hfind] at he
      exact mem_eraseSequence he

/-! ## C7: a call with `layerCount = 0` -/

/-- C7.  For every session that a reachable registry holds and every bitmap
that can be locked, `nativeFillNextNLayers` with `layerCount = 0` returns a
four-field report whose pixels-filled-this-call field is 0, leaves the bitmap
exactly as it was, leaves the session (so `currentLayerIndex` and
`filledPixels`) exactly as it was, and changes no other session nor the
counter. -/
theorem nativeFillNextNLayers_zero (registry : Registry) (bitmap : Bitmap) (sequenceId : Int)
    (sequence : FloodFillSequence)
    (hreach : Reachable registry)
    (hfind : findSequence registry.activeSequences sequenceId = some sequence)
    (hlock : 0 ≤ bitmap.lockPixelsResult) :
    ∃ (progress complete : Int) (registry1 : Registry),
      nativeFillNextNLayers registry bitmap sequenceId 0
        = .ok (some [progress, complete, 0, (sequence.layers.length : Int)], registry1, bitmap) ∧
      findSequence registry1.activeSequences sequenceId = some sequence ∧
      (∀ other, findSequence registry1.activeSequences other
        = findSequence registry.activeSequences other) ∧
      registry1.sequenceIdCounter = registry.sequenceIdCounter := by
  have hrange := reachable_inRange hreach _ (mem_of_findSequence hfind)
  obtain ⟨h1, h2, h3, h4, h5⟩ := hrange
  simp only [] at h1 h2 h3 h4 h5
  have hend : min (wrapInt32 (sequence.currentLayerIndex + 0)) (sequence.layers.length : Int)
      = sequence.currentLayerIndex := by
    rw [add_zero, wrapInt32_of_range h1 h2]
    exact min_eq_left h3
  have hfilled : wrapInt32 (sequence.filledPixels + 0) = sequence.filledPixels := by
    rw [add_zero, wrapInt32_of_range h4 h5]
  have hstored : ∀ other, findSequence (storeSequence registry.activeSequences sequenceId sequence)
      other = findSequence registry.activeSequences other := by
    intro other
    rw [findSequence_storeSequence]
    by_cases ho : other = sequenceId
    · rw [if_pos ho, ho, hfind]
      rfl
    · rw [if_neg ho]
  refine ⟨progressField sequence.filledPixels sequence.totalPixels,
    if decide (toSizeT sequence.currentLayerIndex ≥ sequence.layers.length) = true then 1 else 0,
    ⟨storeSequence registry.activeSequences sequenceId sequence,
      registry.sequenceIdCounter⟩, ?_, ?_, hstored, rfl⟩
  · unfold nativeFillNextNLayers
    rw [hfind]
    simp only []
    rw [if_neg (not_lt.2 hlock), hend, sub_self]
    simp only [Int.toNat_zero, fillLayers, ok_bind]
    rw [hfilled]
  · rw [hstored]
    exact hfind

/-! ## The report of `nativeFillNextNLayers` (C8) -/

theorem layerPixels_length (layers : List LayerData) (c e : Int) :
    ((layerPixels layers c.toNat (e - c).toNat).length : Int) = appliedSizes layers c e := by
  unfold layerPixels appliedSizes
  generalize (layers.drop c.toNat).take (e - c).toNat = l
  induction l with
  | nil => rfl
  | cons a l ih =>
    simp only [List.map_cons, List.flatten_cons, List.length_append, List.sum_cons]
    push_cast
    rw [ih]

/-- The session that `nativeFillNextNLayers` stores back: cursor `e`, running
total increased by the pixels of layers `c .. e - 1`. -/
theorem nativeFillNextNLayers_step (registry : Registry) (bitmap : Bitmap)
    (sequenceId layerCount : Int) (sequence : FloodFillSequence)
    (hfind : findSequence registry.activeSequences sequenceId = some sequence)
    (hlock : 0 ≤ bitmap.lockPixelsResult)
    (hc0 : 0 ≤ sequence.currentLayerIndex)
    (hclen : sequence.currentLayerIndex ≤ (sequence.layers.length : Int))
    (hn : 0 ≤ layerCount)
    (hsum : sequence.currentLayerIndex + layerCount ≤ 2147483647)
    (e : Int)
    (he : min (sequence.currentLayerIndex + layerCount) (sequence.layers.length : Int) = e)
    (hwrites : ∀ p ∈ layerPixels sequence.layers sequence.currentLayerIndex.toNat
        (e - sequence.currentLayerIndex).toNat,
      0 ≤ linearIndex sequence.width p ∧
        linearIndex sequence.width p < (bitmap.pixels.length : Int)) :
    ∃ pixels1 : List Nat,
      nativeFillNextNLayers registry bitmap sequenceId layerCount
        = .ok (some
            [ progressField
                (wrapInt32 (sequence.filledPixels +
                  appliedSizes sequence.layers sequence.currentLayerIndex e))
                sequence.totalPixels,
              if e = (sequence.layers.length : Int) then 1 else 0,
              appliedSizes sequence.layers sequence.currentLayerIndex e,
              (sequence.layers.length : Int) ],
            ⟨storeSequence registry.activeSequences sequenceId
                { sequence with
                  currentLayerIndex := e
                  filledPixels := wrapInt32 (sequence.filledPixels +
                    appliedSizes sequence.layers sequence.currentLayerIndex e) },
              registry.sequenceIdCounter⟩,
            { bitmap with pixels := pixels1 }) ∧
      pixels1.length = bitmap.pixels.length ∧
      (∀ p ∈ layerPixels sequence.layers sequence.currentLayerIndex.toNat
          (e - sequence.currentLayerIndex).toNat,
        pixels1.getD (linearIndex sequence.width p).toNat 0 = sequence.fillColor) ∧
      (∀ j : Nat, (∀ p ∈ layerPixels sequence.layers sequence.currentLayerIndex.toNat
          (e - sequence.currentLayerIndex).toNat,
          (linearIndex sequence.width p).toNat ≠ j) →
        pixels1.getD j 0 = bitmap.pixels.getD j 0) := by
  have hwrap : wrapInt32 (sequence.currentLayerIndex + layerCount)
      = sequence.currentLayerIndex + layerCount := wrapInt32_of_range (by omega) hsum
  have he1 : sequence.currentLayerIndex ≤ e := by
    rw [← he]
    exact le_min (by omega) hclen
  have he2 : e ≤ (sequence.layers.length : Int) := by
    rw [← he]
    exact min_le_right _ _
  have he3 : e ≤ 2147483647 := by
    rw [← he]
    exact le_trans (min_le_left _ _) hsum
  obtain ⟨pd1, hfill, hlen, hin, hout⟩ :=
    fillLayers_ok sequence (e - sequence.currentLayerIndex).toNat
      sequence.currentLayerIndex.toNat bitmap.pixels 0 (by omega) hwrites
  rw [Int.toNat_of_nonneg hc0, zero_add, layerPixels_length] at hfill
  have hcomplete : (if decide (toSizeT e ≥ sequence.layers.length) = true then (1 : Int) else 0)
      = if e = (sequence.layers.length : Int) then 1 else 0 := by
    have hsz : toSizeT e = e.toNat := by
      unfold toSizeT
      congr 1
      omega
    rw [hsz]
    by_cases hee : e = (sequence.layers.length : Int)
    · rw [if_pos hee, if_pos]
      simp only [decide_eq_true_eq]
      omega
    · rw [if_neg hee, if_neg]
      simp only [decide_eq_true_eq]
      omega
  refine ⟨pd1, ?_, hlen, hin, hout⟩
  unfold nativeFillNextNLayers
  rw [hfind]
  simp only []
  rw [if_neg (not_lt.2 hlock), hwrap, he, hfill, ok_bind]
  simp only []
  rw [hcomplete]

/-- The report when the sum `startIndex + layerCount` of line 282 stays in the
`int` range.  For a session held by the registry with cursor `c`,
`0 <= c <= layers.size()`, a `layerCount >= 0` with `c + layerCount` not above
`INT_MAX`, and a bitmap that can be locked and contains every linear index of
the layers `c .. min(c + layerCount, layers.size()) - 1`:
`nativeFillNextNLayers` returns the four fields
`progress, complete, pixelsFilled, layers.size()`, where `pixelsFilled` is the
sum of the sizes of those layers, `complete` is 1 iff
`min(c + layerCount, layers.size()) == layers.size()`, and `progress` is
`(jint)(((float) filledPixels / totalPixels) * 10000)` on the updated
`filledPixels`, which is the old value plus `pixelsFilled` as an `int`; the
stored session has the cursor `min(c + layerCount, layers.size())`. -/
theorem nativeFillNextNLayers_report (registry : Registry) (bitmap : Bitmap)
    (sequenceId layerCount : Int) (sequence : FloodFillSequence)
    (hfind : findSequence registry.activeSequences sequenceId = some sequence)
    (hlock : 0 ≤ bitmap.lockPixelsResult)
    (hc0 : 0 ≤ sequence.currentLayerIndex)
    (hclen : sequence.currentLayerIndex ≤ (sequence.layers.length : Int))
    (hn : 0 ≤ layerCount)
    (hsum : sequence.currentLayerIndex + layerCount ≤ 2147483647)
    (hwrites : ∀ p ∈ layerPixels sequence.layers sequence.currentLayerIndex.toNat
        (min (sequence.currentLayerIndex + layerCount) (sequence.layers.length : Int)
          - sequence.currentLayerIndex).toNat,
      0 ≤ linearIndex sequence.width p ∧
        linearIndex sequence.width p < (bitmap.pixels.length : Int)) :
    ∃ (registry1 : Registry) (pixels1 : List Nat) (sequence1 : FloodFillSequence),
      nativeFillNextNLayers registry bitmap sequenceId layerCount
        = .ok (some
            [ progressField sequence1.filledPixels sequence1.totalPixels,
              if min (sequence.currentLayerIndex + layerCount) (sequence.layers.length : Int)
                  = (sequence.layers.length : Int) then 1 else 0,
              appliedSizes sequence.layers sequence.currentLayerIndex
                (min (sequence.currentLayerIndex + layerCount) (sequence.layers.length : Int)),
              (sequence.layers.length : Int) ],
            registry1, { bitmap with pixels := pixels1 }) ∧
      findSequence registry1.activeSequences sequenceId = some sequence1 ∧
      sequence1.currentLayerIndex
        = min (sequence.currentLayerIndex + layerCount) (sequence.layers.length : Int) ∧
      sequence1.filledPixels
        = wrapInt32 (sequence.filledPixels +
            appliedSizes sequence.layers sequence.currentLayerIndex
              (min (sequence.currentLayerIndex + layerCount) (sequence.layers.length : Int))) ∧
      sequence1.totalPixels = sequence.totalPixels ∧
      sequence1.layers = sequence.layers := by
  obtain ⟨pixels1, hcall, -, -, -⟩ :=
    nativeFillNextNLayers_step registry bitmap sequenceId layerCount sequence hfind hlock hc0
      hclen hn hsum _ rfl hwrites
  refine ⟨⟨storeSequence registry.activeSequences sequenceId
      { sequence with
        currentLayerIndex :=
          min (sequence.currentLayerIndex + layerCount) (sequence.layers.length : Int)
        filledPixels := wrapInt32 (sequence.filledPixels +
          appliedSizes sequence.layers sequence.currentLayerIndex
            (min (sequence.currentLayerIndex + layerCount) (sequence.layers.length : Int))) },
      registry.sequenceIdCounter⟩, pixels1,
    { sequence with
      currentLayerIndex :=
        min (sequence.currentLayerIndex + layerCount) (sequence.layers.length : Int)
      filledPixels := wrapInt32 (sequence.filledPixels +
        appliedSizes sequence.layers sequence.currentLayerIndex
          (min (sequence.currentLayerIndex + layerCount) (sequence.layers.length : Int))) },
    hcall, ?_, rfl, rfl, rfl, rfl⟩
  simp only []
  rw [findSequence_storeSequence, if_pos rfl, hfind]
  rfl

set_option maxRecDepth 100000 in
/-- The concrete scenario of the specification.  The fresh session of
`ringRegistry` (layers of sizes 1, 4, 3) with `layerCount = 2` satisfies the
hypotheses above; that call returns `{6250, 0, 5, 3}` and the following call
with `layerCount = 5` returns `{10000, 1, 3, 3}`. -/
theorem nativeFillNextNLayers_report_witness :
    (∃ (registry1 : Registry) (pixels1 : List Nat) (sequence1 : FloodFillSequence),
      nativeFillNextNLayers ringRegistry ringBitmap 1 2
        = .ok (some
            [ progressField sequence1.filledPixels sequence1.totalPixels,
              if min (ringSequence.currentLayerIndex + 2) (ringSequence.layers.length : Int)
                  = (ringSequence.layers.length : Int) then 1 else 0,
              appliedSizes ringSequence.layers ringSequence.currentLayerIndex
                (min (ringSequence.currentLayerIndex + 2) (ringSequence.layers.length : Int)),
              (ringSequence.layers.length : Int) ],
            registry1, { ringBitmap with pixels := pixels1 }) ∧
      findSequence registry1.activeSequences 1 = some sequence1 ∧
      sequence1.currentLayerIndex
        = min (ringSequence.currentLayerIndex + 2) (ringSequence.layers.length : Int) ∧
      sequence1.filledPixels
        = wrapInt32 (ringSequence.filledPixels +
            appliedSizes ringSequence.layers ringSequence.currentLayerIndex
              (min (ringSequence.currentLayerIndex + 2) (ringSequence.layers.length : Int))) ∧
      sequence1.totalPixels = ringSequence.totalPixels ∧
      sequence1.layers = ringSequence.layers) ∧
    nativeFillNextNLayers ringRegistry ringBitmap 1 2
      = .ok (some [6250, 0, 5, 3],
          { activeSequences := [(1, { ringSequence with currentLayerIndex := 2, filledPixels := 5 })],
            sequenceIdCounter := 2 },
          { ringBitmap with pixels :=
              [4278190335, 4278190335, 0, 4278190335, 4294967295, 0, 4278190335, 4278190335, 0] }) ∧
    nativeFillNextNLayers
        { activeSequences := [(1, { ringSequence with currentLayerIndex := 2, filledPixels := 5 })],
          sequenceIdCounter := 2 }
        { ringBitmap with pixels :=
            [4278190335, 4278190335, 0, 4278190335, 4294967295, 0, 4278190335, 4278190335, 0] }
        1 5
      = .ok (some [10000, 1, 3, 3],
          { activeSequences := [(1, { ringSequence with currentLayerIndex := 3, filledPixels := 8 })],
            sequenceIdCounter := 2 },
          { ringBitmap with pixels :=
              [4278190335, 4278190335, 4278190335, 4278190335, 4294967295,
               4278190335, 4278190335, 4278190335, 4278190335] }) :=
  ⟨nativeFillNextNLayers_report ringRegistry ringBitmap 1 2 ringSequence
      (by decide) (by decide) (by decide) (by decide) (by decide) (by decide) (by decide),
    by decide, by decide⟩

/-- The progress value is computed in `float` (lines 300-307): for 39 of 50
pixels the quotient rounds to a `float` just below 0.78 and the product is
truncated to 7799, where the exact value `39 * 10000 / 50` is 7800. -/
theorem progressField_is_single_precision :
    progressField 39 50 = 7799 ∧ ((39 : Int) * 10000 / 50) = 7800 := by
  decide

set_option maxRecDepth 100000 in
/-- C8: where the code departs from the claimed report.  On the session of
`ringRegistry` (layers of sizes 1, 4, 3) a call with `layerCount = 2147483647`
at cursor 0 reports `{10000, 1, 8, 3}`, as claimed.  The same `layerCount`
after one applied layer (cursor 1) makes the `int` sum
`startIndex + layerCount` of line 282 exceed `INT_MAX`; reduced to the `int`
range it is negative, `std::min` keeps it, and the report is `{1250, 1, 0, 3}`
although layers 1 and 2 hold 7 pixels, with the cursor `-2147483648` stored.
And on a session whose cursor is `-1` (left by a call with `layerCount = -1`) a
call with `layerCount = 0` reports completion flag 1 although
`min(c + n, layers.size()) = -1` is not `layers.size() = 3`. -/
theorem layerCount_overflow_breaks_report :
    nativeFillNextNLayers ringRegistry ringBitmap 1 2147483647
      = .ok (some [10000, 1, 8, 3],
          { activeSequences := [(1, { ringSequence with currentLayerIndex := 3, filledPixels := 8 })],
            sequenceIdCounter := 2 },
          { ringBitmap with pixels :=
              [4278190335, 4278190335, 4278190335, 4278190335, 4294967295,
               4278190335, 4278190335, 4278190335, 4278190335] }) ∧
    nativeFillNextNLayers ringRegistry ringBitmap 1 1
      = .ok (some [1250, 0, 1, 3],
          { activeSequences := [(1, { ringSequence with currentLayerIndex := 1, filledPixels := 1 })],
            sequenceIdCounter := 2 },
          { ringBitmap with pixels := [0, 0, 0, 4278190335, 4294967295, 0, 0, 0, 0] }) ∧
    findSequence
        ([(1, { ringSequence with currentLayerIndex := 1, filledPixels := 1 })] :
          List (Int × FloodFillSequence)) 1
      = some { ringSequence with currentLayerIndex := 1, filledPixels := 1 } ∧
    nativeFillNextNLayers
        { activeSequences := [(1, { ringSequence with currentLayerIndex := 1, filledPixels := 1 })],
          sequenceIdCounter := 2 }
        { ringBitmap with pixels := [0, 0, 0, 4278190335, 4294967295, 0, 0, 0, 0] }
        1 2147483647
      = .ok (some [1250, 1, 0, 3],
          { activeSequences :=
              [(1, { ringSequence with currentLayerIndex := -2147483648, filledPixels := 1 })],
            sequenceIdCounter := 2 },
          { ringBitmap with pixels := [0, 0, 0, 4278190335, 4294967295, 0, 0, 0, 0] }) ∧
    appliedSizes ringSequence.layers 1 (min (1 + 2147483647) (ringSequence.layers.length : Int))
      = 7 ∧
    nativeFillNextNLayers ringRegistry ringBitmap 1 (-1)
      = .ok (some [0, 1, 0, 3],
          { activeSequences := [(1, { ringSequence with currentLayerIndex := -1 })],
            sequenceIdCounter := 2 },
          ringBitmap) ∧
    nativeFillNextNLayers
        { activeSequences := [(1, { ringSequence with currentLayerIndex := -1 })],
          sequenceIdCounter := 2 }
        ringBitmap 1 0
      = .ok (some [0, 1, 0, 3],
          { activeSequences := [(1, { ringSequence with currentLayerIndex := -1 })],
            sequenceIdCounter := 2 },
          ringBitmap) ∧
    min ((-1 : Int) + 0) (ringSequence.layers.length : Int) ≠ (ringSequence.layers.length : Int) := by
  refine ⟨by decide, by decide, by decide, by decide, by decide, by decide, by decide, by decide⟩
/-! ## C1: the eager fill and the fully advanced layered fill -/

theorem layerPixels_split (layers : List LayerData) (c k : Nat) :
    layerPixels layers 0 (c + k) = layerPixels layers 0 c ++ layerPixels layers c k := by
  unfold layerPixels
  rw [List.drop_zero, List.take_add, List.map_append, List.flatten_append]

theorem mem_layerPixels_all {layers : List LayerData} {c k : Nat} {p : Int × Int}
    (h : p ∈ layerPixels layers c k) : p ∈ layerPixels layers 0 layers.length := by
  rw [layerPixels_all]
  unfold layerPixels at h
  rw [List.mem_flatten] at h ⊢
  obtain ⟨l, hl, hp⟩ := h
  rw [List.mem_map] at hl
  obtain ⟨a, ha, rfl⟩ := hl
  exact ⟨a.pixels, List.mem_map.2 ⟨a, List.mem_of_mem_drop (List.mem_of_mem_take ha), rfl⟩, hp⟩

theorem sum_nonneg_of_forall {counts : List Int} (h : ∀ n ∈ counts, 0 ≤ n) : 0 ≤ counts.sum := by
  induction counts with
  | nil => simp
  | cons a l ih =>
    rw [List.sum_cons]
    have h1 := h a (List.mem_cons_self _ _)
    have h2 := ih (fun n hn => h n (List.mem_cons_of_mem _ hn))
    omega

theorem fillNextCalls_paints_all (bitmap : Bitmap) (sequenceId : Int)
    (layers : List LayerData) (width : Int) (color : Nat)
    (hlock : 0 ≤ bitmap.lockPixelsResult)
    (hall : ∀ p ∈ layerPixels layers 0 layers.length,
      0 ≤ linearIndex width p ∧ linearIndex width p < (bitmap.pixels.length : Int)) :
    ∀ (counts : List Int) (registry : Registry) (pd : List Nat)
      (sequence : FloodFillSequence) (c : Nat),
    findSequence registry.activeSequences sequenceId = some sequence →
    sequence.layers = layers → sequence.width = width → sequence.fillColor = color →
    sequence.currentLayerIndex = (c : Int) → c ≤ layers.length →
    pd.length = bitmap.pixels.length →
    (∀ p ∈ layerPixels layers 0 c, pd.getD (linearIndex width p).toNat 0 = color) →
    (∀ j : Nat, (∀ p ∈ layerPixels layers 0 c, (linearIndex width p).toNat ≠ j) →
      pd.getD j 0 = bitmap.pixels.getD j 0) →
    (∀ n ∈ counts, 0 ≤ n ∧ n + (layers.length : Int) ≤ 2147483647) →
    (layers.length : Int) ≤ (c : Int) + counts.sum →
    ∃ (registry2 : Registry) (pd2 : List Nat),
      fillNextCalls registry { bitmap with pixels := pd } sequenceId counts
        = .ok (registry2, { bitmap with pixels := pd2 }) ∧
      pd2.length = bitmap.pixels.length ∧
      (∀ p ∈ layerPixels layers 0 layers.length,
        pd2.getD (linearIndex width p).toNat 0 = color) ∧
      (∀ j : Nat, (∀ p ∈ layerPixels layers 0 layers.length,
          (linearIndex width p).toNat ≠ j) →
        pd2.getD j 0 = bitmap.pixels.getD j 0) := by
  intro counts
  induction counts with
  | nil =>
    intro registry pd sequence c _ _ _ _ _ hc hlen hin hout _ hsum
    have hce : c = layers.length := by
      simp only [List.sum_nil, add_zero] at hsum
      omega
    subst hce
    exact ⟨registry, pd, rfl, hlen, hin, hout⟩
  | cons n rest ih =>
    intro registry pd sequence c hfind hlayers hwidth hcolor hcur hc hlen hin hout hcounts hsum
    obtain ⟨hn0, hnmax⟩ := hcounts n (List.mem_cons_self _ _)
    have hrest : ∀ m ∈ rest, 0 ≤ m ∧ m + (layers.length : Int) ≤ 2147483647 :=
      fun m hm => hcounts m (List.mem_cons_of_mem _ hm)
    have hrestsum : 0 ≤ rest.sum := sum_nonneg_of_forall (fun m hm => (hrest m hm).1)
    obtain ⟨k, hk⟩ : ∃ k : Nat, min ((c : Int) + n) (layers.length : Int) = ((c + k : Nat) : Int) := by
      refine ⟨(min ((c : Int) + n) (layers.length : Int) - (c : Int)).toNat, ?_⟩
      have : (c : Int) ≤ min ((c : Int) + n) (layers.length : Int) :=
        le_min (by omega) (by exact_mod_cast hc)
      push_cast
      omega
    have hck : c + k ≤ layers.length := by
      have : min ((c : Int) + n) (layers.length : Int) ≤ (layers.length : Int) := min_le_right _ _
      omega
    have hek : (((c + k : Nat) : Int) - (c : Int)).toNat = k := by
      push_cast
      omega
    obtain ⟨pd1, hcall, hlen1, hin1, hout1⟩ :=
      nativeFillNextNLayers_step registry { bitmap with pixels := pd } sequenceId n sequence
        hfind hlock (by rw [hcur]; omega) (by rw [hcur, hlayers]; exact_mod_cast hc) hn0
        (by rw [hcur]; omega) ((c + k : Nat) : Int) (by rw [hcur, hlayers]; exact hk) (by
          intro p hp
          rw [hcur, hlayers, hek, Int.toNat_ofNat] at hp
          rw [hwidth]
          show 0 ≤ linearIndex width p ∧ linearIndex width p < (pd.length : Int)
          rw [hlen]
          exact hall p (mem_layerPixels_all hp))
    rw [hcur, hlayers, hek, Int.toNat_ofNat, hwidth] at hin1 hout1
    rw [hcolor] at hin1
    have hpd1 : ({ bitmap with pixels := pd } : Bitmap).pixels = pd := rfl
    rw [hpd1] at hlen1 hout1
    have hfind1 : findSequence
        (storeSequence registry.activeSequences sequenceId
          { sequence with
            currentLayerIndex := ((c + k : Nat) : Int)
            filledPixels := wrapInt32 (sequence.filledPixels +
              appliedSizes sequence.layers sequence.currentLayerIndex ((c + k : Nat) : Int)) })
        sequenceId
        = some { sequence with
            currentLayerIndex := ((c + k : Nat) : Int)
            filledPixels := wrapInt32 (sequence.filledPixels +
              appliedSizes sequence.layers sequence.currentLayerIndex ((c + k : Nat) : Int)) } := by
      rw [findSequence_storeSequence, if_pos rfl, hfind]
      rfl
    obtain ⟨registry2, pd2, hcalls, hlen2, hin2, hout2⟩ :=
      ih ⟨storeSequence registry.activeSequences sequenceId
            { sequence with
              currentLayerIndex := ((c + k : Nat) : Int)
              filledPixels := wrapInt32 (sequence.filledPixels +
                appliedSizes sequence.layers sequence.currentLayerIndex ((c + k : Nat) : Int)) },
          registry.sequenceIdCounter⟩
        pd1
        { sequence with
          currentLayerIndex := ((c + k : Nat) : Int)
          filledPixels := wrapInt32 (sequence.filledPixels +
            appliedSizes sequence.layers sequence.currentLayerIndex ((c + k : Nat) : Int)) }
        (c + k) hfind1 hlayers hwidth hcolor rfl hck (hlen1.trans hlen) (by
        intro p hp
        rw [layerPixels_split] at hp
        rcases List.mem_append.1 hp with hp | hp
        · by_cases hex : ∃ p1 ∈ layerPixels layers c k,
              (linearIndex width p1).toNat = (linearIndex width p).toNat
          · obtain ⟨p1, hp1, he⟩ := hex
            rw [← he]
            exact hin1 p1 hp1
          · rw [hout1 _ (fun p1 hp1 he => hex ⟨p1, hp1, he⟩)]
            exact hin p hp
        · exact hin1 p hp) (by
        intro j hj
        rw [hout1 j (fun p hp => hj p (by
          rw [layerPixels_split]
          exact List.mem_append_right _ hp))]
        exact hout j (fun p hp => hj p (by
          rw [layerPixels_split]
          exact List.mem_append_left _ hp))) hrest (by
        rw [List.sum_cons] at hsum
        rw [← hk]
        rcases min_choice ((c : Int) + n) (layers.length : Int) with hm | hm
        · rw [hm]
          omega
        · rw [hm]
          omega)
    refine ⟨registry2, pd2, ?_, hlen2, hin2, hout2⟩
    rw [fillNextCalls, hcall, ok_bind]
    exact hcalls

/-- C1.  On a usable bitmap whose pixel memory has `width * height` entries and
with the seed inside the bitmap: when the seed colour is within the threshold
of the internal fill colour, `nativePrepareFillSequence` returns the sentinel
`-2` and `nativeFloodFill` leaves the bitmap as it was; otherwise
`nativePrepareFillSequence` registers a session under the current counter
value and leaves the bitmap as it was, and applying all layers of that session
with `nativeFillNextNLayers` (by one call whose `layerCount` is at least the
number of layers, or by any succession of calls with non-negative `layerCount`s
that sum to at least the number of layers) leaves exactly the bitmap that
`nativeFloodFill` leaves on the same inputs. -/
theorem nativeFloodFill_eq_layered (registry : Registry) (bitmap : Bitmap)
    (startX startY fillColor tolerance : Int)
    (hinfo : 0 ≤ bitmap.getInfoResult)
    (hformat : bitmap.format = ANDROID_BITMAP_FORMAT_RGBA_8888)
    (hlock : 0 ≤ bitmap.lockPixelsResult)
    (hsize : (bitmap.pixels.length : Int) = bitmap.width * bitmap.height)
    (hseed : InBounds bitmap.width bitmap.height (startX, startY)) :
    (colorDistance (pixelAt bitmap.pixels bitmap.width (startX, startY)) (argbToRgba fillColor)
        ≤ fillThreshold tolerance →
      nativePrepareFillSequence registry bitmap startX startY fillColor tolerance
          = .ok (-2, registry, bitmap) ∧
        nativeFloodFill bitmap startX startY fillColor tolerance = .ok (true, bitmap)) ∧
    (¬ colorDistance (pixelAt bitmap.pixels bitmap.width (startX, startY)) (argbToRgba fillColor)
        ≤ fillThreshold tolerance →
      ∃ (registry1 : Registry) (sequence : FloodFillSequence) (pixels1 : List Nat),
        nativePrepareFillSequence registry bitmap startX startY fillColor tolerance
          = .ok (registry.sequenceIdCounter, registry1, bitmap) ∧
        findSequence registry1.activeSequences registry.sequenceIdCounter = some sequence ∧
        nativeFloodFill bitmap startX startY fillColor tolerance
          = .ok (true, { bitmap with pixels := pixels1 }) ∧
        (∀ layerCount : Int, (sequence.layers.length : Int) ≤ layerCount →
          layerCount ≤ 2147483647 →
          ∃ (report : List Int) (registry2 : Registry),
            nativeFillNextNLayers registry1 bitmap registry.sequenceIdCounter layerCount
              = .ok (some report, registry2, { bitmap with pixels := pixels1 })) ∧
        (∀ counts : List Int,
          (∀ n ∈ counts, 0 ≤ n ∧ n + (sequence.layers.length : Int) ≤ 2147483647) →
          (sequence.layers.length : Int) ≤ counts.sum →
          ∃ registry2 : Registry,
            fillNextCalls registry1 bitmap registry.sequenceIdCounter counts
              = .ok (registry2, { bitmap with pixels := pixels1 }))) := by
  constructor
  · exact sentinel_of_within_threshold registry bitmap startX startY fillColor tolerance
      hinfo hformat hlock hsize hseed
  · intro hdiff
    obtain ⟨se, hse, -, hinve, hcle, hrele⟩ :=
      floodFillCore_ok startX startY fillColor tolerance hsize hseed hdiff
        (bitmap.pixels.length + 1) (Nat.lt_succ_self _)
    obtain ⟨sl, hsl, -, hinvl, hcll, hrell⟩ :=
      prepareCore_ok startX startY fillColor tolerance hsize hseed hdiff
        (bitmap.pixels.length + 1) (Nat.lt_succ_self _)
    have hwpos : 0 < bitmap.width := by
      obtain ⟨h1, h2, -, -⟩ := hseed
      exact lt_of_le_of_lt h1 h2
    have hflat : (sl.layers.map LayerData.pixels).flatten = sl.pushed := by
      have := hrell.collected
      simpa using this
    have hpix : sl.pixelData = bitmap.pixels := hrell.pixels
    have hlayers : (preparedSequence bitmap fillColor sl).layers = sl.layers := rfl
    have hall : ∀ p ∈ layerPixels sl.layers 0 sl.layers.length,
        0 ≤ linearIndex bitmap.width p ∧ linearIndex bitmap.width p < (bitmap.pixels.length : Int) := by
      intro p hp
      rw [layerPixels_all, hflat] at hp
      have := linearIndex_range (hrell.inb p hp)
      omega
    have hsame : ∀ pd : List Nat, pd.length = bitmap.pixels.length →
        (∀ p ∈ layerPixels sl.layers 0 sl.layers.length,
          pd.getD (linearIndex bitmap.width p).toNat 0 = argbToRgba fillColor) →
        (∀ j : Nat, (∀ p ∈ layerPixels sl.layers 0 sl.layers.length,
            (linearIndex bitmap.width p).toNat ≠ j) →
          pd.getD j 0 = bitmap.pixels.getD j 0) →
        pd = se.pixelData := by
      intro pd hlen hin hout
      rw [layerPixels_all, hflat] at hin hout
      apply pixels_ext hwpos (by rw [hlen]; exact hsize) (hrele.len.trans hlen.symm)
      intro p hp
      rw [hrele.painted p hp]
      have hiff : p ∈ sl.pushed ↔ p ∈ se.pushed := by
        rw [mem_pushed_iff_joined hinvl hcll, mem_pushed_iff_joined hinve hcle]
      by_cases hmem : p ∈ se.pushed
      · rw [if_pos hmem]
        exact hin p (hiff.2 hmem)
      · rw [if_neg hmem]
        apply hout
        intro q hq he
        apply hmem
        have hqb := hrell.inb q hq
        have r1 := linearIndex_range hqb
        have r2 := linearIndex_range hp
        have : q = p := linearIndex_inj hqb hp (by omega)
        exact hiff.1 (this ▸ hq)
    have hcalls : ∀ counts : List Int,
        (∀ n ∈ counts, 0 ≤ n ∧ n + (sl.layers.length : Int) ≤ 2147483647) →
        (sl.layers.length : Int) ≤ counts.sum →
        ∃ registry2 : Registry,
          fillNextCalls
              ⟨insertSequence registry.activeSequences registry.sequenceIdCounter
                (preparedSequence bitmap fillColor sl), wrapInt64 (registry.sequenceIdCounter + 1)⟩
              bitmap registry.sequenceIdCounter counts
            = .ok (registry2, { bitmap with pixels := se.pixelData }) := by
      intro counts hcounts hsum
      obtain ⟨registry2, pd2, hrun, hlen2, hin2, hout2⟩ :=
        fillNextCalls_paints_all bitmap registry.sequenceIdCounter sl.layers bitmap.width
          (argbToRgba fillColor) hlock hall counts
          ⟨insertSequence registry.activeSequences registry.sequenceIdCounter
            (preparedSequence bitmap fillColor sl), wrapInt64 (registry.sequenceIdCounter + 1)⟩
          bitmap.pixels (preparedSequence bitmap fillColor sl) 0
          (findSequence_insertSequence _ _ _) rfl rfl rfl rfl (Nat.zero_le _) rfl
          (by
            intro p hp
            simp [layerPixels] at hp)
          (fun j _ => rfl) hcounts (by simpa using hsum)
      refine ⟨registry2, ?_⟩
      rw [← hsame pd2 hlen2 hin2 hout2]
      exact hrun
    refine ⟨⟨insertSequence registry.activeSequences registry.sequenceIdCounter
        (preparedSequence bitmap fillColor sl), wrapInt64 (registry.sequenceIdCounter + 1)⟩,
      preparedSequence bitmap fillColor sl, se.pixelData, ?_,
      findSequence_insertSequence _ _ _, ?_, ?_, ?_⟩
    · rw [nativePrepareFillSequence_some hinfo hformat hlock hsl, hpix]
    · rw [nativeFloodFill_of_core hinfo hformat hlock hse]
    · intro layerCount hge hle
      rw [hlayers] at hge
      obtain ⟨pd1, hcall, hlen1, hin1, hout1⟩ :=
        nativeFillNextNLayers_step
          ⟨insertSequence registry.activeSequences registry.sequenceIdCounter
            (preparedSequence bitmap fillColor sl), wrapInt64 (registry.sequenceIdCounter + 1)⟩
          bitmap registry.sequenceIdCounter layerCount (preparedSequence bitmap fillColor sl)
          (findSequence_insertSequence _ _ _) hlock (le_refl _)
          (by
            show (0 : Int) ≤ (sl.layers.length : Int)
            omega)
          (by omega)
          (by
            show (0 : Int) + layerCount ≤ 2147483647
            omega)
          (sl.layers.length : Int)
          (by
            show min ((0 : Int) + layerCount) (sl.layers.length : Int) = (sl.layers.length : Int)
            rw [zero_add]
            exact min_eq_right hge)
          (by
            intro p hp
            exact hall p (mem_layerPixels_all hp))
      have hrange : layerPixels (preparedSequence bitmap fillColor sl).layers
          (preparedSequence bitmap fillColor sl).currentLayerIndex.toNat
          ((sl.layers.length : Int) - (preparedSequence bitmap fillColor sl).currentLayerIndex).toNat
          = layerPixels sl.layers 0 sl.layers.length := by
        show layerPixels sl.layers (0 : Int).toNat ((sl.layers.length : Int) - 0).toNat = _
        simp
      rw [hrange] at hin1 hout1
      have heq := hsame pd1 hlen1 hin1 hout1
      rw [heq] at hcall
      exact ⟨_, _, hcall⟩
    · exact hcalls
/-! ## C1, C2, C7, C9, C10 at concrete inputs -/

theorem ringRegistry_prepared :
    nativePrepareFillSequence Registry.initial ringBitmap 0 1 opaqueRed 0
      = .ok (1, ringRegistry, ringBitmap) := by
  decide

theorem ringRegistry_reachable : Reachable ringRegistry :=
  Reachable.prepare Reachable.initial ringRegistry_prepared

/-- Witness of C2: the uniform 4 x 4 bitmap seeded at `(0, 0)` satisfies the
hypotheses, all 16 pixels are painted, and in the 3 x 3 bitmap seeded at
`(0, 1)` the centre keeps its value. -/
theorem nativeFloodFill_fills_component_witness :
    (∃ pixels1 : List Nat,
      nativeFloodFill uniformBitmap 0 0 opaqueRed 0
        = .ok (true, { uniformBitmap with pixels := pixels1 }) ∧
      pixels1.length = uniformBitmap.pixels.length ∧
      ∀ p, InBounds uniformBitmap.width uniformBitmap.height p →
        (Joined uniformBitmap.width uniformBitmap.height uniformBitmap.pixels
            (pixelAt uniformBitmap.pixels uniformBitmap.width (0, 0))
            (fillThreshold 0) (0, 0) p →
          pixelAt pixels1 uniformBitmap.width p = argbToRgba opaqueRed) ∧
        (¬ Joined uniformBitmap.width uniformBitmap.height uniformBitmap.pixels
            (pixelAt uniformBitmap.pixels uniformBitmap.width (0, 0))
            (fillThreshold 0) (0, 0) p →
          pixelAt pixels1 uniformBitmap.width p = pixelAt uniformBitmap.pixels uniformBitmap.width p)) ∧
    nativeFloodFill uniformBitmap 0 0 opaqueRed 0
      = .ok (true, { uniformBitmap with pixels := List.replicate 16 4278190335 }) ∧
    nativeFloodFill ringBitmap 0 1 opaqueRed 0
      = .ok (true, { ringBitmap with pixels :=
          [4278190335, 4278190335, 4278190335, 4278190335, 4294967295,
           4278190335, 4278190335, 4278190335, 4278190335] }) :=
  ⟨nativeFloodFill_fills_component uniformBitmap 0 0 opaqueRed 0
      (by decide) (by decide) (by decide) (by decide) (by decide) (by decide),
    by decide, by decide⟩

/-- Witness of C1: the 3 x 3 bitmap with the seed `(0, 1)` satisfies the
hypotheses. -/
theorem nativeFloodFill_eq_layered_witness :
    (colorDistance (pixelAt ringBitmap.pixels ringBitmap.width (0, 1)) (argbToRgba opaqueRed)
        ≤ fillThreshold 0 →
      nativePrepareFillSequence Registry.initial ringBitmap 0 1 opaqueRed 0
          = .ok (-2, Registry.initial, ringBitmap) ∧
        nativeFloodFill ringBitmap 0 1 opaqueRed 0 = .ok (true, ringBitmap)) ∧
    (¬ colorDistance (pixelAt ringBitmap.pixels ringBitmap.width (0, 1)) (argbToRgba opaqueRed)
        ≤ fillThreshold 0 →
      ∃ (registry1 : Registry) (sequence : FloodFillSequence) (pixels1 : List Nat),
        nativePrepareFillSequence Registry.initial ringBitmap 0 1 opaqueRed 0
          = .ok (Registry.initial.sequenceIdCounter, registry1, ringBitmap) ∧
        findSequence registry1.activeSequences Registry.initial.sequenceIdCounter
          = some sequence ∧
        nativeFloodFill ringBitmap 0 1 opaqueRed 0
          = .ok (true, { ringBitmap with pixels := pixels1 }) ∧
        (∀ layerCount : Int, (sequence.layers.length : Int) ≤ layerCount →
          layerCount ≤ 2147483647 →
          ∃ (report : List Int) (registry2 : Registry),
            nativeFillNextNLayers registry1 ringBitmap Registry.initial.sequenceIdCounter
                layerCount
              = .ok (some report, registry2, { ringBitmap with pixels := pixels1 })) ∧
        (∀ counts : List Int,
          (∀ n ∈ counts, 0 ≤ n ∧ n + (sequence.layers.length : Int) ≤ 2147483647) →
          (sequence.layers.length : Int) ≤ counts.sum →
          ∃ registry2 : Registry,
            fillNextCalls registry1 ringBitmap Registry.initial.sequenceIdCounter counts
              = .ok (registry2, { ringBitmap with pixels := pixels1 }))) :=
  nativeFloodFill_eq_layered Registry.initial ringBitmap 0 1 opaqueRed 0
    (by decide) (by decide) (by decide) (by decide) (by decide)

/-- Witness of C7: the session of `ringRegistry`, which is reachable, with
`ringBitmap`. -/
theorem nativeFillNextNLayers_zero_witness :
    ∃ (progress complete : Int) (registry1 : Registry),
      nativeFillNextNLayers ringRegistry ringBitmap 1 0
        = .ok (some [progress, complete, 0, (ringSequence.layers.length : Int)],
            registry1, ringBitmap) ∧
      findSequence registry1.activeSequences 1 = some ringSequence ∧
      (∀ other, findSequence registry1.activeSequences other
        = findSequence ringRegistry.activeSequences other) ∧
      registry1.sequenceIdCounter = ringRegistry.sequenceIdCounter :=
  nativeFillNextNLayers_zero ringRegistry ringBitmap 1 ringSequence
    ringRegistry_reachable (by decide) (by decide)

/-- Witness of C9: session 1 of `ringRegistry` after its release, and the
identifier 7, which the registry at program start does not hold. -/
theorem nativeFillNextNLayers_after_release_witness :
    nativeFillNextNLayers (nativeReleaseSequence ringRegistry 1) ringBitmap 1 1
        = .ok (none, nativeReleaseSequence ringRegistry 1, ringBitmap) ∧
      nativeFillNextNLayers Registry.initial ringBitmap 7 3
        = .ok (none, Registry.initial, ringBitmap) :=
  ⟨(nativeFillNextNLayers_after_release ringRegistry ringBitmap 1 1).1,
    (nativeFillNextNLayers_after_release ringRegistry ringBitmap 1 1).2
      Registry.initial 7 3 (by decide)⟩

/-- Witness of C10: releasing session 1 of `ringRegistry` removes it, releasing
the absent identifier 2 keeps session 1 and the whole registry, and a second
release of 1 changes nothing. -/
theorem nativeReleaseSequence_removes_only_witness :
    findSequence (nativeReleaseSequence ringRegistry 1).activeSequences 1 = none ∧
      findSequence (nativeReleaseSequence ringRegistry 2).activeSequences 1
        = findSequence ringRegistry.activeSequences 1 ∧
      nativeReleaseSequence ringRegistry 2 = ringRegistry ∧
      nativeReleaseSequence (nativeReleaseSequence ringRegistry 1) 1
        = nativeReleaseSequence ringRegistry 1 :=
  ⟨(nativeReleaseSequence_removes_only ringRegistry 1).1,
    (nativeReleaseSequence_removes_only ringRegistry 2).2.1 1 (by decide),
    (nativeReleaseSequence_removes_only ringRegistry 2).2.2.2.2.1 (by decide),
    (nativeReleaseSequence_removes_only ringRegistry 1).2.2.2.2.2⟩

/-! ## C3: the already-filled sentinel -/

theorem fillThreshold_eq (tolerance : Int) :
    (fillThreshold tolerance : Int) = (tolerance * 2) ^ 2 % 4294967296 := by
  unfold fillThreshold toUInt32 wrapInt32
  have h1 : ((tolerance * 2 + 2147483648) % 4294967296 - 2147483648) % 4294967296
      = (tolerance * 2) % 4294967296 := by omega
  rw [h1]
  have h2 : 0 ≤ (tolerance * 2) % 4294967296 := Int.emod_nonneg _ (by norm_num)
  push_cast
  rw [Int.toNat_of_nonneg h2, sq, ← Int.mul_emod]

/-- C3, as the code has it.  On a usable bitmap whose pixel memory has
`width * height` entries, with the seed inside the bitmap: when
`colorDistance(buffer[seed], argbToRgba(fillColor))` is at most
`(tolerance*2)^2` reduced modulo `2^32` (the value the `uint32_t` threshold
holds), `nativePrepareFillSequence` returns `-2` and leaves the registry (map
and counter) and the bitmap as they were, and `nativeFloodFill` returns
`JNI_TRUE` and leaves the bitmap as it was. -/
theorem sentinel_when_within_threshold (registry : Registry) (bitmap : Bitmap)
    (startX startY fillColor tolerance : Int)
    (hinfo : 0 ≤ bitmap.getInfoResult)
    (hformat : bitmap.format = ANDROID_BITMAP_FORMAT_RGBA_8888)
    (hlock : 0 ≤ bitmap.lockPixelsResult)
    (hsize : (bitmap.pixels.length : Int) = bitmap.width * bitmap.height)
    (hseed : InBounds bitmap.width bitmap.height (startX, startY))
    (hsame : (colorDistance (pixelAt bitmap.pixels bitmap.width (startX, startY))
        (argbToRgba fillColor) : Int) ≤ (tolerance * 2) ^ 2 % 4294967296) :
    nativePrepareFillSequence registry bitmap startX startY fillColor tolerance
        = .ok (-2, registry, bitmap) ∧
      nativeFloodFill bitmap startX startY fillColor tolerance = .ok (true, bitmap) := by
  rw [← fillThreshold_eq] at hsame
  have hsame1 : colorDistance (pixelAt bitmap.pixels bitmap.width (startX, startY))
      (argbToRgba fillColor) ≤ fillThreshold tolerance := by exact_mod_cast hsame
  exact sentinel_of_within_threshold registry bitmap startX startY fillColor tolerance
    hinfo hformat hlock hsize hseed hsame1

/-- Witness of the amended C3: the 1 x 1 bitmap holding `0`, fill colour `0`,
tolerance 0. -/
theorem sentinel_when_within_threshold_witness :
    nativePrepareFillSequence Registry.initial onePixelBitmap 0 0 0 0
        = .ok (-2, Registry.initial, onePixelBitmap) ∧
      nativeFloodFill onePixelBitmap 0 0 0 0 = .ok (true, onePixelBitmap) :=
  sentinel_when_within_threshold Registry.initial onePixelBitmap 0 0 0 0
    (by decide) (by decide) (by decide) (by decide) (by decide) (by decide)

/-- Counterexample to C3 as stated: with tolerance 32768 the distance 1 is at
most `(tolerance*2)^2 = 2^32`, yet `nativePrepareFillSequence` registers
session 1 and consumes the identifier, and `nativeFloodFill` repaints the
pixel. -/
theorem sentinel_fails_for_tolerance_32768 :
    (colorDistance (pixelAt onePixelBitmap.pixels onePixelBitmap.width (0, 0)) (argbToRgba 1) : Int)
        ≤ (32768 * 2) ^ 2 ∧
      InBounds onePixelBitmap.width onePixelBitmap.height (0, 0) ∧
      nativePrepareFillSequence Registry.initial onePixelBitmap 0 0 1 32768
        = .ok (1,
            { activeSequences :=
                [(1, { layers := [{ pixels := [(0, 0)] }], fillColor := 65536, width := 1,
                       height := 1, currentLayerIndex := 0, totalPixels := 1,
                       filledPixels := 0 })],
              sequenceIdCounter := 2 },
            onePixelBitmap) ∧
      nativeFloodFill onePixelBitmap 0 0 1 32768
        = .ok (true, { onePixelBitmap with pixels := [65536] }) := by
  decide

/-! ## C4, C5, C6: a negative `layerCount` moves the cursor back -/

set_option maxRecDepth 100000 in
/-- C4 at a failing input: on the fresh session of `ringRegistry` the call
`nativeFillNextNLayers(1, -1)` returns a report and leaves
`currentLayerIndex = -1`; and after two layers have been applied the call with
`layerCount = -2` leaves `currentLayerIndex = 0` with `filledPixels = 5`. -/
theorem negative_layerCount_breaks_invariants :
    nativeFillNextNLayers ringRegistry ringBitmap 1 (-1)
      = .ok (some [0, 1, 0, 3],
          { activeSequences := [(1, { ringSequence with currentLayerIndex := -1 })],
            sequenceIdCounter := 2 },
          ringBitmap) ∧
    nativeFillNextNLayers
        { activeSequences := [(1, { ringSequence with currentLayerIndex := 2, filledPixels := 5 })],
          sequenceIdCounter := 2 }
        ringBitmap 1 (-2)
      = .ok (some [6250, 0, 0, 3],
          { activeSequences := [(1, { ringSequence with currentLayerIndex := 0, filledPixels := 5 })],
            sequenceIdCounter := 2 },
          ringBitmap) := by
  decide

set_option maxRecDepth 100000 in
/-- C5 at a failing input: on the fresh session of `ringRegistry` (3 layers)
the calls with `layerCount = 4` and then `layerCount = -1` have counts that sum
to 3, and the last report has completion flag 0, with the cursor back at 2. -/
theorem completion_lost_after_negative_layerCount :
    nativeFillNextNLayers ringRegistry ringBitmap 1 4
      = .ok (some [10000, 1, 8, 3],
          { activeSequences := [(1, { ringSequence with currentLayerIndex := 3, filledPixels := 8 })],
            sequenceIdCounter := 2 },
          { ringBitmap with pixels :=
              [4278190335, 4278190335, 4278190335, 4278190335, 4294967295,
               4278190335, 4278190335, 4278190335, 4278190335] }) ∧
    nativeFillNextNLayers
        { activeSequences := [(1, { ringSequence with currentLayerIndex := 3, filledPixels := 8 })],
          sequenceIdCounter := 2 }
        { ringBitmap with pixels :=
            [4278190335, 4278190335, 4278190335, 4278190335, 4294967295,
             4278190335, 4278190335, 4278190335, 4278190335] }
        1 (-1)
      = .ok (some [10000, 0, 0, 3],
          { activeSequences := [(1, { ringSequence with currentLayerIndex := 2, filledPixels := 8 })],
            sequenceIdCounter := 2 },
          { ringBitmap with pixels :=
              [4278190335, 4278190335, 4278190335, 4278190335, 4294967295,
               4278190335, 4278190335, 4278190335, 4278190335] }) := by
  decide

set_option maxRecDepth 100000 in
/-- C6 at a failing input: after one layer of the session of `ringRegistry`
has been applied, the call with `layerCount = -1` changes `currentLayerIndex`
from 1 to 0 (the bitmap and `filledPixels` stay, and the report says 0 pixels
filled). -/
theorem negative_layerCount_moves_cursor :
    nativeFillNextNLayers ringRegistry ringBitmap 1 1
      = .ok (some [1250, 0, 1, 3],
          { activeSequences := [(1, { ringSequence with currentLayerIndex := 1, filledPixels := 1 })],
            sequenceIdCounter := 2 },
          { ringBitmap with pixels := [0, 0, 0, 4278190335, 4294967295, 0, 0, 0, 0] }) ∧
    nativeFillNextNLayers
        { activeSequences := [(1, { ringSequence with currentLayerIndex := 1, filledPixels := 1 })],
          sequenceIdCounter := 2 }
        { ringBitmap with pixels := [0, 0, 0, 4278190335, 4294967295, 0, 0, 0, 0] }
        1 (-1)
      = .ok (some [1250, 0, 0, 3],
          { activeSequences := [(1, { ringSequence with currentLayerIndex := 0, filledPixels := 1 })],
            sequenceIdCounter := 2 },
          { ringBitmap with pixels := [0, 0, 0, 4278190335, 4294967295, 0, 0, 0, 0] }) := by
  decide
/-! ## The colour model: C12, C13, C14 -/

theorem and_255 (x : Nat) : x &&& 255 = x % 256 :=
  Nat.and_pow_two_sub_one_eq_mod x 8

theorem channel_range (color i : Nat) : 0 ≤ channel color i ∧ channel color i ≤ 255 := by
  unfold channel
  have : color / 256 ^ i % 256 < 256 := Nat.mod_lt _ (by norm_num)
  omega

theorem channelDifference_cast (a b : Nat) (ha : a < 256) (hb : b < 256) :
    toInt32 (toUInt32 ((a : Int) - (b : Int))) = (a : Int) - (b : Int) := by
  unfold toInt32 toUInt32 wrapInt32
  omega

theorem square_range {d : Int} (h0 : -255 ≤ d) (h1 : d ≤ 255) : 0 ≤ d * d ∧ d * d ≤ 65025 := by
  constructor
  · exact mul_self_nonneg d
  · nlinarith

theorem wrapped_sum_of_squares {dr dg db da : Int}
    (hr : -255 ≤ dr ∧ dr ≤ 255) (hg : -255 ≤ dg ∧ dg ≤ 255)
    (hb : -255 ≤ db ∧ db ≤ 255) (ha : -255 ≤ da ∧ da ≤ 255) :
    ((toUInt32 (wrapInt32 (wrapInt32 (wrapInt32 (wrapInt32 (dr * dr) + wrapInt32 (dg * dg))
      + wrapInt32 (db * db)) + wrapInt32 (da * da))) : Nat) : Int)
      = dr ^ 2 + dg ^ 2 + db ^ 2 + da ^ 2 := by
  obtain ⟨r0, r1⟩ := square_range hr.1 hr.2
  obtain ⟨g0, g1⟩ := square_range hg.1 hg.2
  obtain ⟨b0, b1⟩ := square_range hb.1 hb.2
  obtain ⟨a0, a1⟩ := square_range ha.1 ha.2
  rw [sq, sq, sq, sq]
  generalize dr * dr = sr at *
  generalize dg * dg = sg at *
  generalize db * db = sb at *
  generalize da * da = sa at *
  unfold toUInt32 wrapInt32
  omega

theorem colorDistance_eq_squaredDistance (color1 color2 : Nat) :
    (colorDistance color1 color2 : Int) = squaredDistance color1 color2 := by
  unfold colorDistance squaredDistance channel
  simp only [and_255, Nat.shiftRight_eq_div_pow, pow_zero, Nat.div_one, pow_one]
  have h0 : color1 % 256 < 256 := Nat.mod_lt _ (by norm_num)
  have h1 : color1 / 2 ^ 8 % 256 < 256 := Nat.mod_lt _ (by norm_num)
  have h2 : color1 / 2 ^ 16 % 256 < 256 := Nat.mod_lt _ (by norm_num)
  have h3 : color1 / 2 ^ 24 % 256 < 256 := Nat.mod_lt _ (by norm_num)
  have k0 : color2 % 256 < 256 := Nat.mod_lt _ (by norm_num)
  have k1 : color2 / 2 ^ 8 % 256 < 256 := Nat.mod_lt _ (by norm_num)
  have k2 : color2 / 2 ^ 16 % 256 < 256 := Nat.mod_lt _ (by norm_num)
  have k3 : color2 / 2 ^ 24 % 256 < 256 := Nat.mod_lt _ (by norm_num)
  rw [channelDifference_cast _ _ h0 k0, channelDifference_cast _ _ h1 k1,
    channelDifference_cast _ _ h2 k2, channelDifference_cast _ _ h3 k3]
  have e1 : (256 : Nat) ^ 2 = 2 ^ 16 := by norm_num
  have e2 : (256 : Nat) ^ 3 = 2 ^ 24 := by norm_num
  have e3 : color1 / 256 = color1 / 2 ^ 8 := by norm_num
  have e4 : color2 / 256 = color2 / 2 ^ 8 := by norm_num
  rw [e1, e2, e3, e4]
  exact wrapped_sum_of_squares (by omega) (by omega) (by omega) (by omega)

theorem squaredDistance_comm (c1 c2 : Nat) : squaredDistance c1 c2 = squaredDistance c2 c1 := by
  unfold squaredDistance
  ring

theorem squaredDistance_range (c1 c2 : Nat) :
    0 ≤ squaredDistance c1 c2 ∧ squaredDistance c1 c2 ≤ 260100 := by
  unfold squaredDistance
  have a0 := channel_range c1 0
  have a1 := channel_range c1 1
  have a2 := channel_range c1 2
  have a3 := channel_range c1 3
  have b0 := channel_range c2 0
  have b1 := channel_range c2 1
  have b2 := channel_range c2 2
  have b3 := channel_range c2 3
  have s0 := square_range (d := channel c1 0 - channel c2 0) (by omega) (by omega)
  have s1 := square_range (d := channel c1 1 - channel c2 1) (by omega) (by omega)
  have s2 := square_range (d := channel c1 2 - channel c2 2) (by omega) (by omega)
  have s3 := square_range (d := channel c1 3 - channel c2 3) (by omega) (by omega)
  rw [sq, sq, sq, sq]
  omega

theorem squaredDistance_eq_zero_iff (c1 c2 : Nat) :
    squaredDistance c1 c2 = 0 ↔ ∀ i, i < 4 → channel c1 i = channel c2 i := by
  unfold squaredDistance
  have q0 := sq_nonneg (channel c1 0 - channel c2 0)
  have q1 := sq_nonneg (channel c1 1 - channel c2 1)
  have q2 := sq_nonneg (channel c1 2 - channel c2 2)
  have q3 := sq_nonneg (channel c1 3 - channel c2 3)
  constructor
  · intro h i hi
    have z0 : (channel c1 0 - channel c2 0) ^ 2 = 0 := by omega
    have z1 : (channel c1 1 - channel c2 1) ^ 2 = 0 := by omega
    have z2 : (channel c1 2 - channel c2 2) ^ 2 = 0 := by omega
    have z3 : (channel c1 3 - channel c2 3) ^ 2 = 0 := by omega
    have y0 := pow_eq_zero_iff (two_ne_zero) |>.mp z0
    have y1 := pow_eq_zero_iff (two_ne_zero) |>.mp z1
    have y2 := pow_eq_zero_iff (two_ne_zero) |>.mp z2
    have y3 := pow_eq_zero_iff (two_ne_zero) |>.mp z3
    interval_cases i
    · omega
    · omega
    · omega
    · omega
  · intro h
    rw [h 0 (by norm_num), h 1 (by norm_num), h 2 (by norm_num), h 3 (by norm_num)]
    simp

theorem eq_of_channels {c1 c2 : Nat} (h1 : c1 < 4294967296) (h2 : c2 < 4294967296)
    (h : ∀ i, i < 4 → channel c1 i = channel c2 i) : c1 = c2 := by
  have e0 := h 0 (by norm_num)
  have e1 := h 1 (by norm_num)
  have e2 := h 2 (by norm_num)
  have e3 := h 3 (by norm_num)
  unfold channel at e0 e1 e2 e3
  norm_num at e0 e1 e2 e3
  omega

/-- C14.  For all 32-bit colours `c1`, `c2`: `colorDistance` is symmetric; it is
`0` exactly when the two colours are equal, which is the same as all four
channels being identical; its value is the exact integer sum of the four squared
channel differences; and that sum is at most 260100, so the 32-bit accumulator
never wraps. -/
theorem colorDistance_exact (c1 c2 : Nat) (h1 : c1 < 4294967296) (h2 : c2 < 4294967296) :
    colorDistance c1 c2 = colorDistance c2 c1 ∧
      (colorDistance c1 c2 = 0 ↔ c1 = c2) ∧
      (c1 = c2 ↔ ∀ i, i < 4 → channel c1 i = channel c2 i) ∧
      (colorDistance c1 c2 : Int) = squaredDistance c1 c2 ∧
      colorDistance c1 c2 ≤ 260100 := by
  have hd := colorDistance_eq_squaredDistance c1 c2
  have hd2 := colorDistance_eq_squaredDistance c2 c1
  have hr := squaredDistance_range c1 c2
  have hz := squaredDistance_eq_zero_iff c1 c2
  refine ⟨?_, ?_, ?_, hd, ?_⟩
  · have : (colorDistance c1 c2 : Int) = colorDistance c2 c1 := by
      rw [hd, hd2, squaredDistance_comm]
    exact_mod_cast this
  · constructor
    · intro h0
      have : squaredDistance c1 c2 = 0 := by rw [← hd, h0]; rfl
      exact eq_of_channels h1 h2 (hz.mp this)
    · intro h0
      rw [h0]
      exact colorDistance_self c2
  · constructor
    · intro h0 i _
      rw [h0]
    · exact eq_of_channels h1 h2
  · omega

/-- Witness of C14: opaque red `0xFF0000FF` against opaque white `0xFFFFFFFF`. -/
theorem colorDistance_exact_witness :
    colorDistance 4278190335 4294967295 = colorDistance 4294967295 4278190335 ∧
      (colorDistance 4278190335 4294967295 = 0 ↔ 4278190335 = 4294967295) ∧
      (4278190335 = 4294967295 ↔ ∀ i, i < 4 → channel 4278190335 i = channel 4294967295 i) ∧
      (colorDistance 4278190335 4294967295 : Int) = squaredDistance 4278190335 4294967295 ∧
      colorDistance 4278190335 4294967295 ≤ 260100 :=
  colorDistance_exact 4278190335 4294967295 (by decide) (by decide)

/-- C13.  For every 32-bit colour `c` and every tolerance `t` (in particular
every `t >= 0`), `nativeIsColorInvalid(c, c, t)` is false: the distance of a
colour to itself is `0`, and `0` exceeds no unsigned threshold. -/
theorem nativeIsColorInvalid_self (c t : Int) : nativeIsColorInvalid c c t = false := by
  unfold nativeIsColorInvalid
  simp only [colorDistance_self]
  simp

theorem invalidThreshold_eq (tolerance : Int) :
    (toUInt32 (wrapInt32 (wrapInt32 (tolerance * 2) * wrapInt32 (tolerance * 2))) : Int)
      = (tolerance * 2) ^ 2 % 4294967296 := by
  have h0 : ∀ z : Int, (toUInt32 (wrapInt32 z) : Int) = z % 4294967296 := by
    intro z
    unfold toUInt32 wrapInt32
    omega
  have h1 : ∀ z : Int, wrapInt32 z % 4294967296 = z % 4294967296 := by
    intro z
    unfold wrapInt32
    omega
  rw [h0, Int.mul_emod, h1, ← Int.mul_emod, sq]

/-- C12, as the code has it.  `nativeIsColorInvalid(color1, color2, tolerance)`
is true iff the squared channel-wise distance of the two colours exceeds
`(tolerance*2)^2` reduced modulo `2^32` (the 32-bit product converted to
`uint32_t` for the comparison); for `-32768 < tolerance < 32768` the reduction
changes nothing and the comparison is against the mathematical value
`(tolerance*2)^2`. -/
theorem nativeIsColorInvalid_iff (color1 color2 tolerance : Int) :
    (nativeIsColorInvalid color1 color2 tolerance = true ↔
        squaredDistance (toUInt32 color1) (toUInt32 color2)
          > (tolerance * 2) ^ 2 % 4294967296) ∧
      (-32768 < tolerance → tolerance < 32768 →
        (nativeIsColorInvalid color1 color2 tolerance = true ↔
          squaredDistance (toUInt32 color1) (toUInt32 color2) > (tolerance * 2) ^ 2)) := by
  have hgen : nativeIsColorInvalid color1 color2 tolerance = true ↔
      squaredDistance (toUInt32 color1) (toUInt32 color2)
        > (tolerance * 2) ^ 2 % 4294967296 := by
    unfold nativeIsColorInvalid
    simp only [decide_eq_true_eq]
    rw [← colorDistance_eq_squaredDistance, ← invalidThreshold_eq]
    exact Nat.cast_lt.symm
  refine ⟨hgen, ?_⟩
  intro h0 h1
  rw [hgen]
  have hsq : 0 ≤ (tolerance * 2) ^ 2 ∧ (tolerance * 2) ^ 2 < 4294967296 := by
    constructor
    · exact sq_nonneg _
    · nlinarith
  rw [Int.emod_eq_of_lt hsq.1 hsq.2]

/-- Witness of the amended C12: black against white at tolerance 10. -/
theorem nativeIsColorInvalid_iff_witness :
    (nativeIsColorInvalid 0 (-1) 10 = true ↔
        squaredDistance (toUInt32 0) (toUInt32 (-1)) > ((10 : Int) * 2) ^ 2 % 4294967296) ∧
      (-32768 < (10 : Int) → (10 : Int) < 32768 →
        (nativeIsColorInvalid 0 (-1) 10 = true ↔
          squaredDistance (toUInt32 0) (toUInt32 (-1)) > ((10 : Int) * 2) ^ 2)) :=
  nativeIsColorInvalid_iff 0 (-1) 10

/-- C12 as stated fails at tolerance 32768: `(tolerance*2)^2` is `2^32`, which
no squared distance exceeds, yet the call on the colours `0` and `1` returns
true, because the 32-bit threshold is `0`. -/
theorem nativeIsColorInvalid_tolerance_32768 :
    nativeIsColorInvalid 0 1 32768 = true ∧
      ¬ (squaredDistance (toUInt32 0) (toUInt32 1) > ((32768 : Int) * 2) ^ 2) := by
  constructor
  · decide
  · decide
/-! ## The prepared session and the frame of preparation: C16, C17 -/

theorem length_flatten_pixels (layers : List LayerData) :
    (((layers.map LayerData.pixels).flatten.length : Nat) : Int)
      = (layers.map (fun l => (l.pixels.length : Int))).sum := by
  induction layers with
  | nil => rfl
  | cons a l ih =>
    simp only [List.map_cons, List.flatten_cons, List.length_append, List.sum_cons]
    push_cast
    rw [ih]

/-- What `nativePrepareFillSequence` does when the fill colour is not within
the threshold of the seed colour: the session built from the exit state of the
loop is stored under the current counter value, and the bitmap is as before. -/
theorem nativePrepareFillSequence_prepared (registry : Registry) (bitmap : Bitmap)
    (startX startY fillColor tolerance : Int)
    (hinfo : 0 ≤ bitmap.getInfoResult)
    (hformat : bitmap.format = ANDROID_BITMAP_FORMAT_RGBA_8888)
    (hlock : 0 ≤ bitmap.lockPixelsResult)
    (hsize : (bitmap.pixels.length : Int) = bitmap.width * bitmap.height)
    (hseed : InBounds bitmap.width bitmap.height (startX, startY))
    (hdiff : ¬ colorDistance (pixelAt bitmap.pixels bitmap.width (startX, startY))
      (argbToRgba fillColor) ≤ fillThreshold tolerance) :
    ∃ s : PrepareState,
      prepareCore (bitmap.pixels.length + 1) bitmap.width bitmap.height bitmap.pixels
        startX startY fillColor tolerance = .ok (some s) ∧
      nativePrepareFillSequence registry bitmap startX startY fillColor tolerance =
        .ok (registry.sequenceIdCounter,
          ⟨insertSequence registry.activeSequences registry.sequenceIdCounter
              (preparedSequence bitmap fillColor s),
            wrapInt64 (registry.sequenceIdCounter + 1)⟩,
          bitmap) ∧
      FrontierInv bitmap.width bitmap.height bitmap.pixels
        (pixelAt bitmap.pixels bitmap.width (startX, startY))
        (fillThreshold tolerance) (startX, startY) s.pushed [] s.pushed ∧
      Closed bitmap.width bitmap.height bitmap.pixels
        (pixelAt bitmap.pixels bitmap.width (startX, startY))
        (fillThreshold tolerance) s.pushed s.pushed ∧
      PrepareRel bitmap.width bitmap.height bitmap.pixels s.pushed
        { s with layer := { pixels := [] } } := by
  obtain ⟨s, hs, -, hinv, hcl, hrel⟩ :=
    prepareCore_ok startX startY fillColor tolerance hsize hseed hdiff
      (bitmap.pixels.length + 1) (Nat.lt_succ_self _)
  refine ⟨s, hs, ?_, hinv, hcl, hrel⟩
  rw [nativePrepareFillSequence_some hinfo hformat hlock hs]
  have hpix : s.pixelData = bitmap.pixels := hrel.pixels
  rw [hpix]

/-- C16.  On a usable bitmap whose pixel memory has `width * height` entries,
with the seed inside the bitmap and a fill colour not within the threshold of
the seed colour, `nativePrepareFillSequence` returns the current counter value
and registers under it a session whose `totalPixels` is the sum of the sizes of
all its layers, whose `currentLayerIndex` is `0` and whose `filledPixels` is
`0`. -/
theorem prepared_session_totals (registry : Registry) (bitmap : Bitmap)
    (startX startY fillColor tolerance : Int)
    (hinfo : 0 ≤ bitmap.getInfoResult)
    (hformat : bitmap.format = ANDROID_BITMAP_FORMAT_RGBA_8888)
    (hlock : 0 ≤ bitmap.lockPixelsResult)
    (hsize : (bitmap.pixels.length : Int) = bitmap.width * bitmap.height)
    (hseed : InBounds bitmap.width bitmap.height (startX, startY))
    (hdiff : ¬ colorDistance (pixelAt bitmap.pixels bitmap.width (startX, startY))
      (argbToRgba fillColor) ≤ fillThreshold tolerance) :
    ∃ (registry1 : Registry) (bitmap1 : Bitmap) (sequence : FloodFillSequence),
      nativePrepareFillSequence registry bitmap startX startY fillColor tolerance
        = .ok (registry.sequenceIdCounter, registry1, bitmap1) ∧
      findSequence registry1.activeSequences registry.sequenceIdCounter = some sequence ∧
      sequence.totalPixels = (sequence.layers.map (fun l => (l.pixels.length : Int))).sum ∧
      sequence.currentLayerIndex = 0 ∧
      sequence.filledPixels = 0 := by
  obtain ⟨s, -, hcall, -, -, hrel⟩ :=
    nativePrepareFillSequence_prepared registry bitmap startX startY fillColor tolerance
      hinfo hformat hlock hsize hseed hdiff
  refine ⟨_, _, preparedSequence bitmap fillColor s, hcall,
    findSequence_insertSequence _ _ _, ?_, rfl, rfl⟩
  have hflat : (s.layers.map LayerData.pixels).flatten = s.pushed := by
    have := hrel.collected
    simpa using this
  have htotal : s.totalPixels = (s.pushed.length : Int) := hrel.total
  show s.totalPixels = (s.layers.map (fun l => (l.pixels.length : Int))).sum
  rw [htotal, ← hflat]
  exact length_flatten_pixels s.layers

/-- On a bitmap whose pixel memory has `width * height` entries, with the seed
inside the bitmap, `nativePrepareFillSequence` returns and hands back the
bitmap it was given. -/
theorem nativePrepareFillSequence_frame (registry : Registry) (bitmap : Bitmap)
    (startX startY fillColor tolerance : Int)
    (hsize : (bitmap.pixels.length : Int) = bitmap.width * bitmap.height)
    (hseed : InBounds bitmap.width bitmap.height (startX, startY)) :
    ∃ (value : Int) (registry1 : Registry),
      nativePrepareFillSequence registry bitmap startX startY fillColor tolerance
        = .ok (value, registry1, bitmap) := by
  by_cases hinfo : bitmap.getInfoResult < 0
  · exact ⟨-1, registry, by unfold nativePrepareFillSequence; rw [if_pos hinfo]⟩
  by_cases hformat : bitmap.format ≠ ANDROID_BITMAP_FORMAT_RGBA_8888
  · exact ⟨-1, registry, by
      unfold nativePrepareFillSequence; rw [if_neg hinfo, if_pos hformat]⟩
  by_cases hlock : bitmap.lockPixelsResult < 0
  · exact ⟨-1, registry, by
      unfold nativePrepareFillSequence; rw [if_neg hinfo, if_neg hformat, if_pos hlock]⟩
  by_cases hsame : colorDistance (pixelAt bitmap.pixels bitmap.width (startX, startY))
      (argbToRgba fillColor) ≤ fillThreshold tolerance
  · exact ⟨-2, registry,
      (sentinel_of_within_threshold registry bitmap startX startY fillColor tolerance
        (not_lt.1 hinfo) (not_not.1 hformat) (not_lt.1 hlock) hsize hseed hsame).1⟩
  · obtain ⟨s, -, hcall, -, -, -⟩ :=
      nativePrepareFillSequence_prepared registry bitmap startX startY fillColor tolerance
        (not_lt.1 hinfo) (not_not.1 hformat) (not_lt.1 hlock) hsize hseed hsame
    exact ⟨_, _, hcall⟩

/-- C17.  On a bitmap whose pixel memory has `width * height` entries, with the
seed inside the bitmap, for every fill colour and tolerance,
`nativePrepareFillSequence` returns (a session identifier or a sentinel), the
pixel memory after the call is the pixel memory before the call, and so every
pixel holds the value it held before. -/
theorem nativePrepareFillSequence_keeps_pixels (registry : Registry) (bitmap : Bitmap)
    (startX startY fillColor tolerance : Int)
    (hsize : (bitmap.pixels.length : Int) = bitmap.width * bitmap.height)
    (hseed : InBounds bitmap.width bitmap.height (startX, startY)) :
    ∃ (value : Int) (registry1 : Registry) (bitmap1 : Bitmap),
      nativePrepareFillSequence registry bitmap startX startY fillColor tolerance
        = .ok (value, registry1, bitmap1) ∧
      bitmap1.pixels = bitmap.pixels ∧
      ∀ p, InBounds bitmap.width bitmap.height p →
        pixelAt bitmap1.pixels bitmap.width p = pixelAt bitmap.pixels bitmap.width p := by
  obtain ⟨value, registry1, h⟩ :=
    nativePrepareFillSequence_frame registry bitmap startX startY fillColor tolerance hsize hseed
  exact ⟨value, registry1, bitmap, h, rfl, fun _ _ => rfl⟩

/-! ## Safety of the traversals: C19, C20 -/

/-- C19.  On a bitmap whose pixel memory has `width * height` entries, with
`width * height` representable as an `int` and the seed in
`[0, width) x [0, height)` (which makes `width` and `height` positive): the
eager and the layered traversal run to completion without a checked access
leaving its container, so do `nativeFloodFill` and `nativePrepareFillSequence`,
and every coordinate handed to `queue.push` lies in `[0, width) x [0, height)`
with its linear index `y * width + x` in `[0, width * height)` and in the `int`
range. -/
theorem traversals_stay_in_bounds (registry : Registry) (bitmap : Bitmap)
    (startX startY fillColor tolerance : Int)
    (hsize : (bitmap.pixels.length : Int) = bitmap.width * bitmap.height)
    (hint : bitmap.width * bitmap.height ≤ 2147483647)
    (hseed : InBounds bitmap.width bitmap.height (startX, startY)) :
    (∃ r, floodFillCore (bitmap.pixels.length + 1) bitmap.width bitmap.height bitmap.pixels
          startX startY fillColor tolerance = .ok r ∧
        ∀ s, r.1 = some s → ∀ p ∈ s.pushed, InBounds bitmap.width bitmap.height p ∧
          0 ≤ p.2 * bitmap.width + p.1 ∧
          p.2 * bitmap.width + p.1 < bitmap.width * bitmap.height ∧
          p.2 * bitmap.width + p.1 ≤ 2147483647) ∧
      (∃ r, prepareCore (bitmap.pixels.length + 1) bitmap.width bitmap.height bitmap.pixels
          startX startY fillColor tolerance = .ok r ∧
        ∀ s, r = some s → ∀ p ∈ s.pushed, InBounds bitmap.width bitmap.height p ∧
          0 ≤ p.2 * bitmap.width + p.1 ∧
          p.2 * bitmap.width + p.1 < bitmap.width * bitmap.height ∧
          p.2 * bitmap.width + p.1 ≤ 2147483647) ∧
      (∃ r, nativeFloodFill bitmap startX startY fillColor tolerance = .ok r) ∧
      (∃ r, nativePrepareFillSequence registry bitmap startX startY fillColor tolerance
          = .ok r) := by
  have hidx : ∀ p, InBounds bitmap.width bitmap.height p →
      InBounds bitmap.width bitmap.height p ∧
        0 ≤ p.2 * bitmap.width + p.1 ∧
        p.2 * bitmap.width + p.1 < bitmap.width * bitmap.height ∧
        p.2 * bitmap.width + p.1 ≤ 2147483647 := by
    intro p hp
    obtain ⟨h0, h1⟩ := linearIndex_range hp
    have h0a : 0 ≤ p.2 * bitmap.width + p.1 := h0
    have h1a : p.2 * bitmap.width + p.1 < bitmap.width * bitmap.height := h1
    exact ⟨hp, h0a, h1a, by omega⟩
  have hcores : (∃ r, floodFillCore (bitmap.pixels.length + 1) bitmap.width bitmap.height
        bitmap.pixels startX startY fillColor tolerance = .ok r ∧
        ∀ s, r.1 = some s → ∀ p ∈ s.pushed, InBounds bitmap.width bitmap.height p ∧
          0 ≤ p.2 * bitmap.width + p.1 ∧
          p.2 * bitmap.width + p.1 < bitmap.width * bitmap.height ∧
          p.2 * bitmap.width + p.1 ≤ 2147483647) ∧
      (∃ r, prepareCore (bitmap.pixels.length + 1) bitmap.width bitmap.height bitmap.pixels
          startX startY fillColor tolerance = .ok r ∧
        ∀ s, r = some s → ∀ p ∈ s.pushed, InBounds bitmap.width bitmap.height p ∧
          0 ≤ p.2 * bitmap.width + p.1 ∧
          p.2 * bitmap.width + p.1 < bitmap.width * bitmap.height ∧
          p.2 * bitmap.width + p.1 ≤ 2147483647) := by
    by_cases hsame : colorDistance (pixelAt bitmap.pixels bitmap.width (startX, startY))
        (argbToRgba fillColor) ≤ fillThreshold tolerance
    · constructor
      · refine ⟨_, floodFillCore_same startX startY fillColor tolerance hsize hseed hsame _, ?_⟩
        intro s hs
        cases hs
      · refine ⟨_, prepareCore_same startX startY fillColor tolerance hsize hseed hsame _, ?_⟩
        intro s hs
        cases hs
    · obtain ⟨se, hse, -, -, -, hrele⟩ :=
        floodFillCore_ok startX startY fillColor tolerance hsize hseed hsame
          (bitmap.pixels.length + 1) (Nat.lt_succ_self _)
      obtain ⟨sl, hsl, -, -, -, hrell⟩ :=
        prepareCore_ok startX startY fillColor tolerance hsize hseed hsame
          (bitmap.pixels.length + 1) (Nat.lt_succ_self _)
      constructor
      · refine ⟨_, hse, ?_⟩
        intro s hs p hp
        cases hs
        exact hidx p (hrele.inb p hp)
      · refine ⟨_, hsl, ?_⟩
        intro s hs p hp
        cases hs
        exact hidx p (hrell.inb p hp)
  obtain ⟨⟨re, hre, hpe⟩, ⟨rl, hrl, hpl⟩⟩ := hcores
  refine ⟨⟨re, hre, hpe⟩, ⟨rl, hrl, hpl⟩, ?_, ?_⟩
  · unfold nativeFloodFill
    split_ifs
    · exact ⟨_, rfl⟩
    · exact ⟨_, rfl⟩
    · exact ⟨_, rfl⟩
    · rw [hre, ok_bind]
      exact ⟨_, rfl⟩
  · obtain ⟨value, registry1, h⟩ :=
      nativePrepareFillSequence_frame registry bitmap startX startY fillColor
        tolerance hsize hseed
    exact ⟨_, h⟩

/-- C20.  On a bitmap whose pixel memory has `width * height` entries, with the
seed inside the bitmap, for every fill colour and tolerance: the eager and the
layered traversal run to completion, and in the state in which each loop exits
the rejection branch (`colorDistance(pixelData[index], oldColor) > threshold`
followed by `continue`) has been taken `0` times and no coordinate occurs twice
among those handed to `queue.push`. -/
theorem traversals_never_reject (bitmap : Bitmap)
    (startX startY fillColor tolerance : Int)
    (hsize : (bitmap.pixels.length : Int) = bitmap.width * bitmap.height)
    (hseed : InBounds bitmap.width bitmap.height (startX, startY)) :
    (∃ r, floodFillCore (bitmap.pixels.length + 1) bitmap.width bitmap.height bitmap.pixels
          startX startY fillColor tolerance = .ok r ∧
        ∀ s, r.1 = some s → s.skipped = 0 ∧ s.pushed.Nodup) ∧
      (∃ r, prepareCore (bitmap.pixels.length + 1) bitmap.width bitmap.height bitmap.pixels
          startX startY fillColor tolerance = .ok r ∧
        ∀ s, r = some s → s.skipped = 0 ∧ s.pushed.Nodup) := by
  by_cases hsame : colorDistance (pixelAt bitmap.pixels bitmap.width (startX, startY))
      (argbToRgba fillColor) ≤ fillThreshold tolerance
  · constructor
    · refine ⟨_, floodFillCore_same startX startY fillColor tolerance hsize hseed hsame _, ?_⟩
      intro s hs
      cases hs
    · refine ⟨_, prepareCore_same startX startY fillColor tolerance hsize hseed hsame _, ?_⟩
      intro s hs
      cases hs
  · obtain ⟨se, hse, -, hinve, -, hrele⟩ :=
      floodFillCore_ok startX startY fillColor tolerance hsize hseed hsame
        (bitmap.pixels.length + 1) (Nat.lt_succ_self _)
    obtain ⟨sl, hsl, -, hinvl, -, hrell⟩ :=
      prepareCore_ok startX startY fillColor tolerance hsize hseed hsame
        (bitmap.pixels.length + 1) (Nat.lt_succ_self _)
    constructor
    · refine ⟨_, hse, ?_⟩
      intro s hs
      cases hs
      exact ⟨hrele.skipped, hinve.nodup⟩
    · refine ⟨_, hsl, ?_⟩
      intro s hs
      cases hs
      exact ⟨hrell.skipped, hinvl.nodup⟩
/-! ## C16, C17, C19, C20 at concrete inputs -/

/-- Witness of C16: the 3 x 3 bitmap with the seed `(0, 1)` satisfies the
hypotheses; the session it yields is `ringSequence`, with 8 pixels in layers of
sizes 1, 4 and 3. -/
theorem prepared_session_totals_witness :
    (∃ (registry1 : Registry) (bitmap1 : Bitmap) (sequence : FloodFillSequence),
      nativePrepareFillSequence Registry.initial ringBitmap 0 1 opaqueRed 0
        = .ok (Registry.initial.sequenceIdCounter, registry1, bitmap1) ∧
      findSequence registry1.activeSequences Registry.initial.sequenceIdCounter
        = some sequence ∧
      sequence.totalPixels = (sequence.layers.map (fun l => (l.pixels.length : Int))).sum ∧
      sequence.currentLayerIndex = 0 ∧
      sequence.filledPixels = 0) ∧
    ringSequence.totalPixels
      = (ringSequence.layers.map (fun l => (l.pixels.length : Int))).sum :=
  ⟨prepared_session_totals Registry.initial ringBitmap 0 1 opaqueRed 0
      (by decide) (by decide) (by decide) (by decide) (by decide) (by decide),
    by decide⟩

/-- Witness of C17: the 3 x 3 bitmap with the seed `(0, 1)`. -/
theorem nativePrepareFillSequence_keeps_pixels_witness :
    ∃ (value : Int) (registry1 : Registry) (bitmap1 : Bitmap),
      nativePrepareFillSequence Registry.initial ringBitmap 0 1 opaqueRed 0
        = .ok (value, registry1, bitmap1) ∧
      bitmap1.pixels = ringBitmap.pixels ∧
      ∀ p, InBounds ringBitmap.width ringBitmap.height p →
        pixelAt bitmap1.pixels ringBitmap.width p = pixelAt ringBitmap.pixels ringBitmap.width p :=
  nativePrepareFillSequence_keeps_pixels Registry.initial ringBitmap 0 1 opaqueRed 0
    (by decide) (by decide)

/-- Witness of C19: the 3 x 3 bitmap with the seed `(0, 1)`. -/
theorem traversals_stay_in_bounds_witness :
    (∃ r, floodFillCore (ringBitmap.pixels.length + 1) ringBitmap.width ringBitmap.height
          ringBitmap.pixels 0 1 opaqueRed 0 = .ok r ∧
        ∀ s, r.1 = some s → ∀ p ∈ s.pushed, InBounds ringBitmap.width ringBitmap.height p ∧
          0 ≤ p.2 * ringBitmap.width + p.1 ∧
          p.2 * ringBitmap.width + p.1 < ringBitmap.width * ringBitmap.height ∧
          p.2 * ringBitmap.width + p.1 ≤ 2147483647) ∧
      (∃ r, prepareCore (ringBitmap.pixels.length + 1) ringBitmap.width ringBitmap.height
          ringBitmap.pixels 0 1 opaqueRed 0 = .ok r ∧
        ∀ s, r = some s → ∀ p ∈ s.pushed, InBounds ringBitmap.width ringBitmap.height p ∧
          0 ≤ p.2 * ringBitmap.width + p.1 ∧
          p.2 * ringBitmap.width + p.1 < ringBitmap.width * ringBitmap.height ∧
          p.2 * ringBitmap.width + p.1 ≤ 2147483647) ∧
      (∃ r, nativeFloodFill ringBitmap 0 1 opaqueRed 0 = .ok r) ∧
      (∃ r, nativePrepareFillSequence Registry.initial ringBitmap 0 1 opaqueRed 0 = .ok r) :=
  traversals_stay_in_bounds Registry.initial ringBitmap 0 1 opaqueRed 0
    (by decide) (by decide) (by decide)

/-- Witness of C20: the 3 x 3 bitmap with the seed `(0, 1)`. -/
theorem traversals_never_reject_witness :
    (∃ r, floodFillCore (ringBitmap.pixels.length + 1) ringBitmap.width ringBitmap.height
          ringBitmap.pixels 0 1 opaqueRed 0 = .ok r ∧
        ∀ s, r.1 = some s → s.skipped = 0 ∧ s.pushed.Nodup) ∧
      (∃ r, prepareCore (ringBitmap.pixels.length + 1) ringBitmap.width ringBitmap.height
          ringBitmap.pixels 0 1 opaqueRed 0 = .ok r ∧
        ∀ s, r = some s → s.skipped = 0 ∧ s.pushed.Nodup) :=
  traversals_never_reject ringBitmap 0 1 opaqueRed 0 (by decide) (by decide)
/-! ## What `nativeFillNextNLayers` writes (C18) -/

/-- The pixels written when the sum `startIndex + layerCount` of line 282
stays in the `int` range.  For a session held by the registry with cursor `c`,
`0 <= c <= layers.size()`, whose layer coordinates lie inside its
`width x height`, a bitmap that can be locked and whose pixel memory has the
session's `width * height` entries, and a `layerCount >= 0` with
`c + layerCount` not above `INT_MAX`: `nativeFillNextNLayers` returns a report,
the pixel memory keeps its size, every pixel whose coordinate appears in one of
the layers `c .. min(c + layerCount, layers.size()) - 1` holds the session's
`fillColor`, every other pixel holds the value it held before, every other
session of the registry is as before, and so is the identifier counter. -/
theorem nativeFillNextNLayers_paints (registry : Registry) (bitmap : Bitmap)
    (sequenceId layerCount : Int) (sequence : FloodFillSequence)
    (hfind : findSequence registry.activeSequences sequenceId = some sequence)
    (hlock : 0 ≤ bitmap.lockPixelsResult)
    (hsize : (bitmap.pixels.length : Int) = sequence.width * sequence.height)
    (hlayers : ∀ p ∈ layerPixels sequence.layers 0 sequence.layers.length,
      InBounds sequence.width sequence.height p)
    (hc0 : 0 ≤ sequence.currentLayerIndex)
    (hclen : sequence.currentLayerIndex ≤ (sequence.layers.length : Int))
    (hn : 0 ≤ layerCount)
    (hsum : sequence.currentLayerIndex + layerCount ≤ 2147483647) :
    ∃ (report : List Int) (registry1 : Registry) (pixels1 : List Nat),
      nativeFillNextNLayers registry bitmap sequenceId layerCount
        = .ok (some report, registry1, { bitmap with pixels := pixels1 }) ∧
      pixels1.length = bitmap.pixels.length ∧
      (∀ p, InBounds sequence.width sequence.height p →
        (p ∈ layerPixels sequence.layers sequence.currentLayerIndex.toNat
            (min (sequence.currentLayerIndex + layerCount) (sequence.layers.length : Int)
              - sequence.currentLayerIndex).toNat →
          pixelAt pixels1 sequence.width p = sequence.fillColor) ∧
        (p ∉ layerPixels sequence.layers sequence.currentLayerIndex.toNat
            (min (sequence.currentLayerIndex + layerCount) (sequence.layers.length : Int)
              - sequence.currentLayerIndex).toNat →
          pixelAt pixels1 sequence.width p = pixelAt bitmap.pixels sequence.width p)) ∧
      (∀ other, other ≠ sequenceId →
        findSequence registry1.activeSequences other
          = findSequence registry.activeSequences other) ∧
      registry1.sequenceIdCounter = registry.sequenceIdCounter := by
  have hwrites : ∀ p ∈ layerPixels sequence.layers sequence.currentLayerIndex.toNat
      (min (sequence.currentLayerIndex + layerCount) (sequence.layers.length : Int)
        - sequence.currentLayerIndex).toNat,
      0 ≤ linearIndex sequence.width p ∧
        linearIndex sequence.width p < (bitmap.pixels.length : Int) := by
    intro p hp
    have := linearIndex_range (hlayers p (mem_layerPixels_all hp))
    rw [hsize]
    exact this
  obtain ⟨pixels1, hcall, hlen, hin, hout⟩ :=
    nativeFillNextNLayers_step registry bitmap sequenceId layerCount sequence hfind hlock hc0
      hclen hn hsum _ rfl hwrites
  refine ⟨_, _, pixels1, hcall, hlen, ?_, ?_, rfl⟩
  · intro p hp
    constructor
    · intro hmem
      exact hin p hmem
    · intro hmem
      apply hout
      intro q hq heq
      have hqb := hlayers q (mem_layerPixels_all hq)
      have h1 := (linearIndex_range hqb).1
      have h2 := (linearIndex_range hp).1
      have : linearIndex sequence.width q = linearIndex sequence.width p := by omega
      exact hmem (linearIndex_inj hqb hp this ▸ hq)
  · intro other hother
    simp only []
    rw [findSequence_storeSequence, if_neg hother]

set_option maxRecDepth 100000 in
/-- The fresh session of `ringRegistry` with `ringBitmap` and `layerCount = 2`
satisfies the hypotheses above. -/
theorem nativeFillNextNLayers_paints_witness :
    ∃ (report : List Int) (registry1 : Registry) (pixels1 : List Nat),
      nativeFillNextNLayers ringRegistry ringBitmap 1 2
        = .ok (some report, registry1, { ringBitmap with pixels := pixels1 }) ∧
      pixels1.length = ringBitmap.pixels.length ∧
      (∀ p, InBounds ringSequence.width ringSequence.height p →
        (p ∈ layerPixels ringSequence.layers ringSequence.currentLayerIndex.toNat
            (min (ringSequence.currentLayerIndex + 2) (ringSequence.layers.length : Int)
              - ringSequence.currentLayerIndex).toNat →
          pixelAt pixels1 ringSequence.width p = ringSequence.fillColor) ∧
        (p ∉ layerPixels ringSequence.layers ringSequence.currentLayerIndex.toNat
            (min (ringSequence.currentLayerIndex + 2) (ringSequence.layers.length : Int)
              - ringSequence.currentLayerIndex).toNat →
          pixelAt pixels1 ringSequence.width p = pixelAt ringBitmap.pixels ringSequence.width p)) ∧
      (∀ other, other ≠ 1 →
        findSequence registry1.activeSequences other
          = findSequence ringRegistry.activeSequences other) ∧
      registry1.sequenceIdCounter = ringRegistry.sequenceIdCounter :=
  nativeFillNextNLayers_paints ringRegistry ringBitmap 1 2 ringSequence
    (by decide) (by decide) (by decide) (by decide) (by decide) (by decide) (by decide)
    (by decide)

set_option maxRecDepth 100000 in
/-- C18: where the code departs from the claimed writes.  On the session of
`ringRegistry` (layers of sizes 1, 4, 3) and a bitmap of its dimensions, a call
with `layerCount = 2147483647` at cursor 0 paints all 8 pixels of the three
layers, as claimed.  The same `layerCount` after one applied layer (cursor 1)
makes the `int` sum `startIndex + layerCount` of line 282 exceed `INT_MAX`;
reduced to the `int` range it is negative, `std::min` keeps it and no layer is
applied: the coordinate `(0, 0)` appears in layer 1, which lies in
`c .. min(c + n, layers.size()) - 1`, but after the call it still holds `0` and
not the fill colour. -/
theorem layerCount_overflow_paints_nothing :
    (∃ registry1 : Registry,
      nativeFillNextNLayers ringRegistry ringBitmap 1 2147483647
        = .ok (some [10000, 1, 8, 3], registry1,
            { ringBitmap with pixels :=
                [4278190335, 4278190335, 4278190335, 4278190335, 4294967295,
                 4278190335, 4278190335, 4278190335, 4278190335] })) ∧
    findSequence
        ([(1, { ringSequence with currentLayerIndex := 1, filledPixels := 1 })] :
          List (Int × FloodFillSequence)) 1
      = some { ringSequence with currentLayerIndex := 1, filledPixels := 1 } ∧
    ((0, 0) : Int × Int) ∈ layerPixels ringSequence.layers 1
      (min ((1 : Int) + 2147483647) (ringSequence.layers.length : Int) - 1).toNat ∧
    nativeFillNextNLayers
        { activeSequences := [(1, { ringSequence with currentLayerIndex := 1, filledPixels := 1 })],
          sequenceIdCounter := 2 }
        { ringBitmap with pixels := [0, 0, 0, 4278190335, 4294967295, 0, 0, 0, 0] }
        1 2147483647
      = .ok (some [1250, 1, 0, 3],
          { activeSequences :=
              [(1, { ringSequence with currentLayerIndex := -2147483648, filledPixels := 1 })],
            sequenceIdCounter := 2 },
          { ringBitmap with pixels := [0, 0, 0, 4278190335, 4294967295, 0, 0, 0, 0] }) ∧
    pixelAt [0, 0, 0, 4278190335, 4294967295, 0, 0, 0, 0] 3 (0, 0) ≠ ringSequence.fillColor := by
  refine ⟨⟨⟨[(1, { ringSequence with currentLayerIndex := 3, filledPixels := 8 })], 2⟩,
    by decide⟩, by decide, by decide, by decide, by decide⟩
/-! ## C11: the identifiers that `nativePrepareFillSequence` returns -/

/-- The two ways in which `nativePrepareFillSequence` returns: with a sentinel
and the registry as it was, or with the counter value, the counter advanced by
one as a `jlong`. -/
theorem nativePrepareFillSequence_cases {registry registry1 : Registry}
    {bitmap bitmap1 : Bitmap} {startX startY fillColor tolerance value : Int}
    (hstep : nativePrepareFillSequence registry bitmap startX startY fillColor tolerance
      = .ok (value, registry1, bitmap1)) :
    ((value = -1 ∨ value = -2) ∧ registry1 = registry) ∨
      (value = registry.sequenceIdCounter ∧
        registry1.sequenceIdCounter = wrapInt64 (registry.sequenceIdCounter + 1)) := by
  unfold nativePrepareFillSequence at hstep
  by_cases h1 : bitmap.getInfoResult < 0
  · rw [if_pos h1] at hstep
    cases hstep
    exact Or.inl ⟨Or.inl rfl, rfl⟩
  rw [if_neg h1] at hstep
  by_cases h2 : bitmap.format ≠ ANDROID_BITMAP_FORMAT_RGBA_8888
  · rw [if_pos h2] at hstep
    cases hstep
    exact Or.inl ⟨Or.inl rfl, rfl⟩
  rw [if_neg h2] at hstep
  by_cases h3 : bitmap.lockPixelsResult < 0
  · rw [if_pos h3] at hstep
    cases hstep
    exact Or.inl ⟨Or.inl rfl, rfl⟩
  rw [if_neg h3] at hstep
  cases hcore : prepareCore (bitmap.pixels.length + 1) bitmap.width bitmap.height bitmap.pixels
      startX startY fillColor tolerance with
  | error err =>
    rw [hcore, error_bind] at hstep
    cases hstep
  | ok r =>
    rw [hcore, ok_bind] at hstep
    cases r with
    | none =>
      cases hstep
      exact Or.inl ⟨Or.inr rfl, rfl⟩
    | some s =>
      simp only [Except.ok.injEq, Prod.mk.injEq] at hstep
      obtain ⟨hv, hr, -⟩ := hstep
      subst hr
      exact Or.inr ⟨hv.symm, rfl⟩

theorem nativeFillNextNLayers_counter {registry registry1 : Registry}
    {bitmap bitmap1 : Bitmap} {sequenceId layerCount : Int} {report : Option (List Int)}
    (hstep : nativeFillNextNLayers registry bitmap sequenceId layerCount
      = .ok (report, registry1, bitmap1)) :
    registry1.sequenceIdCounter = registry.sequenceIdCounter := by
  unfold nativeFillNextNLayers at hstep
  cases hfind : findSequence registry.activeSequences sequenceId with
  | none =>
    rw [hfind] at hstep
    cases hstep
    rfl
  | some sequence =>
    rw [hfind] at hstep
    simp only [] at hstep
    by_cases h3 : bitmap.lockPixelsResult < 0
    · rw [if_pos h3] at hstep
      cases hstep
      rfl
    rw [if_neg h3] at hstep
    cases hfill : fillLayers sequence
        (min (wrapInt32 (sequence.currentLayerIndex + layerCount)) (sequence.layers.length : Int)
          - sequence.currentLayerIndex).toNat
        sequence.currentLayerIndex (bitmap.pixels, 0) with
    | error err =>
      rw [hfill, error_bind] at hstep
      cases hstep
    | ok st =>
      rw [hfill, ok_bind] at hstep
      simp only [Except.ok.injEq, Prod.mk.injEq] at hstep
      obtain ⟨-, hr, -⟩ := hstep
      subst hr
      rfl

theorem nativeReleaseSequence_counter (registry : Registry) (sequenceId : Int) :
    (nativeReleaseSequence registry sequenceId).sequenceIdCounter
      = registry.sequenceIdCounter := by
  unfold nativeReleaseSequence
  cases findSequence registry.activeSequences sequenceId <;> rfl

theorem identifiers_append (values : List Int) (value : Int) :
    identifiers (values ++ [value])
      = identifiers values ++ (if value ≠ -1 ∧ value ≠ -2 then [value] else []) := by
  unfold identifiers
  rw [List.filter_append]
  by_cases h : value ≠ -1 ∧ value ≠ -2
  · rw [if_pos h, List.filter_cons_of_pos (by simpa using h), List.filter_nil]
  · rw [if_neg h, List.filter_cons_of_neg (by simpa using h), List.filter_nil]

theorem wrapInt64_succ (z : Int) : wrapInt64 (wrapInt64 z + 1) = wrapInt64 (z + 1) := by
  unfold wrapInt64
  omega

theorem wrapInt64_of_range {z : Int} (h0 : -9223372036854775808 ≤ z)
    (h1 : z ≤ 9223372036854775807) : wrapInt64 z = z := by
  unfold wrapInt64
  omega

/-- As long as fewer than `2^63` identifiers have been returned, they are
`1, 2, ..., n` in this order and the counter is `n + 1` as a `jlong`. -/
theorem history_identifiers {values : List Int} {registry : Registry}
    (hhist : History values registry) :
    (identifiers values).length < 9223372036854775808 →
    identifiers values
        = (List.range (identifiers values).length).map (fun (k : Nat) => (k : Int) + 1) ∧
      registry.sequenceIdCounter = wrapInt64 (((identifiers values).length : Int) + 1) := by
  induction hhist with
  | initial =>
    intro _
    exact ⟨rfl, rfl⟩
  | @prepare values registry registry1 bitmap bitmap1 startX startY fillColor tolerance value
      _ hstep ih =>
    intro hbound
    rw [identifiers_append] at hbound ⊢
    have hlen : (identifiers values).length < 9223372036854775808 := by
      rw [List.length_append] at hbound
      omega
    obtain ⟨hids, hctr⟩ := ih hlen
    rcases nativePrepareFillSequence_cases hstep with ⟨hv, hr⟩ | ⟨hv, hr⟩
    · have hno : ¬ (value ≠ -1 ∧ value ≠ -2) := by
        rcases hv with hv | hv
        · exact fun h => h.1 hv
        · exact fun h => h.2 hv
      rw [if_neg hno, List.append_nil, hr]
      exact ⟨hids, hctr⟩
    · have hvalue : value = wrapInt64 (((identifiers values).length : Int) + 1) := by
        rw [hv, hctr]
      have hyes : value ≠ -1 ∧ value ≠ -2 := by
        rw [hvalue]
        unfold wrapInt64
        omega
      rw [if_pos hyes] at hbound ⊢
      rw [List.length_append, List.length_singleton] at hbound
      have hexact : value = ((identifiers values).length : Int) + 1 := by
        rw [hvalue]
        exact wrapInt64_of_range (by omega) (by omega)
      constructor
      · rw [List.length_append, List.length_singleton, List.range_succ, List.map_append,
          ← hids, List.map_singleton, hexact]
      · rw [hr, hctr, wrapInt64_succ, List.length_append, List.length_singleton]
        push_cast
        rfl
  | advance _ hstep ih =>
    intro hbound
    rw [nativeFillNextNLayers_counter hstep]
    exact ih hbound
  | release _ ih =>
    intro hbound
    rw [nativeReleaseSequence_counter]
    exact ih hbound

/-- C11, as the code has it.  Starting from the registry at program start
(empty map, counter 1), after any interleaving of prepare, advance and release
calls in which fewer than `2^63` prepare calls have returned an identifier (a
value other than the sentinels): the `k`-th identifier returned is exactly `k`,
so the identifiers are positive, differ from `-1` and `-2`, and are strictly
increasing in the order of return, which means that none is returned twice
whatever has been released; the counter is the number of identifiers returned
plus one, as a `jlong`; and a further prepare call that returns a sentinel
leaves the registry, counter included, as it was. -/
theorem identifiers_count_up (values : List Int) (registry : Registry)
    (hhist : History values registry)
    (hbound : (identifiers values).length < 9223372036854775808) :
    identifiers values
        = (List.range (identifiers values).length).map (fun (k : Nat) => (k : Int) + 1) ∧
      (∀ v ∈ identifiers values, 0 < v ∧ v ≠ -1 ∧ v ≠ -2) ∧
      (identifiers values).Pairwise (· < ·) ∧
      registry.sequenceIdCounter = wrapInt64 (((identifiers values).length : Int) + 1) ∧
      ∀ (bitmap bitmap1 : Bitmap) (startX startY fillColor tolerance value : Int)
        (registry1 : Registry),
        nativePrepareFillSequence registry bitmap startX startY fillColor tolerance
          = .ok (value, registry1, bitmap1) →
        (value = -1 ∨ value = -2) → registry1 = registry := by
  obtain ⟨hids, hctr⟩ := history_identifiers hhist hbound
  refine ⟨hids, ?_, ?_, hctr, ?_⟩
  · intro v hv
    rw [hids, List.mem_map] at hv
    obtain ⟨k, -, rfl⟩ := hv
    omega
  · rw [hids, List.pairwise_map]
    exact List.Pairwise.imp (fun h => by omega) (List.pairwise_lt_range _)
  · intro bitmap bitmap1 startX startY fillColor tolerance value registry1 hstep hv
    rcases nativePrepareFillSequence_cases hstep with ⟨-, hr⟩ | ⟨hvc, -⟩
    · exact hr
    · exfalso
      rw [hctr] at hvc
      have : value ≠ -1 ∧ value ≠ -2 := by
        rw [hvc]
        unfold wrapInt64
        omega
      rcases hv with hv | hv
      · exact this.1 hv
      · exact this.2 hv

theorem ringRegistry_history : History [1] ringRegistry :=
  History.prepare History.initial ringRegistry_prepared

/-- Witness of the amended C11: the history of one prepare call that returns
the identifier 1 and leaves `ringRegistry`. -/
theorem identifiers_count_up_witness :
    identifiers [1] = (List.range (identifiers [1]).length).map (fun (k : Nat) => (k : Int) + 1) ∧
      (∀ v ∈ identifiers [1], 0 < v ∧ v ≠ -1 ∧ v ≠ -2) ∧
      (identifiers [1]).Pairwise (· < ·) ∧
      ringRegistry.sequenceIdCounter = wrapInt64 (((identifiers [1]).length : Int) + 1) ∧
      ∀ (bitmap bitmap1 : Bitmap) (startX startY fillColor tolerance value : Int)
        (registry1 : Registry),
        nativePrepareFillSequence ringRegistry bitmap startX startY fillColor tolerance
          = .ok (value, registry1, bitmap1) →
        (value = -1 ∨ value = -2) → registry1 = ringRegistry :=
  identifiers_count_up [1] ringRegistry ringRegistry_history (by decide)

theorem nativeReleaseSequence_only (c counter : Int) (sequence : FloodFillSequence) :
    nativeReleaseSequence ⟨insertSequence [] c sequence, counter⟩ c
      = { activeSequences := [], sequenceIdCounter := counter } := by
  unfold nativeReleaseSequence
  simp only []
  rw [findSequence_insertSequence]
  simp [insertSequence, eraseSequence]

/-- Any number `n` of rounds, each a prepare call on the 1 x 1 bitmap (seed
`(0, 0)`, fill colour 1, tolerance 0) followed by the release of the session it
registered: the `k`-th call returns `k` reduced to the `jlong` range. -/
theorem history_prepare_release (n : Nat) :
    History ((List.range n).map (fun (k : Nat) => wrapInt64 ((k : Int) + 1)))
      { activeSequences := [], sequenceIdCounter := wrapInt64 ((n : Int) + 1) } := by
  induction n with
  | zero =>
    have h1 : wrapInt64 (((0 : Nat) : Int) + 1) = 1 :=
      wrapInt64_of_range (by norm_num) (by norm_num)
    rw [h1]
    exact History.initial
  | succ n ih =>
    generalize hc : wrapInt64 ((n : Int) + 1) = c at ih
    obtain ⟨s, -, hcall, -, -, -⟩ :=
      nativePrepareFillSequence_prepared
        { activeSequences := [], sequenceIdCounter := c }
        onePixelBitmap 0 0 1 0 (by decide) (by decide) (by decide) (by decide) (by decide)
        (by decide)
    have h1 := History.prepare ih hcall
    have h2 := @History.release _ _ c h1
    have hnext : wrapInt64 (c + 1) = wrapInt64 (((n + 1 : Nat) : Int) + 1) := by
      rw [← hc, wrapInt64_succ]
      push_cast
      rfl
    rw [List.range_succ, List.map_append, List.map_singleton, hc, ← hnext,
      ← nativeReleaseSequence_only c (wrapInt64 (c + 1)) (preparedSequence onePixelBitmap 1 s)]
    exact h2

/-- Counterexample to C11 as stated.  After `2^63` rounds of a prepare call on
the 1 x 1 bitmap followed by the release of the session, a history from the
registry at program start, the value returned by the last prepare call is an
identifier (it is neither sentinel) and it is `-2^63`: not positive, not the
number `2^63` of the call, and smaller than the identifier 1 returned first. -/
theorem identifier_negative_after_2_pow_63 :
    History ((List.range 9223372036854775808).map (fun (k : Nat) => wrapInt64 ((k : Int) + 1)))
        { activeSequences := [], sequenceIdCounter := -9223372036854775807 } ∧
      ((List.range 9223372036854775808).map
          (fun (k : Nat) => wrapInt64 ((k : Int) + 1)))[9223372036854775807]?
        = some (-9223372036854775808) ∧
      (-9223372036854775808 : Int) ∈
        identifiers ((List.range 9223372036854775808).map (fun (k : Nat) => wrapInt64 ((k : Int) + 1))) ∧
      ¬ (0 < (-9223372036854775808 : Int)) := by
  have hw : wrapInt64 (((9223372036854775807 : Nat) : Int) + 1) = -9223372036854775808 := by
    unfold wrapInt64
    norm_num
  refine ⟨?_, ?_, ?_, by norm_num⟩
  · have h := history_prepare_release 9223372036854775808
    have hc : wrapInt64 (((9223372036854775808 : Nat) : Int) + 1) = -9223372036854775807 := by
      unfold wrapInt64
      norm_num
    rw [hc] at h
    exact h
  · rw [List.getElem?_map, List.getElem?_range (by norm_num), Option.map_some', hw]
  · unfold identifiers
    rw [List.mem_filter, List.mem_map]
    refine ⟨⟨9223372036854775807, List.mem_range.2 (by norm_num), hw⟩, ?_⟩
    simp
/-! ## C15: layers are the depth rings of the traversal -/

section Levels

variable {width height : Int} {orig : List Nat} {oldColor threshold : Nat} {seed : Int × Int}

theorem joined_of_joinedIn {k : Nat} {p : Int × Int}
    (h : JoinedIn width height orig oldColor threshold seed k p) :
    Joined width height orig oldColor threshold seed p := by
  induction h with
  | seed => exact Joined.seed
  | step _ ha hb hs ih => exact Joined.step ih ha hb hs

theorem joinedIn_zero {p : Int × Int}
    (h : JoinedIn width height orig oldColor threshold seed 0 p) : p = seed := by
  cases h
  rfl

theorem joinedIn_succ {k : Nat} {q : Int × Int}
    (h : JoinedIn width height orig oldColor threshold seed (k + 1) q) :
    ∃ p, JoinedIn width height orig oldColor threshold seed k p ∧ Adjacent p q ∧
      InBounds width height q ∧ Similar orig width oldColor threshold q := by
  cases h with
  | step hp ha hb hs => exact ⟨_, hp, ha, hb, hs⟩

theorem exists_depth {p : Int × Int} :
    ∀ (j : Nat), JoinedIn width height orig oldColor threshold seed j p →
    ∃ d, d ≤ j ∧ Depth width height orig oldColor threshold seed d p := by
  intro j
  induction j using Nat.strong_induction_on with
  | _ j ih =>
    intro hj
    by_cases hmin : ∀ i, JoinedIn width height orig oldColor threshold seed i p → j ≤ i
    · exact ⟨j, le_refl _, hj, hmin⟩
    · push_neg at hmin
      obtain ⟨i, hi, hlt⟩ := hmin
      obtain ⟨d, hd, hdepth⟩ := ih i hlt hi
      exact ⟨d, by omega, hdepth⟩

theorem depth_unique {j k : Nat} {p : Int × Int}
    (hj : Depth width height orig oldColor threshold seed j p)
    (hk : Depth width height orig oldColor threshold seed k p) : j = k :=
  le_antisymm (hj.2 k hk.1) (hk.2 j hj.1)

theorem depth_zero_iff {p : Int × Int} :
    Depth width height orig oldColor threshold seed 0 p ↔ p = seed := by
  constructor
  · intro h
    exact joinedIn_zero h.1
  · intro h
    subst h
    exact ⟨JoinedIn.seed, fun _ _ => Nat.zero_le _⟩

theorem frontierNeighbours_adjacent (p0 : Int × Int) :
    ∀ (ds : List (Int × Int)), (∀ d ∈ ds, d ∈ offsets) →
    ∀ (st : List (Int × Int) × List (Int × Int)),
    ∃ added,
      frontierNeighbours width height orig oldColor threshold p0 ds st
        = (st.1 ++ added, st.2 ++ added) ∧
      ∀ q ∈ added, Adjacent p0 q := by
  intro ds
  induction ds with
  | nil =>
    intro _ st
    exact ⟨[], by simp [frontierNeighbours], by simp⟩
  | cons d ds ih =>
    intro hds st
    have hd : d ∈ offsets := hds d (List.mem_cons_self _ _)
    have hrest : ∀ e ∈ ds, e ∈ offsets := fun e he => hds e (List.mem_cons_of_mem _ he)
    have hcons : frontierNeighbours width height orig oldColor threshold p0 (d :: ds) st
        = frontierNeighbours width height orig oldColor threshold p0 ds
            (frontierVisit width height orig oldColor threshold p0 st d) := rfl
    rw [hcons]
    by_cases hc : InBounds width height (p0.1 + d.1, p0.2 + d.2) ∧
        (p0.1 + d.1, p0.2 + d.2) ∉ st.2 ∧
        Similar orig width oldColor threshold (p0.1 + d.1, p0.2 + d.2)
    · have hv : frontierVisit width height orig oldColor threshold p0 st d
          = (st.1 ++ [(p0.1 + d.1, p0.2 + d.2)], st.2 ++ [(p0.1 + d.1, p0.2 + d.2)]) := by
        unfold frontierVisit
        simp only []
        rw [if_pos hc]
      obtain ⟨added, heq, hadj⟩ := ih hrest
        (st.1 ++ [(p0.1 + d.1, p0.2 + d.2)], st.2 ++ [(p0.1 + d.1, p0.2 + d.2)])
      refine ⟨(p0.1 + d.1, p0.2 + d.2) :: added, ?_, ?_⟩
      · rw [hv, heq]
        simp
      · intro q hq
        rcases List.mem_cons.1 hq with hq | hq
        · rw [hq]
          exact adjacent_of_mem_offsets hd
        · exact hadj q hq
    · have hv : frontierVisit width height orig oldColor threshold p0 st d = st := by
        unfold frontierVisit
        simp only []
        rw [if_neg hc]
      rw [hv]
      exact ih hrest st

theorem frontierPops_adjacent :
    ∀ (n : Nat) (queue pushed : List (Int × Int)), n ≤ queue.length →
    ∃ added,
      frontierPops width height orig oldColor threshold n (queue, pushed)
        = (queue.drop n ++ added, pushed ++ added) ∧
      ∀ q ∈ added, ∃ p0 ∈ queue.take n, Adjacent p0 q := by
  intro n
  induction n with
  | zero =>
    intro queue pushed _
    exact ⟨[], by simp [frontierPops], by simp⟩
  | succ n ih =>
    intro queue pushed hn
    cases queue with
    | nil => simp at hn
    | cons p0 rest =>
      have hlen : n ≤ rest.length := by
        simp only [List.length_cons] at hn
        omega
      obtain ⟨a1, h1, hadj1⟩ :=
        @frontierNeighbours_adjacent width height orig oldColor threshold p0 offsets
          (fun _ h => h) (rest, pushed)
      have hpop : frontierPops width height orig oldColor threshold (n + 1) (p0 :: rest, pushed)
          = frontierPops width height orig oldColor threshold n (rest ++ a1, pushed ++ a1) := by
        rw [frontierPops]
        unfold frontierPop
        simp only []
        rw [h1]
      have hlen2 : n ≤ (rest ++ a1).length := by
        rw [List.length_append]
        omega
      obtain ⟨a2, h2, hadj2⟩ := ih (rest ++ a1) (pushed ++ a1) hlen2
      refine ⟨a1 ++ a2, ?_, ?_⟩
      · rw [hpop, h2, List.drop_succ_cons, List.drop_append_of_le_length hlen]
        simp
      · intro q hq
        rcases List.mem_append.1 hq with hq | hq
        · exact ⟨p0, by simp, hadj1 q hq⟩
        · obtain ⟨p1, hp1, hadj⟩ := hadj2 q hq
          rw [List.take_append_of_le_length hlen] at hp1
          exact ⟨p1, by rw [List.take_succ_cons]; exact List.mem_cons_of_mem _ hp1, hadj⟩

theorem levelInv_step {layers : List LayerData} {popped queue queue1 pushed1 : List (Int × Int)}
    (hL : LevelInv width height orig oldColor threshold seed layers queue)
    (hflat : (layers.map LayerData.pixels).flatten = popped)
    (hq : queue ≠ [])
    (hinv1 : FrontierInv width height orig oldColor threshold seed (popped ++ queue)
      queue1 pushed1)
    (hcl1 : Closed width height orig oldColor threshold (popped ++ queue) pushed1)
    (hprov : ∀ q ∈ queue1, ∃ p0 ∈ queue, Adjacent p0 q) :
    LevelInv width height orig oldColor threshold seed
      (layers ++ [{ pixels := queue }]) queue1 := by
  have hA : ∀ (d : Nat) (p : Int × Int),
      Depth width height orig oldColor threshold seed d p → d ≤ layers.length →
      p ∈ popped ++ queue := by
    intro d p hd hle
    by_cases hlt : d < layers.length
    · have hget : layers[d]? = some layers[d] := List.getElem?_eq_getElem hlt
      have hp : p ∈ (layers[d]).pixels := (hL.layer d _ hget p).2 hd
      apply List.mem_append_left
      rw [← hflat, List.mem_flatten]
      exact ⟨_, List.mem_map.2 ⟨layers[d], List.getElem_mem hlt, rfl⟩, hp⟩
    · have : d = layers.length := by omega
      subst this
      exact List.mem_append_right _ ((hL.next p).2 hd)
  have hB : ∀ p ∈ popped ++ queue, ∃ d, d ≤ layers.length ∧
      Depth width height orig oldColor threshold seed d p := by
    intro p hp
    rcases List.mem_append.1 hp with hp | hp
    · rw [← hflat, List.mem_flatten] at hp
      obtain ⟨l0, hl0, hpl⟩ := hp
      obtain ⟨l, hl, rfl⟩ := List.mem_map.1 hl0
      obtain ⟨d, hd, hget⟩ := List.getElem_of_mem hl
      have hsome : layers[d]? = some l := by
        rw [List.getElem?_eq_getElem hd, hget]
      exact ⟨d, by omega, (hL.layer d l hsome p).1 hpl⟩
    · exact ⟨layers.length, le_refl _, (hL.next p).1 hp⟩
  have hsplit := hinv1.split
  have hnd := hinv1.nodup
  rw [hsplit] at hnd
  have hdisj : ∀ q, q ∈ popped ++ queue → q ∈ queue1 → False := by
    intro q h1 h2
    exact (List.nodup_append.1 hnd).2.2 h1 h2
  refine ⟨?_, ?_, ?_⟩
  · intro k l hget p
    by_cases hlt : k < layers.length
    · rw [List.getElem?_append_left hlt] at hget
      exact hL.layer k l hget p
    · have hk : k < (layers ++ [({ pixels := queue } : LayerData)]).length := by
        by_contra hcon
        rw [List.getElem?_eq_none (by omega)] at hget
        cases hget
      rw [List.length_append, List.length_singleton] at hk
      have hke : k = layers.length := by omega
      subst hke
      rw [List.getElem?_append_right (le_refl _), Nat.sub_self] at hget
      simp only [List.getElem?_cons_zero, Option.some.injEq] at hget
      subst hget
      exact hL.next p
  · intro q
    rw [List.length_append, List.length_singleton]
    constructor
    · intro hq1
      obtain ⟨p0, hp0, hadj⟩ := hprov q hq1
      have hqp : q ∈ pushed1 := by
        rw [hsplit]
        exact List.mem_append_right _ hq1
      obtain ⟨hqb, hqs, -⟩ := hinv1.sound q hqp
      refine ⟨JoinedIn.step ((hL.next p0).1 hp0).1 hadj hqb hqs, ?_⟩
      intro j hj
      by_contra hcon
      obtain ⟨d, hd, hdepth⟩ := exists_depth j hj
      exact hdisj q (hA d q hdepth (by omega)) hq1
    · intro hdq
      obtain ⟨p, hp, hadj, hqb, hqs⟩ := joinedIn_succ hdq.1
      obtain ⟨d, hd, hdepth⟩ := exists_depth _ hp
      have hpm : p ∈ popped ++ queue := hA d p hdepth hd
      have hqp : q ∈ pushed1 := hcl1 p hpm q hadj hqb hqs
      rw [hsplit] at hqp
      rcases List.mem_append.1 hqp with hqp | hqp
      · exfalso
        obtain ⟨e, he, hdepthq⟩ := hB q hqp
        have := hdq.2 e hdepthq.1
        omega
      · exact hqp
  · intro l hl
    rcases List.mem_append.1 hl with hl | hl
    · exact hL.nonempty l hl
    · rw [List.mem_singleton] at hl
      subst hl
      exact hq

theorem prepareLoop_levels :
    ∀ (fuel : Nat) (s : PrepareState) (popped : List (Int × Int)),
    FrontierInv width height orig oldColor threshold seed popped s.queue s.pushed →
    Closed width height orig oldColor threshold popped s.pushed →
    PrepareRel width height orig popped { s with layer := { pixels := [] } } →
    LevelInv width height orig oldColor threshold seed s.layers s.queue →
    orig.length < popped.length + fuel →
    ∃ s1, prepareLoop width height oldColor threshold fuel s = .ok s1 ∧
      FrontierInv width height orig oldColor threshold seed s1.pushed [] s1.pushed ∧
      PrepareRel width height orig s1.pushed { s1 with layer := { pixels := [] } } ∧
      LevelInv width height orig oldColor threshold seed s1.layers [] := by
  intro fuel
  induction fuel with
  | zero =>
    intro s popped hinv _ hrel _ hfuel
    exfalso
    have hnd : popped.Nodup := by
      have := hinv.nodup
      rw [hinv.split] at this
      exact this.of_append_left
    have hle := length_le_of_inBounds popped hnd (fun p hp => hrel.inb p (hrel.sub p hp))
    have := hrel.size
    omega
  | succ fuel ih =>
    intro s popped hinv hcl hrel hlev hfuel
    rw [prepareLoop]
    by_cases hq : s.queue = []
    · rw [if_pos hq]
      have hpush : s.pushed = popped := by
        rw [hinv.split, hq, List.append_nil]
      subst hpush
      rw [hq] at hinv hlev
      exact ⟨s, rfl, hinv, hrel, hlev⟩
    · rw [if_neg hq]
      obtain ⟨s1, h1, hfr, hls1, hl1, hinv1, hcl1, hr1⟩ :=
        prepareWave_ok (s.queue.length) { s with layer := { pixels := [] } } popped
          (le_refl _) hinv hcl hrel
      simp only [List.take_length, List.nil_append] at hl1 hinv1 hcl1 hr1
      have hlayers1 : s1.layers = s.layers := hls1
      have hlayer1 : s1.layer = { pixels := s.queue } := by
        cases hl : s1.layer with
        | mk px =>
          rw [hl] at hl1
          simp only [] at hl1
          rw [hl1]
      have hne : s1.layer.pixels ≠ [] := by
        rw [hl1]
        exact hq
      have hflat : (s.layers.map LayerData.pixels).flatten = popped := by
        have := hrel.collected
        simpa using this
      obtain ⟨added, hpops, hadj⟩ :=
        @frontierPops_adjacent width height orig oldColor threshold
          s.queue.length s.queue s.pushed (le_refl _)
      have hfr1 : (s1.queue, s1.pushed)
          = frontierPops width height orig oldColor threshold s.queue.length
              (s.queue, s.pushed) := hfr
      rw [hpops, List.drop_length, List.nil_append] at hfr1
      rw [List.take_length] at hadj
      have hqueue1 : s1.queue = added := (Prod.mk.inj hfr1).1
      have hprov : ∀ q ∈ s1.queue, ∃ p0 ∈ s.queue, Adjacent p0 q := by
        rw [hqueue1]
        exact hadj
      have hlev1 := levelInv_step hlev hflat hq hinv1 hcl1 hprov
      simp only []
      rw [h1, ok_bind, if_pos hne, hlayers1, hlayer1]
      refine ih { s1 with
          layer := { pixels := s.queue }
          layers := s.layers ++ [{ pixels := s.queue }] }
        (popped ++ s.queue) hinv1 hcl1 ?_ hlev1 ?_
      · refine ⟨hr1.size, hr1.pixels, hr1.vlen, hr1.visited_iff, hr1.inb, hr1.sub, ?_,
          hr1.total, hr1.skipped⟩
        show ((s.layers ++ [({ pixels := s.queue } : LayerData)]).map
          LayerData.pixels).flatten ++ [] = popped ++ s.queue
        rw [List.append_nil, List.map_append, List.flatten_append, hflat]
        simp
      · have : 0 < s.queue.length := List.length_pos.2 hq
        rw [List.length_append]
        omega

end Levels

theorem prepareCore_levels {width height : Int} {orig : List Nat}
    (startX startY fillColor tolerance : Int)
    (hsize : (orig.length : Int) = width * height)
    (hseed : InBounds width height (startX, startY))
    (hdiff : ¬ colorDistance (pixelAt orig width (startX, startY)) (argbToRgba fillColor)
      ≤ fillThreshold tolerance)
    (fuel : Nat) (hfuel : orig.length < fuel) :
    ∃ s, prepareCore fuel width height orig startX startY fillColor tolerance = .ok (some s) ∧
      (s.layers.map LayerData.pixels).flatten.Nodup ∧
      LevelInv width height orig (pixelAt orig width (startX, startY))
        (fillThreshold tolerance) (startX, startY) s.layers [] := by
  have hidx : startY * width + startX = linearIndex width (startX, startY) := rfl
  have hvl : ((List.replicate (width * height).toNat false).length : Int) = width * height := by
    rw [List.length_replicate]
    omega
  have hinv0 : FrontierInv width height orig (pixelAt orig width (startX, startY))
      (fillThreshold tolerance) (startX, startY) [] [(startX, startY)] [(startX, startY)] := by
    refine ⟨rfl, List.nodup_singleton _, ?_, List.mem_singleton_self _⟩
    intro p hp
    rw [List.mem_singleton] at hp
    subst hp
    refine ⟨hseed, ?_, Joined.seed⟩
    show colorDistance _ _ ≤ _
    rw [colorDistance_self]
    exact Nat.zero_le _
  have hcl0 : Closed width height orig (pixelAt orig width (startX, startY))
      (fillThreshold tolerance) [] [(startX, startY)] := by
    intro p hp
    simp at hp
  have hrel0 : PrepareRel width height orig []
      { pixelData := orig, queue := [(startX, startY)],
        visited := (List.replicate (width * height).toNat false).set
          (linearIndex width (startX, startY)).toNat true,
        layer := { pixels := [] }, layers := [], totalPixels := 0,
        pushed := [(startX, startY)], skipped := 0 } := by
    refine ⟨hsize, rfl, ?_, ?_, ?_, ?_, rfl, rfl, rfl⟩
    · simp only [List.length_set, List.length_replicate]
      omega
    · intro p hp
      simp only []
      rw [visited_set hvl hseed hp, List.mem_singleton]
      by_cases hpe : p = (startX, startY)
      · simp [hpe]
      · rw [if_neg hpe, List.getD_eq_getElem?_getD, List.getElem?_replicate]
        have hne : ¬ (List.replicate (width * height).toNat false)[(linearIndex width p).toNat]?.getD
            false = true := by
          rw [List.getElem?_replicate]
          split <;> simp
        rw [List.getElem?_replicate] at hne
        simpa [hpe] using hne
    · intro p hp
      rw [List.mem_singleton] at hp
      exact hp ▸ hseed
    · intro p hp
      simp at hp
  have hlev0 : LevelInv width height orig (pixelAt orig width (startX, startY))
      (fillThreshold tolerance) (startX, startY) [] [(startX, startY)] := by
    refine ⟨?_, ?_, ?_⟩
    · intro k l hget
      simp at hget
    · intro p
      rw [List.mem_singleton]
      exact depth_zero_iff.symm
    · intro l hl
      simp at hl
  obtain ⟨s, hs, hinv, hrel, hlev⟩ :=
    prepareLoop_levels fuel
      { pixelData := orig, queue := [(startX, startY)],
        visited := (List.replicate (width * height).toNat false).set
          (linearIndex width (startX, startY)).toNat true,
        layer := { pixels := [] }, layers := [], totalPixels := 0,
        pushed := [(startX, startY)], skipped := 0 } [] hinv0 hcl0 hrel0 hlev0
      (by simpa using hfuel)
  refine ⟨s, ?_, ?_, hlev⟩
  · unfold prepareCore
    rw [hidx, readPixel_inBounds hsize hseed, ok_bind]
    simp only []
    rw [if_neg hdiff, markVisited_inBounds hvl hseed, ok_bind, hs, ok_bind]
  · have hflat : (s.layers.map LayerData.pixels).flatten = s.pushed := by
      have := hrel.collected
      simpa using this
    rw [hflat]
    exact hinv.nodup
theorem eq_singleton_of_nodup {α : Type} {l : List α} {a : α} (hnd : l.Nodup)
    (hmem : a ∈ l) (hall : ∀ b ∈ l, b = a) : l = [a] := by
  cases l with
  | nil => simp at hmem
  | cons x xs =>
    have hx : x = a := hall x (List.mem_cons_self _ _)
    cases xs with
    | nil => rw [hx]
    | cons y ys =>
      exfalso
      have hy : y = a := hall y (List.mem_cons_of_mem _ (List.mem_cons_self _ _))
      rw [hx, hy] at hnd
      simp at hnd

/-- C15.  On a usable bitmap whose pixel memory has `width * height` entries,
with the seed inside the bitmap and a fill colour not within the threshold of
the seed colour `oldColor`: in the session that `nativePrepareFillSequence`
registers, a pixel is stored in layer `k` (0-based) iff its shortest
8-connected path from the seed through in-bounds pixels within the threshold of
`oldColor` has `k` steps; no pixel is stored twice, neither within a layer nor
in two layers; layer 0 is exactly `[seed]`; and no layer is empty. -/
theorem layers_are_depth_rings (registry : Registry) (bitmap : Bitmap)
    (startX startY fillColor tolerance : Int)
    (hinfo : 0 ≤ bitmap.getInfoResult)
    (hformat : bitmap.format = ANDROID_BITMAP_FORMAT_RGBA_8888)
    (hlock : 0 ≤ bitmap.lockPixelsResult)
    (hsize : (bitmap.pixels.length : Int) = bitmap.width * bitmap.height)
    (hseed : InBounds bitmap.width bitmap.height (startX, startY))
    (hdiff : ¬ colorDistance (pixelAt bitmap.pixels bitmap.width (startX, startY))
      (argbToRgba fillColor) ≤ fillThreshold tolerance) :
    ∃ (registry1 : Registry) (sequence : FloodFillSequence),
      nativePrepareFillSequence registry bitmap startX startY fillColor tolerance
        = .ok (registry.sequenceIdCounter, registry1, bitmap) ∧
      findSequence registry1.activeSequences registry.sequenceIdCounter = some sequence ∧
      (∀ (k : Nat) (p : Int × Int),
        (∃ l, sequence.layers[k]? = some l ∧ p ∈ l.pixels) ↔
          Depth bitmap.width bitmap.height bitmap.pixels
            (pixelAt bitmap.pixels bitmap.width (startX, startY))
            (fillThreshold tolerance) (startX, startY) k p) ∧
      (sequence.layers.map LayerData.pixels).flatten.Nodup ∧
      (∀ l ∈ sequence.layers, l.pixels.Nodup) ∧
      (∀ (j k : Nat) (lj lk : LayerData) (p : Int × Int),
        sequence.layers[j]? = some lj → sequence.layers[k]? = some lk →
        p ∈ lj.pixels → p ∈ lk.pixels → j = k) ∧
      sequence.layers[0]? = some { pixels := [(startX, startY)] } ∧
      (∀ l ∈ sequence.layers, l.pixels ≠ []) := by
  obtain ⟨s, hs, hcall, hinv, hcl, hrel⟩ :=
    nativePrepareFillSequence_prepared registry bitmap startX startY fillColor tolerance
      hinfo hformat hlock hsize hseed hdiff
  obtain ⟨s2, hs2, hnd, hlev⟩ :=
    prepareCore_levels startX startY fillColor tolerance hsize hseed hdiff
      (bitmap.pixels.length + 1) (Nat.lt_succ_self _)
  have hss : s2 = s := by
    rw [hs] at hs2
    cases hs2
    rfl
  subst hss
  have hflat : (s2.layers.map LayerData.pixels).flatten = s2.pushed := by
    have := hrel.collected
    simpa using this
  have hiff : ∀ (k : Nat) (p : Int × Int),
      (∃ l, s2.layers[k]? = some l ∧ p ∈ l.pixels) ↔
        Depth bitmap.width bitmap.height bitmap.pixels
          (pixelAt bitmap.pixels bitmap.width (startX, startY))
          (fillThreshold tolerance) (startX, startY) k p := by
    intro k p
    constructor
    · rintro ⟨l, hget, hp⟩
      exact (hlev.layer k l hget p).1 hp
    · intro hd
      have hj := joined_of_joinedIn hd.1
      have hpush : p ∈ s2.pushed := (mem_pushed_iff_joined hinv hcl p).2 hj
      rw [← hflat, List.mem_flatten] at hpush
      obtain ⟨l0, hl0, hpl⟩ := hpush
      obtain ⟨l, hl, rfl⟩ := List.mem_map.1 hl0
      obtain ⟨d, hdlt, hget⟩ := List.getElem_of_mem hl
      have hsome : s2.layers[d]? = some l := by
        rw [List.getElem?_eq_getElem hdlt, hget]
      have hdd := (hlev.layer d l hsome p).1 hpl
      have : d = k := depth_unique hdd hd
      subst this
      exact ⟨l, hsome, hpl⟩
  have hnds : ∀ l ∈ s2.layers, l.pixels.Nodup := by
    intro l hl
    exact (List.nodup_flatten.1 hnd).1 _ (List.mem_map.2 ⟨l, hl, rfl⟩)
  refine ⟨_, preparedSequence bitmap fillColor s2, hcall,
    findSequence_insertSequence _ _ _, hiff, hnd, hnds, ?_, ?_, hlev.nonempty⟩
  · intro j k lj lk p hj hk hpj hpk
    exact depth_unique ((hlev.layer j lj hj p).1 hpj) ((hlev.layer k lk hk p).1 hpk)
  · obtain ⟨l, hget, hmem⟩ := (hiff 0 (startX, startY)).2 (depth_zero_iff.2 rfl)
    have hl : l ∈ s2.layers := by
      obtain ⟨h0, he⟩ := List.getElem?_eq_some.1 hget
      exact he ▸ List.getElem_mem h0
    have hall : ∀ b ∈ l.pixels, b = (startX, startY) := fun b hb =>
      depth_zero_iff.1 ((hlev.layer 0 l hget b).1 hb)
    have hpx := eq_singleton_of_nodup (hnds l hl) hmem hall
    show s2.layers[0]? = some { pixels := [(startX, startY)] }
    rw [hget]
    cases l with
    | mk px =>
      simp only [] at hpx
      rw [hpx]

/-- Witness of C15: the 3 x 3 bitmap with the seed `(0, 1)` satisfies the
hypotheses; its session is `ringSequence`, whose layers are the depth rings
`[(0, 1)]`, `[(0, 0), (1, 0), (0, 2), (1, 2)]` and `[(2, 0), (2, 1), (2, 2)]`
around the centre pixel, which is not within the threshold. -/
theorem layers_are_depth_rings_witness :
    (∃ (registry1 : Registry) (sequence : FloodFillSequence),
      nativePrepareFillSequence Registry.initial ringBitmap 0 1 opaqueRed 0
        = .ok (Registry.initial.sequenceIdCounter, registry1, ringBitmap) ∧
      findSequence registry1.activeSequences Registry.initial.sequenceIdCounter
        = some sequence ∧
      (∀ (k : Nat) (p : Int × Int),
        (∃ l, sequence.layers[k]? = some l ∧ p ∈ l.pixels) ↔
          Depth ringBitmap.width ringBitmap.height ringBitmap.pixels
            (pixelAt ringBitmap.pixels ringBitmap.width (0, 1))
            (fillThreshold 0) (0, 1) k p) ∧
      (sequence.layers.map LayerData.pixels).flatten.Nodup ∧
      (∀ l ∈ sequence.layers, l.pixels.Nodup) ∧
      (∀ (j k : Nat) (lj lk : LayerData) (p : Int × Int),
        sequence.layers[j]? = some lj → sequence.layers[k]? = some lk →
        p ∈ lj.pixels → p ∈ lk.pixels → j = k) ∧
      sequence.layers[0]? = some { pixels := [(0, 1)] } ∧
      (∀ l ∈ sequence.layers, l.pixels ≠ [])) ∧
    nativePrepareFillSequence Registry.initial ringBitmap 0 1 opaqueRed 0
      = .ok (1, { activeSequences := [(1, ringSequence)], sequenceIdCounter := 2 },
          ringBitmap) :=
  ⟨layers_are_depth_rings Registry.initial ringBitmap 0 1 opaqueRed 0
      (by decide) (by decide) (by decide) (by decide) (by decide) (by decide),
    by decide⟩

end FloodFill
